import Mathlib

/-!
Shard reconciliation of the block scanner (`example/block-scan/main.go`).

A shallow embedding of `getShardID`, `getNotSeenShards` and of the master loop of `main`,
followed by the properties established for them.

Conventions of the embedding:

* Go's fixed-width integers are `Int` / `Nat` (`int32`, `int64`, `uint32`, `uint64`); the
  conversions between widths (`uint64(shard.Shard)`, `int64(masterShard)`,
  `uint32(masterStartSeqNo-1)`) are written with `% 2 ^ 64` and `% 2 ^ 32`, and the counter of
  the master loop stays below its `uint32` bound.
* The lite-server client (`ton.APIClient`) and the `tlb` types are collaborators of the scanner.
  A client is a record of response functions; each of them receives, as first argument, the
  history of the calls made so far, so a client may answer the same request differently at
  different times (failover, cancellation, a chain that advances).  A client whose answers ignore
  the history is a deterministic provider.
* A Go function returning `(ret, err)` returns a record with both components, so that
  `return nil, err` is visibly the empty list.
* The recursion of `getNotSeenShards` and the pagination loop need not terminate; they take a
  `fuel` bound and return `none` when it is exhausted.
-/

namespace BlockScan

/-! ## Data model -/

/-- Block reference `tlb.BlockInfo`: workchain (`int32`), shard mask (`int64`), sequence number
(`uint32`) and the two hashes that identify the block for the provider. -/
structure BlockInfo where
  Workchain : Int
  Shard : Int
  SeqNo : Nat
  RootHash : List Nat
  FileHash : List Nat
deriving DecidableEq, Repr

/-- Go `error` values: one produced by a collaborator, or `fmt.Errorf("<text>%w", cause)`. -/
inductive Error where
  | raised (msg : String)
  | wrapped (text : String) (cause : Error)
deriving DecidableEq, Repr

/-- Text of `err.Error()`. -/
def Error.message : Error → String
  | Error.raised msg => msg
  | Error.wrapped text cause => text ++ cause.message

/-- Header `tlb.BlockHeader`, reduced to what the scanner reads from it: the outcome of
`GetParentBlocks()`. -/
structure BlockHeader where
  GetParentBlocks : Except Error (List BlockInfo)

/-- Block `tlb.Block`; the scanner only reads its `BlockInfo` header. -/
structure Block where
  BlockInfo : BlockHeader

/-- Cursor `tlb.TransactionID`. -/
structure TransactionID where
  LT : Nat
  Hash : List Nat
  AccountID : List Nat
deriving DecidableEq, Repr

/-- Result of `address.NewAddress(flags, workchain, data)`. -/
structure Address where
  flags : Nat
  workchain : Int
  data : List Nat
deriving DecidableEq, Repr

/-- Record `tlb.Transaction`, as far as the scanner is concerned an opaque payload. -/
structure Transaction where
  AccountAddr : List Nat
  LT : Nat
  payload : List Nat
deriving DecidableEq, Repr

/-- Storage for the last seen shard sequence numbers, `map[string]uint32`. -/
abbrev Tracker := String → Option Nat

/-- The empty map `map[string]uint32{}`. -/
def Tracker.empty : Tracker := fun _ => none

/-- Assignment `m[key] = seqno`. -/
def Tracker.set (m : Tracker) (key : String) (seqno : Nat) : Tracker :=
  fun k => if k = key then some seqno else m k

/-! ## The provider -/

/-- One request sent to the lite server. -/
inductive Call where
  | LookupBlock (workchain : Int) (shard : Int) (seqno : Nat)
  | GetBlockShardsInfo (master : BlockInfo)
  | GetBlockData (block : BlockInfo)
  | GetBlockTransactions (block : BlockInfo) (count : Nat) (after : Option TransactionID)
  | GetTransaction (block : BlockInfo) (addr : Address) (lt : Nat)
deriving DecidableEq, Repr

/-- Client `ton.APIClient`.  The first argument of every method is the list of the calls that
were made before this one. -/
structure APIClient where
  LookupBlock : List Call → Int → Int → Nat → Except Error BlockInfo
  GetBlockShardsInfo : List Call → BlockInfo → Except Error (List BlockInfo)
  GetBlockData : List Call → BlockInfo → Except Error Block
  GetBlockTransactions :
    List Call → BlockInfo → Nat → Option TransactionID → Except Error (List TransactionID × Bool)
  GetTransaction : List Call → BlockInfo → Address → Nat → Except Error Transaction

/-! ## Formatting verbs of `fmt` -/

/-- Verb `%d` on a signed integer. -/
def fmtDecimal : Int → String
  | Int.ofNat n => String.mk (Nat.toDigits 10 n)
  | Int.negSucc n => String.mk ('-' :: Nat.toDigits 10 (n + 1))

/-- Verb `%x` on an unsigned integer. -/
def fmtHex (n : Nat) : String := String.mk (Nat.toDigits 16 n)

/-- Conversion `uint64(x)` of an `int64`. -/
def toUint64 (x : Int) : Nat := (x % 2 ^ 64).toNat

/-! ## `getShardID` and `getNotSeenShards` -/

/-- Storage map key: `fmt.Sprintf("%d|%d", shard.Workchain, shard.Shard)`. -/
def getShardID (shard : BlockInfo) : String :=
  fmtDecimal shard.Workchain ++ "|" ++ fmtDecimal shard.Shard

/-- What a call of `getNotSeenShards` hands back: the two Go results and the call history as it
stands when the call returns. -/
structure Returned where
  ret : List BlockInfo
  err : Option Error
  calls : List Call
deriving DecidableEq, Repr

/-- Guard of line 20: `no, ok := shardLastSeqno[getShardID(shard)]; ok && no == shard.SeqNo`. -/
def alreadySeen (shardLastSeqno : Tracker) (shard : BlockInfo) : Bool :=
  match shardLastSeqno (getShardID shard) with
  | some no => no == shard.SeqNo
  | none => false

/-- Text put in front of a failed parent lookup (line 31):
`"get parent blocks (%d:%x:%d): "` applied to `shard.Workchain, uint64(shard.Shard), shard.Shard`. -/
def parentBlocksErrText (shard : BlockInfo) : String :=
  "get parent blocks (" ++ fmtDecimal shard.Workchain ++ ":" ++ fmtHex (toUint64 shard.Shard)
    ++ ":" ++ fmtDecimal shard.Shard ++ "): "

/-- The `for _, parent := range parents` loop of lines 34-40, over the recursive call `recurse`.
`ret` is the list accumulated so far. -/
def parentsLoop (recurse : List Call → BlockInfo → Option Returned) :
    List BlockInfo → List BlockInfo → List Call → Option Returned
  | [], ret, calls => some ⟨ret, none, calls⟩
  | parent :: rest, ret, calls =>
    match recurse calls parent with
    | none => none
    | some ext =>
      match ext.err with
      | some err => some ⟨[], some err, ext.calls⟩
      | none => parentsLoop recurse rest (ret ++ ext.ret) ext.calls

/-- Function `getNotSeenShards` (lines 19-44); `fuel` bounds the depth of the recursion. -/
def getNotSeenShards (api : APIClient) :
    Nat → List Call → BlockInfo → Tracker → Option Returned
  | 0, _, _, _ => none
  | fuel + 1, calls, shard, shardLastSeqno =>
    if alreadySeen shardLastSeqno shard then
      some ⟨[], none, calls⟩
    else
      match api.GetBlockData calls shard with
      | Except.error err =>
        some ⟨[], some (Error.wrapped "get block data: " err), calls ++ [Call.GetBlockData shard]⟩
      | Except.ok b =>
        match b.BlockInfo.GetParentBlocks with
        | Except.error err =>
          some ⟨[], some (Error.wrapped (parentBlocksErrText shard) err),
            calls ++ [Call.GetBlockData shard]⟩
        | Except.ok parents =>
          match parentsLoop (fun c parent => getNotSeenShards api fuel c parent shardLastSeqno)
              parents [] (calls ++ [Call.GetBlockData shard]) with
          | none => none
          | some r =>
            match r.err with
            | some err => some ⟨[], some err, r.calls⟩
            | none => some ⟨r.ret ++ [shard], none, r.calls⟩

/-- The loop of lines 34-40 with the map as state: every recursive call receives the map as the
call before left it and hands it back. -/
def parentsLoopSt (recurse : List Call → BlockInfo → Tracker → Option (Returned × Tracker)) :
    List BlockInfo → List BlockInfo → List Call → Tracker → Option (Returned × Tracker)
  | [], ret, calls, m => some (⟨ret, none, calls⟩, m)
  | parent :: rest, ret, calls, m =>
    match recurse calls parent m with
    | none => none
    | some (ext, m') =>
      match ext.err with
      | some err => some (⟨[], some err, ext.calls⟩, m')
      | none => parentsLoopSt recurse rest (ret ++ ext.ret) ext.calls m'

/-- State-passing reading of `getNotSeenShards` (lines 19-44).  A Go map is a reference, so the
function could write to `shardLastSeqno`; here the map is state that goes into every call and
comes out of it.  No statement of the function assigns to the map, so each step hands on the map
it received. -/
def getNotSeenShardsSt (api : APIClient) :
    Nat → List Call → BlockInfo → Tracker → Option (Returned × Tracker)
  | 0, _, _, _ => none
  | fuel + 1, calls, shard, shardLastSeqno =>
    if alreadySeen shardLastSeqno shard then
      some (⟨[], none, calls⟩, shardLastSeqno)
    else
      match api.GetBlockData calls shard with
      | Except.error err =>
        some (⟨[], some (Error.wrapped "get block data: " err),
          calls ++ [Call.GetBlockData shard]⟩, shardLastSeqno)
      | Except.ok b =>
        match b.BlockInfo.GetParentBlocks with
        | Except.error err =>
          some (⟨[], some (Error.wrapped (parentBlocksErrText shard) err),
            calls ++ [Call.GetBlockData shard]⟩, shardLastSeqno)
        | Except.ok parents =>
          match parentsLoopSt (fun c parent m => getNotSeenShardsSt api fuel c parent m)
              parents [] (calls ++ [Call.GetBlockData shard]) shardLastSeqno with
          | none => none
          | some (r, m) =>
            match r.err with
            | some err => some (⟨[], some err, r.calls⟩, m)
            | none => some (⟨r.ret ++ [shard], none, r.calls⟩, m)

/-! ## The master loop of `main` -/

/-- Ways the process stops before the scan range is finished. -/
inductive Exit where
  | fatal (text : String) (err : Error)
  | indexOutOfRange
deriving DecidableEq, Repr

/-- Conversion `int64(x)` of a `uint64`. -/
def toInt64 (x : Nat) : Int :=
  if x % 2 ^ 64 < 2 ^ 63 then ((x % 2 ^ 64 : Nat) : Int) else ((x % 2 ^ 64 : Nat) : Int) - 2 ^ 64

/-- Seeding loop of lines 84-86, started from the map `m`. -/
def seedLoop : List BlockInfo → Tracker → Tracker
  | [], m => m
  | shard :: rest, m => seedLoop rest (m.set (getShardID shard) shard.SeqNo)

/-- State of the per-shard-head loop (lines 105-114) when it is left: the list `newShards`, the
map, the call history and, when the loop was left through `log.Fatalln`, the exit. -/
structure ShardsScan where
  newShards : List BlockInfo
  shardLastSeqno : Tracker
  calls : List Call
  exit : Option Exit

/-- The `for _, shard := range currentShards` loop of lines 106-114. -/
def shardsLoop (api : APIClient) (fuel : Nat) :
    List BlockInfo → List BlockInfo → Tracker → List Call → Option ShardsScan
  | [], newShards, shardLastSeqno, calls => some ⟨newShards, shardLastSeqno, calls, none⟩
  | shard :: rest, newShards, shardLastSeqno, calls =>
    match getNotSeenShards api fuel calls shard shardLastSeqno with
    | none => none
    | some notSeen =>
      match notSeen.err with
      | some err =>
        some ⟨newShards, shardLastSeqno, notSeen.calls,
          some (Exit.fatal "get not seen shards err:" err)⟩
      | none =>
        shardsLoop api fuel rest (newShards ++ notSeen.ret)
          (shardLastSeqno.set (getShardID shard) shard.SeqNo) notSeen.calls

/-- State of the transaction enumeration when it is left. -/
structure TxScan where
  txList : List Transaction
  calls : List Call
  exit : Option Exit

/-- The `for _, id := range fetchedIDs` loop of lines 139-147. -/
def resolveLoop (api : APIClient) (shard : BlockInfo) :
    List TransactionID → List Transaction → List Call → TxScan
  | [], txList, calls => ⟨txList, calls, none⟩
  | id :: rest, txList, calls =>
    match api.GetTransaction calls shard (Address.mk 0 0 id.AccountID) id.LT with
    | Except.error err =>
      ⟨txList, calls ++ [Call.GetTransaction shard (Address.mk 0 0 id.AccountID) id.LT],
        some (Exit.fatal "get tx data err:" err)⟩
    | Except.ok tx =>
      resolveLoop api shard rest (txList ++ [tx])
        (calls ++ [Call.GetTransaction shard (Address.mk 0 0 id.AccountID) id.LT])

/-- The `for more` loop of lines 127-148 for one block, entered with `more = true`; `fuel`
bounds the number of passes. -/
def pageLoop (api : APIClient) (shard : BlockInfo) :
    Nat → Option TransactionID → List Transaction → List Call → Option TxScan
  | 0, _, _, _ => none
  | fuel + 1, after, txList, calls =>
    match api.GetBlockTransactions calls shard 100 after with
    | Except.error err =>
      some ⟨txList, calls ++ [Call.GetBlockTransactions shard 100 after],
        some (Exit.fatal "get tx ids err:" err)⟩
    | Except.ok (fetchedIDs, more) =>
      if more then
        match fetchedIDs.getLast? with
        | none =>
          some ⟨txList, calls ++ [Call.GetBlockTransactions shard 100 after],
            some Exit.indexOutOfRange⟩
        | some last =>
          let r := resolveLoop api shard fetchedIDs txList
            (calls ++ [Call.GetBlockTransactions shard 100 after])
          match r.exit with
          | some _ => some r
          | none => pageLoop api shard fuel (some last) r.txList r.calls
      else
        some (resolveLoop api shard fetchedIDs txList
          (calls ++ [Call.GetBlockTransactions shard 100 after]))

/-- The `for _, shard := range newShards` loop of lines 119-149. -/
def blocksLoop (api : APIClient) (fuel : Nat) :
    List BlockInfo → List Transaction → List Call → Option TxScan
  | [], txList, calls => some ⟨txList, calls, none⟩
  | shard :: rest, txList, calls =>
    match pageLoop api shard fuel none txList calls with
    | none => none
    | some r =>
      match r.exit with
      | some _ => some r
      | none => blocksLoop api fuel rest r.txList r.calls

/-- What one completed pass of the master loop produced. -/
structure Iteration where
  master : BlockInfo
  newShards : List BlockInfo
  txList : List Transaction

/-- State of the scan: the map, the call history and the passes completed so far, oldest
first. -/
structure State where
  shardLastSeqno : Tracker
  calls : List Call
  passes : List Iteration

/-- Body of the master loop (lines 89-157) for the master sequence number `seqNo`.  The second
component is the exit when the pass ended the process; the state is then the one at that
moment. -/
def masterStep (api : APIClient) (fuel : Nat) (masterShard : Nat) (st : State) (seqNo : Nat) :
    Option (State × Option Exit) :=
  match api.LookupBlock st.calls (-1) (toInt64 masterShard) seqNo with
  | Except.error err =>
    some (⟨st.shardLastSeqno,
      st.calls ++ [Call.LookupBlock (-1) (toInt64 masterShard) seqNo], st.passes⟩,
      some (Exit.fatal "wait next master err:" err))
  | Except.ok master =>
    match api.GetBlockShardsInfo
        (st.calls ++ [Call.LookupBlock (-1) (toInt64 masterShard) seqNo]) master with
    | Except.error err =>
      some (⟨st.shardLastSeqno,
        st.calls ++ [Call.LookupBlock (-1) (toInt64 masterShard) seqNo,
          Call.GetBlockShardsInfo master], st.passes⟩,
        some (Exit.fatal "get shards err:" err))
    | Except.ok currentShards =>
      match shardsLoop api fuel currentShards [] st.shardLastSeqno
          (st.calls ++ [Call.LookupBlock (-1) (toInt64 masterShard) seqNo,
            Call.GetBlockShardsInfo master]) with
      | none => none
      | some s =>
        match s.exit with
        | some e => some (⟨s.shardLastSeqno, s.calls, st.passes⟩, some e)
        | none =>
          match blocksLoop api fuel s.newShards [] s.calls with
          | none => none
          | some t =>
            match t.exit with
            | some e => some (⟨s.shardLastSeqno, t.calls, st.passes⟩, some e)
            | none =>
              some (⟨s.shardLastSeqno, t.calls,
                st.passes ++ [⟨master, s.newShards, t.txList⟩]⟩, none)

/-- The master loop of line 88 over the sequence numbers still to scan. -/
def masterLoop (api : APIClient) (fuel : Nat) (masterShard : Nat) :
    List Nat → State → Option (State × Option Exit)
  | [], st => some (st, none)
  | seqNo :: rest, st =>
    match masterStep api fuel masterShard st seqNo with
    | none => none
    | some (st', some e) => some (st', some e)
    | some (st', none) => masterLoop api fuel masterShard rest st'

/-- Function `main` from line 63 on, for a scan range given as the two `uint64` variables
`masterStartSeqNo` and `masterEndSeqNo`: lookup of the master block before the range, seeding
of the map from its shards, then the master loop. -/
def scan (api : APIClient) (fuel : Nat) (masterShard masterStartSeqNo masterEndSeqNo : Nat) :
    Option (State × Option Exit) :=
  match api.LookupBlock [] (-1) (toInt64 masterShard)
      (((masterStartSeqNo + 2 ^ 64 - 1) % 2 ^ 64) % 2 ^ 32) with
  | Except.error err =>
    some (⟨Tracker.empty,
      [Call.LookupBlock (-1) (toInt64 masterShard)
        (((masterStartSeqNo + 2 ^ 64 - 1) % 2 ^ 64) % 2 ^ 32)], []⟩,
      some (Exit.fatal "lookup master block err: " err))
  | Except.ok master =>
    match api.GetBlockShardsInfo
        [Call.LookupBlock (-1) (toInt64 masterShard)
          (((masterStartSeqNo + 2 ^ 64 - 1) % 2 ^ 64) % 2 ^ 32)] master with
    | Except.error err =>
      some (⟨Tracker.empty,
        [Call.LookupBlock (-1) (toInt64 masterShard)
          (((masterStartSeqNo + 2 ^ 64 - 1) % 2 ^ 64) % 2 ^ 32),
          Call.GetBlockShardsInfo master], []⟩,
        some (Exit.fatal "get shards err:" err))
    | Except.ok firstShards =>
      masterLoop api fuel masterShard
        (List.range' (masterStartSeqNo % 2 ^ 32)
          (masterEndSeqNo % 2 ^ 32 - masterStartSeqNo % 2 ^ 32))
        ⟨seedLoop firstShards Tracker.empty,
          [Call.LookupBlock (-1) (toInt64 masterShard)
            (((masterStartSeqNo + 2 ^ 64 - 1) % 2 ^ 64) % 2 ^ 32),
            Call.GetBlockShardsInfo master], []⟩

/-- Function `main` with the constants of line 63. -/
def main (api : APIClient) (fuel : Nat) : Option (State × Option Exit) :=
  scan api fuel 0x8000000000000000 4230350 4230700

/-! ## Concrete providers used to instantiate the theorems -/

namespace Fixture

/-- Block reference with the given workchain, shard and sequence number; `tag` fills the
hashes. -/
def blk (workchain shard : Int) (seqno tag : Nat) : BlockInfo :=
  ⟨workchain, shard, seqno, [tag], [tag]⟩

/-- Error returned by the fixtures for requests they do not serve. -/
def unavailable : Error := Error.raised "unavailable"

/-- Client that fails every request. -/
def deadClient : APIClient where
  LookupBlock := fun _ _ _ _ => Except.error unavailable
  GetBlockShardsInfo := fun _ _ => Except.error unavailable
  GetBlockData := fun _ _ => Except.error unavailable
  GetBlockTransactions := fun _ _ _ _ => Except.error unavailable
  GetTransaction := fun _ _ _ _ => Except.error unavailable

/-- Client serving a fixed chain: master blocks by sequence number, the shard heads each master
block declares, the parent list of each block and the transaction IDs of each block, paged
strictly after the cursor.  Its answers do not depend on the call history. -/
def tableClient (masters : Nat → Except Error BlockInfo)
    (shards : BlockInfo → Except Error (List BlockInfo))
    (parents : BlockInfo → Except Error (List BlockInfo))
    (txs : BlockInfo → List TransactionID) : APIClient where
  LookupBlock := fun _ _ _ seqno => masters seqno
  GetBlockShardsInfo := fun _ master => shards master
  GetBlockData := fun _ b => Except.ok ⟨⟨parents b⟩⟩
  GetBlockTransactions := fun _ b count after =>
    match after with
    | none => Except.ok ((txs b).take count, decide (count < (txs b).length))
    | some c =>
      Except.ok ((((txs b).dropWhile (fun t => t != c)).drop 1).take count,
        decide (count < (((txs b).dropWhile (fun t => t != c)).drop 1).length))
  GetTransaction := fun _ b addr lt => Except.ok ⟨addr.data, lt, [b.SeqNo]⟩

def noMasters : Nat → Except Error BlockInfo := fun _ => Except.error unavailable
def noShards : BlockInfo → Except Error (List BlockInfo) := fun _ => Except.error unavailable
def noTxs : BlockInfo → List TransactionID := fun _ => []

/-- Diamond: `P` (seqno 5, lane 0|1, the tracked head) has the child `Q` (seqno 6, never declared
as a head); `Q` splits into `A` (lane 0|2) and `B` (lane 0|3), both at seqno 7, which merge into
`M` (seqno 8, lane 0|1) or, in a variant, into `M'` (seqno 8, on the fresh lane 0|4). -/
def P : BlockInfo := blk 0 1 5 0
def Q : BlockInfo := blk 0 1 6 0
def A : BlockInfo := blk 0 2 7 0
def B : BlockInfo := blk 0 3 7 0
def M : BlockInfo := blk 0 1 8 0
def M' : BlockInfo := blk 0 4 8 0

/-- Parent table of unbroken lanes: the only parent of a block is the block of the same shard
with the sequence number one less; blocks with sequence number 0 have no parent. -/
def laneParents (b : BlockInfo) : Except Error (List BlockInfo) :=
  if b.SeqNo = 0 then Except.ok []
  else Except.ok [⟨b.Workchain, b.Shard, b.SeqNo - 1, b.RootHash, b.FileHash⟩]

/-- Parent table of the diamond; every block outside the split and the merge has its lane
predecessor as only parent, so every parent has the sequence number one less than its child. -/
def diamondParents (b : BlockInfo) : Except Error (List BlockInfo) :=
  if b = A then Except.ok [Q]
  else if b = B then Except.ok [Q]
  else if b = M then Except.ok [A, B]
  else if b = M' then Except.ok [A, B]
  else laneParents b

def diamond : APIClient := tableClient noMasters noShards diamondParents noTxs

/-- The diamond with a header of `P` whose parent lookup fails. -/
def brokenParents (b : BlockInfo) : Except Error (List BlockInfo) :=
  if b = P then Except.error unavailable else diamondParents b

def broken : APIClient := tableClient noMasters noShards brokenParents noTxs

def diamondTracker : Tracker := Tracker.empty.set "0|1" 5

def lanes : APIClient := tableClient noMasters noShards laneParents noTxs

/-- What the descent from `M` returns on an empty map: the parent lookup of `P` fails. -/
def deepFailure : Returned :=
  ⟨[], some (Error.wrapped (parentBlocksErrText P) unavailable),
    [Call.GetBlockData M, Call.GetBlockData A, Call.GetBlockData Q, Call.GetBlockData P]⟩

/-- Parent table of a merge of two unbroken lanes: `M` has the heads of the lanes 0|2 and 0|3 as
parents, every other block has its lane predecessor. -/
def mergeParents (b : BlockInfo) : Except Error (List BlockInfo) :=
  if b = M then Except.ok [blk 0 2 7 0, blk 0 3 7 0] else laneParents b

def merge : APIClient := tableClient noMasters noShards mergeParents noTxs

def mergeTracker : Tracker := (Tracker.empty.set "0|2" 5).set "0|3" 6

/-- Master block with sequence number `n`. -/
def masterBlock (n : Nat) : BlockInfo := blk (-1) (-9223372036854775808) n 0

/-- Parent table in which `A` has no parent and the parent lookup of every other block fails. -/
def abortParents (b : BlockInfo) : Except Error (List BlockInfo) :=
  if b = A then Except.ok [] else Except.error unavailable

/-- Chain whose master blocks all declare the shard heads `A` and `B`; the gap-fill of `A`
succeeds and the one of `B` fails. -/
def aborting : APIClient :=
  tableClient (fun n => Except.ok (masterBlock n)) (fun _ => Except.ok [A, B]) abortParents noTxs

/-- Children of the split of `P`, one sequence number above it, on the lanes 0|2 and 0|3. -/
def C0 : BlockInfo := blk 0 2 6 0
def C1 : BlockInfo := blk 0 3 6 0

/-- Parent table of the split of `P` into `C0` and `C1`. -/
def splitParents (b : BlockInfo) : Except Error (List BlockInfo) :=
  if b = C0 then Except.ok [P] else if b = C1 then Except.ok [P] else Except.error unavailable

def split : APIClient := tableClient noMasters noShards splitParents noTxs

/-- State before the aborted pass: nothing seeded, no request sent yet. -/
def abortStart : State := ⟨Tracker.empty, [], []⟩

/-- State at the abort of the pass of `aborting` for master block 10: the entry of `A` is set. -/
def abortEnd : State :=
  ⟨Tracker.empty.set (getShardID A) A.SeqNo,
    [Call.LookupBlock (-1) (-9223372036854775808) 10, Call.GetBlockShardsInfo (masterBlock 10),
      Call.GetBlockData A, Call.GetBlockData B], []⟩

/-- Exit of that pass: the parent lookup of `B` failed. -/
def abortExit : Exit :=
  Exit.fatal "get not seen shards err:" (Error.wrapped (parentBlocksErrText B) unavailable)

/-- Transaction identifiers `0, ..., n - 1`, with distinct logical times and accounts. -/
def txIds (n : Nat) : List TransactionID :=
  (List.range n).map (fun k => TransactionID.mk k [] [k])

/-- Client whose blocks all hold the 250 transactions `txIds 250`. -/
def paged : APIClient := tableClient noMasters noShards laneParents (fun _ => txIds 250)

/-- Chain whose master block 9 declares the head `P` (sequence number 5) and whose later master
blocks declare a head of the same shard with sequence number 3; no block has parents. -/
def regress : APIClient :=
  tableClient (fun n => Except.ok (masterBlock n))
    (fun m => if m.SeqNo = 9 then Except.ok [P] else Except.ok [blk 0 1 3 0])
    (fun _ => Except.ok []) noTxs

/-- Chain with the two unbroken lanes 0|1 and 0|2: master block 10 declares the heads 7 and 5,
master block 11 the heads 8 and 6, every other master block the heads 5 and 5.  Lane 0|1 skips
sequence number 6 in the master chain. -/
def steady : APIClient :=
  tableClient (fun n => Except.ok (masterBlock n))
    (fun m =>
      if m.SeqNo = 10 then Except.ok [blk 0 1 7 0, blk 0 2 5 0]
      else if m.SeqNo = 11 then Except.ok [blk 0 1 8 0, blk 0 2 6 0]
      else Except.ok [blk 0 1 5 0, blk 0 2 5 0])
    laneParents noTxs

/-- Heads that `steady` declares in the master block `n`. -/
def steadyHeads (n : Nat) : List BlockInfo :=
  if n = 10 then [blk 0 1 7 0, blk 0 2 5 0]
  else if n = 11 then [blk 0 1 8 0, blk 0 2 6 0]
  else [blk 0 1 5 0, blk 0 2 5 0]

/-- State after seeding from master block 9 of `steady`. -/
def steadyStart : State := ⟨seedLoop (steadyHeads 9) Tracker.empty, [], []⟩

/-- State after the passes for the master blocks 10 and 11 of `steady`. -/
def steadyEnd : State :=
  ⟨seedLoop (steadyHeads 9 ++ steadyHeads 10 ++ steadyHeads 11) Tracker.empty,
    [Call.LookupBlock (-1) (-9223372036854775808) 10, Call.GetBlockShardsInfo (masterBlock 10),
      Call.GetBlockData (blk 0 1 7 0), Call.GetBlockData (blk 0 1 6 0),
      Call.GetBlockTransactions (blk 0 1 6 0) 100 none,
      Call.GetBlockTransactions (blk 0 1 7 0) 100 none,
      Call.LookupBlock (-1) (-9223372036854775808) 11, Call.GetBlockShardsInfo (masterBlock 11),
      Call.GetBlockData (blk 0 1 8 0), Call.GetBlockData (blk 0 2 6 0),
      Call.GetBlockTransactions (blk 0 1 8 0) 100 none,
      Call.GetBlockTransactions (blk 0 2 6 0) 100 none],
    [⟨masterBlock 10, [blk 0 1 6 0, blk 0 1 7 0], []⟩,
      ⟨masterBlock 11, [blk 0 1 8 0, blk 0 2 6 0], []⟩]⟩

/-- Chain in which the seeding master block declares the head `P`, and the next master block
declares the two children `A` and `B` of the split of `Q`, the child of `P` that no master block
ever declared. -/
def hiddenSplit : APIClient :=
  tableClient (fun n => Except.ok (masterBlock n))
    (fun m => if m.SeqNo = 9 then Except.ok [P] else Except.ok [A, B])
    diamondParents noTxs

/-- Block of workchain 0, shard 9, sequence number 1; its parent lookup fails in `broken`-like
tables that do not know it. -/
def lost : BlockInfo := blk 0 9 1 0

/-- Client whose every block is fetched but has a header whose parent lookup fails. -/
def headless : APIClient :=
  tableClient noMasters noShards (fun _ => Except.error unavailable) noTxs

/-- Client that answers every page request with an empty page and has-more set. -/
def emptyMore : APIClient where
  LookupBlock := fun _ _ _ _ => Except.error unavailable
  GetBlockShardsInfo := fun _ _ => Except.error unavailable
  GetBlockData := fun _ _ => Except.error unavailable
  GetBlockTransactions := fun _ _ _ _ => Except.ok ([], true)
  GetTransaction := fun _ _ _ _ => Except.error unavailable

/-- Client whose blocks all hold the two transactions `txIds 2`. -/
def twoTxs : APIClient := tableClient noMasters noShards laneParents (fun _ => txIds 2)

/-- State in which the transaction enumeration of the blocks 6 and 7 of lane 0|1 of `twoTxs`
ends. -/
def twoTxsEnd : TxScan :=
  ⟨[⟨[0], 0, [6]⟩, ⟨[1], 1, [6]⟩, ⟨[0], 0, [7]⟩, ⟨[1], 1, [7]⟩],
    [Call.GetBlockTransactions (blk 0 1 6 0) 100 none,
      Call.GetTransaction (blk 0 1 6 0) ⟨0, 0, [0]⟩ 0,
      Call.GetTransaction (blk 0 1 6 0) ⟨0, 0, [1]⟩ 1,
      Call.GetBlockTransactions (blk 0 1 7 0) 100 none,
      Call.GetTransaction (blk 0 1 7 0) ⟨0, 0, [0]⟩ 0,
      Call.GetTransaction (blk 0 1 7 0) ⟨0, 0, [1]⟩ 1], none⟩

/-- Map in which `A` is the tracked head of the lane 0|2 and nothing else is tracked. -/
def trackedA : Tracker := Tracker.empty.set "0|2" 7

/-- What the descent from `M` returns in `broken` on the map `trackedA`: `A` is already seen, the
descent through `B` and `Q` reaches `P`, whose parent lookup fails. -/
def deepFailureB : Returned :=
  ⟨[], some (Error.wrapped (parentBlocksErrText P) unavailable),
    [Call.GetBlockData M, Call.GetBlockData B, Call.GetBlockData Q, Call.GetBlockData P]⟩

/-- Parent table of a split of `P` into `C0` and `C1` followed, one block later, by the merge of
the two lanes into `M`: `C0` and `C1` have the parent `P`, `M` has the heads of the lanes 0|2
and 0|3 as parents, every other block has its lane predecessor. -/
def splitMergeParents (b : BlockInfo) : Except Error (List BlockInfo) :=
  if b = C0 then Except.ok [P] else if b = C1 then Except.ok [P] else mergeParents b

def splitMerge : APIClient := tableClient noMasters noShards splitMergeParents noTxs

/-- Heads that `forked` declares in the master block `n`: the lane 0|1 (`P`, then `Q`) splits
into the lanes 0|2 and 0|3 (`A` and `B`), which merge into `M` on the key 0|1 again; the lane
0|5 is unbroken and skips the sequence number 6 in the master chain. -/
def forkedHeads (n : Nat) : List BlockInfo :=
  if n = 9 then [P, blk 0 5 5 0]
  else if n = 10 then [Q, blk 0 5 7 0]
  else if n = 11 then [A, B, blk 0 5 7 0]
  else [M, blk 0 5 8 0]

/-- Chain with the parent links of the diamond whose master block `n` declares the heads
`forkedHeads n`; every declared head is the child of a declared head, except on the lane 0|5. -/
def forked : APIClient :=
  tableClient (fun n => Except.ok (masterBlock n)) (fun m => Except.ok (forkedHeads m.SeqNo))
    diamondParents noTxs

/-- Heads declared by the master blocks 10, 11 and 12 of `forked`, in order. -/
def forkedDeclared : List BlockInfo := ([10, 11, 12].map forkedHeads).flatten

/-- Map after seeding from master block 9 of `forked`. -/
def forkedSeed : Tracker := seedLoop (forkedHeads 9) Tracker.empty

/-- What the descents from the heads `forkedDeclared` return, in order. -/
def forkedWalks : List (List BlockInfo) :=
  [[Q], [blk 0 5 6 0, blk 0 5 7 0], [A], [B], [], [M], [blk 0 5 8 0]]

/-- Blocks of the lane 0|5. -/
def lane5 (i : Nat) : BlockInfo := blk 0 5 i 0

end Fixture

/-! ## Vocabulary of the statements -/

/-- Error with which the frame of `getNotSeenShards` for block `x`, entered with call history
`pre`, fails at lines 24-32, if it does. -/
def frameError (api : APIClient) (pre : List Call) (x : BlockInfo) : Option Error :=
  match api.GetBlockData pre x with
  | Except.error pe => some (Error.wrapped "get block data: " pe)
  | Except.ok blk =>
    match blk.BlockInfo.GetParentBlocks with
    | Except.error pe => some (Error.wrapped (parentBlocksErrText x) pe)
    | Except.ok _ => none

/-- Trace property of a finished call: the history only grew, an error comes with the empty
list, and a failing frame anywhere in the descent ends the whole call with that frame's error. -/
def TraceOk (api : APIClient) (calls : List Call) (r : Returned) : Prop :=
  (∃ added, r.calls = calls ++ added) ∧
  (r.err ≠ none → r.ret = []) ∧
  (∀ mid post x e, r.calls = calls ++ mid ++ Call.GetBlockData x :: post →
    frameError api (calls ++ mid) x = some e →
    r = ⟨[], some e, calls ++ mid ++ [Call.GetBlockData x]⟩)

/-- Every block of the list is unseen, and each of its unseen parents (as the client reports
them on an empty history) stands at a smaller index. -/
def ParentsFirst (api : APIClient) (tracker : Tracker) (l : List BlockInfo) : Prop :=
  ∀ (i : Nat) (x : BlockInfo), l[i]? = some x → alreadySeen tracker x = false ∧
    ∀ blk ps p, api.GetBlockData [] x = Except.ok blk →
      blk.BlockInfo.GetParentBlocks = Except.ok ps → p ∈ ps → alreadySeen tracker p = false →
      ∃ j : Nat, j < i ∧ l[j]? = some p

/-- A single-parent descent, newest block first: every block is unseen and has exactly one
parent, the next block of the list, except the last one, all of whose parents are seen. -/
inductive Descent (api : APIClient) (tracker : Tracker) : List BlockInfo → Prop where
  | base (x : BlockInfo) (ps : List BlockInfo) :
      alreadySeen tracker x = false →
      (∀ h, ∃ blk, api.GetBlockData h x = Except.ok blk ∧
        blk.BlockInfo.GetParentBlocks = Except.ok ps) →
      (∀ p ∈ ps, alreadySeen tracker p = true) →
      Descent api tracker [x]
  | step (x y : BlockInfo) (rest : List BlockInfo) :
      alreadySeen tracker x = false →
      (∀ h, ∃ blk, api.GetBlockData h x = Except.ok blk ∧
        blk.BlockInfo.GetParentBlocks = Except.ok [y]) →
      Descent api tracker (y :: rest) →
      Descent api tracker (x :: y :: rest)

/-- Exits raised by the transaction enumeration of lines 116-149. -/
def TxExit (e : Exit) : Prop :=
  e = Exit.indexOutOfRange ∨
    ∃ err, e = Exit.fatal "get tx ids err:" err ∨ e = Exit.fatal "get tx data err:" err

/-- Sizes of the pages served to the `GetBlockTransactions` requests of `log`, which follows the
history `pre` (a failed request counts as an empty page). -/
def fetchedPageSizes (api : APIClient) : List Call → List Call → List Nat
  | _, [] => []
  | pre, Call.GetBlockTransactions b count after :: rest =>
    (match api.GetBlockTransactions pre b count after with
      | Except.ok (ids, _) => ids.length
      | Except.error _ => 0)
      :: fetchedPageSizes api (pre ++ [Call.GetBlockTransactions b count after]) rest
  | pre, Call.LookupBlock w s n :: rest =>
    fetchedPageSizes api (pre ++ [Call.LookupBlock w s n]) rest
  | pre, Call.GetBlockShardsInfo m :: rest =>
    fetchedPageSizes api (pre ++ [Call.GetBlockShardsInfo m]) rest
  | pre, Call.GetBlockData b :: rest =>
    fetchedPageSizes api (pre ++ [Call.GetBlockData b]) rest
  | pre, Call.GetTransaction b a lt :: rest =>
    fetchedPageSizes api (pre ++ [Call.GetTransaction b a lt]) rest

/-- Number of `GetBlockTransactions` requests in a log. -/
def fetchCount : List Call → Nat
  | [] => 0
  | Call.GetBlockTransactions _ _ _ :: rest => fetchCount rest + 1
  | Call.LookupBlock _ _ _ :: rest => fetchCount rest
  | Call.GetBlockShardsInfo _ :: rest => fetchCount rest
  | Call.GetBlockData _ :: rest => fetchCount rest
  | Call.GetTransaction _ _ _ :: rest => fetchCount rest

/-- The `GetTransaction` requests of a log, in order. -/
def resolveCalls : List Call → List (BlockInfo × Address × Nat)
  | [] => []
  | Call.GetTransaction b addr lt :: rest => (b, addr, lt) :: resolveCalls rest
  | Call.LookupBlock _ _ _ :: rest => resolveCalls rest
  | Call.GetBlockShardsInfo _ :: rest => resolveCalls rest
  | Call.GetBlockData _ :: rest => resolveCalls rest
  | Call.GetBlockTransactions _ _ _ :: rest => resolveCalls rest

/-- Page sizes of a list of `n` identifiers served in pages of 100. -/
def pageSizes (n : Nat) : List Nat :=
  (List.range (max 1 ((n + 99) / 100))).map (fun k => min 100 (n - 100 * k))

/-- Order on declared heads: a later head of the same key has no smaller sequence number. -/
def HeadsAscend (x y : BlockInfo) : Prop :=
  getShardID x = getShardID y → x.SeqNo ≤ y.SeqNo

instance (x y : BlockInfo) : Decidable (HeadsAscend x y) := by
  unfold HeadsAscend
  infer_instance

/-- Two heads that share a key share the sequence number. -/
def HeadsAgree (x y : BlockInfo) : Prop :=
  getShardID x = getShardID y → x.SeqNo = y.SeqNo

instance (x y : BlockInfo) : Decidable (HeadsAgree x y) := by
  unfold HeadsAgree
  infer_instance

/-- Call history with which the `i`-th of the consecutive calls with the results `rs` is
entered: `start` for the first, the history handed back by the call before it for the others. -/
def callsBefore (start : List Call) : List Returned → Nat → List Call
  | _, 0 => start
  | [], _ + 1 => start
  | r :: rs, i + 1 => callsBefore r.calls rs i

/-- Every branch of the parent tree below a block ends in a block that is already seen or in a
fetched block without parents. -/
inductive Ends (api : APIClient) (tracker : Tracker) : BlockInfo → Prop where
  | seen (x : BlockInfo) : alreadySeen tracker x = true → Ends api tracker x
  | orphan (x : BlockInfo) (h : List Call) (blk : Block) :
      alreadySeen tracker x = false → api.GetBlockData h x = Except.ok blk →
      blk.BlockInfo.GetParentBlocks = Except.ok [] → Ends api tracker x
  | inner (x : BlockInfo) (h : List Call) (blk : Block) (ps : List BlockInfo) :
      alreadySeen tracker x = false → api.GetBlockData h x = Except.ok blk →
      blk.BlockInfo.GetParentBlocks = Except.ok ps →
      (∀ p ∈ ps, Ends api tracker p) → Ends api tracker x

/-- The descent from the not-yet-seen block `b`, entered with the call history `calls` and the
recursion depth `fuel`, meets a failing frame: `b` itself fails at lines 24-32 with the error
`e`, or the parents before some parent `p` are walked without error and the descent from `p`
meets a failing frame with the error `e`.  `after` is the call history at the failing frame. -/
inductive Raises (api : APIClient) (tracker : Tracker) :
    Nat → List Call → BlockInfo → Error → List Call → Prop where
  | frame (fuel : Nat) (calls : List Call) (b : BlockInfo) (e : Error) :
      alreadySeen tracker b = false → frameError api calls b = some e →
      Raises api tracker (fuel + 1) calls b e (calls ++ [Call.GetBlockData b])
  | parent (fuel : Nat) (calls : List Call) (b : BlockInfo) (blk : Block)
      (pre : List BlockInfo) (p : BlockInfo) (post : List BlockInfo) (rs : List Returned)
      (e : Error) (after : List Call) :
      alreadySeen tracker b = false → api.GetBlockData calls b = Except.ok blk →
      blk.BlockInfo.GetParentBlocks = Except.ok (pre ++ p :: post) →
      rs.length = pre.length →
      (∀ (i : Nat) (p' : BlockInfo) (q : Returned), pre[i]? = some p' → rs[i]? = some q →
        q.err = none ∧
        getNotSeenShards api fuel (callsBefore (calls ++ [Call.GetBlockData b]) rs i) p' tracker
          = some q) →
      Raises api tracker fuel (callsBefore (calls ++ [Call.GetBlockData b]) rs rs.length) p e
        after →
      Raises api tracker (fuel + 1) calls b e after

/-- Relation "the descent from `x` reaches `y`": `y` is `x` or an ancestor of `x` (parents as the
client reports them on an empty history), and `x`, `y` and every block on the parent path
between them are not yet seen. -/
inductive Reach (api : APIClient) (tracker : Tracker) : BlockInfo → BlockInfo → Prop where
  | self (x : BlockInfo) : alreadySeen tracker x = false → Reach api tracker x x
  | up (x : BlockInfo) (blk : Block) (ps : List BlockInfo) (p y : BlockInfo) :
      alreadySeen tracker x = false → api.GetBlockData [] x = Except.ok blk →
      blk.BlockInfo.GetParentBlocks = Except.ok ps → p ∈ ps → Reach api tracker p y →
      Reach api tracker x y

/-- The client serves the block `y` the same way whatever the call history: the fetch succeeds,
the parent lookup succeeds with one and the same list, and every parent has a smaller sequence
number than `y`. -/
def Served (api : APIClient) (y : BlockInfo) : Prop :=
  ∃ ps : List BlockInfo,
    (∀ c, ∃ blk, api.GetBlockData c y = Except.ok blk ∧
      blk.BlockInfo.GetParentBlocks = Except.ok ps) ∧
    ∀ p ∈ ps, p.SeqNo < y.SeqNo

/-- No block is reached from `x` along two different parent paths: at every block `z` reached
from `x`, no block is reached from two entries of the parent list of `z`. -/
def ReachedOnce (api : APIClient) (tracker : Tracker) (x : BlockInfo) : Prop :=
  ∀ z, Reach api tracker x z → ∀ blk ps, api.GetBlockData [] z = Except.ok blk →
    blk.BlockInfo.GetParentBlocks = Except.ok ps →
    ps.Pairwise (fun p q => ∀ y, Reach api tracker p y → ¬ Reach api tracker q y)

/-- No block is reached twice by the descents from the declared heads `H`, taken in order from
the map `T0`, the descent from a head running against the map updated with the heads declared
before it: neither along two parent paths from one head nor from two heads. -/
def WalkedOnce (api : APIClient) (T0 : Tracker) (H : List BlockInfo) : Prop :=
  (∀ (k : Nat) (x : BlockInfo), H[k]? = some x →
    ReachedOnce api (seedLoop (H.take k) T0) x) ∧
  (∀ (j k : Nat) (xj xk y : BlockInfo), j < k → H[j]? = some xj → H[k]? = some xk →
    Reach api (seedLoop (H.take j) T0) xj y → ¬ Reach api (seedLoop (H.take k) T0) xk y)

/-- The block `z` lies on the lane `lane`: it is the lane block of its sequence number and its
only parent (as the client reports it on an empty history) is the lane block one sequence
number below. -/
def OnLane (api : APIClient) (lane : Nat → BlockInfo) (z : BlockInfo) : Prop :=
  z = lane z.SeqNo ∧ ∃ blk, api.GetBlockData [] z = Except.ok blk ∧
    blk.BlockInfo.GetParentBlocks = Except.ok [lane (z.SeqNo - 1)]

/-- Pages served to the `GetBlockTransactions` requests of `log`, which follows the history
`pre` (a failed request counts as an empty page). -/
def fetchedPages (api : APIClient) : List Call → List Call → List (List TransactionID)
  | _, [] => []
  | pre, Call.GetBlockTransactions b count after :: rest =>
    (match api.GetBlockTransactions pre b count after with
      | Except.ok (ids, _) => ids
      | Except.error _ => [])
      :: fetchedPages api (pre ++ [Call.GetBlockTransactions b count after]) rest
  | pre, Call.LookupBlock w s n :: rest =>
    fetchedPages api (pre ++ [Call.LookupBlock w s n]) rest
  | pre, Call.GetBlockShardsInfo m :: rest =>
    fetchedPages api (pre ++ [Call.GetBlockShardsInfo m]) rest
  | pre, Call.GetBlockData b :: rest =>
    fetchedPages api (pre ++ [Call.GetBlockData b]) rest
  | pre, Call.GetTransaction b a lt :: rest =>
    fetchedPages api (pre ++ [Call.GetTransaction b a lt]) rest

/-- Transactions served to the `GetTransaction` requests of `log`, which follows the history
`pre`, in the order of the requests (a failed request contributes nothing). -/
def resolvedTxs (api : APIClient) : List Call → List Call → List Transaction
  | _, [] => []
  | pre, Call.GetTransaction b a lt :: rest =>
    (match api.GetTransaction pre b a lt with
      | Except.ok tx => [tx]
      | Except.error _ => [])
      ++ resolvedTxs api (pre ++ [Call.GetTransaction b a lt]) rest
  | pre, Call.LookupBlock w s n :: rest =>
    resolvedTxs api (pre ++ [Call.LookupBlock w s n]) rest
  | pre, Call.GetBlockShardsInfo m :: rest =>
    resolvedTxs api (pre ++ [Call.GetBlockShardsInfo m]) rest
  | pre, Call.GetBlockData b :: rest =>
    resolvedTxs api (pre ++ [Call.GetBlockData b]) rest
  | pre, Call.GetBlockTransactions b count after :: rest =>
    resolvedTxs api (pre ++ [Call.GetBlockTransactions b count after]) rest

/-- Value of a decimal digit character. -/
def digitVal (c : Char) : Nat := c.toNat - 48

/-- Number written by a list of decimal digit characters, most significant first. -/
def decodeDecimal (l : List Char) : Nat := l.foldl (fun acc c => acc * 10 + digitVal c) 0

/-! ## Properties of the key format -/

theorem digitVal_digitChar : ∀ d, d < 10 → digitVal (Nat.digitChar d) = d := by decide

theorem digitChar_ne_bar : ∀ d, d < 10 → Nat.digitChar d ≠ '|' := by decide

theorem digitChar_ne_minus : ∀ d, d < 10 → Nat.digitChar d ≠ '-' := by decide

theorem toDigitsCore_decode : ∀ (fuel n : Nat) (ds : List Char), n < fuel →
    (Nat.toDigitsCore 10 fuel n ds).foldl (fun acc c => acc * 10 + digitVal c) 0
      = ds.foldl (fun acc c => acc * 10 + digitVal c) n := by
  intro fuel
  induction fuel with
  | zero => intro n ds h; omega
  | succ f ih =>
    intro n ds h
    unfold Nat.toDigitsCore
    by_cases h0 : n / 10 = 0
    · simp only [h0, if_true, List.foldl_cons, Nat.zero_mul, Nat.zero_add]
      rw [digitVal_digitChar _ (Nat.mod_lt _ (by decide))]
      congr 1
      omega
    · simp only [h0, if_false]
      rw [ih (n / 10) _ (by omega), List.foldl_cons,
        digitVal_digitChar _ (Nat.mod_lt _ (by decide))]
      congr 1
      omega

theorem decodeDecimal_toDigits (n : Nat) : decodeDecimal (Nat.toDigits 10 n) = n := by
  unfold decodeDecimal Nat.toDigits
  rw [toDigitsCore_decode (n + 1) n [] (by omega)]
  rfl

theorem toDigits_injective (a b : Nat) (h : Nat.toDigits 10 a = Nat.toDigits 10 b) : a = b := by
  rw [← decodeDecimal_toDigits a, ← decodeDecimal_toDigits b, h]

theorem toDigitsCore_chars : ∀ (fuel n : Nat) (ds : List Char) (c : Char),
    c ∈ Nat.toDigitsCore 10 fuel n ds → c ∈ ds ∨ ∃ k, k < 10 ∧ c = Nat.digitChar k := by
  intro fuel
  induction fuel with
  | zero => intro n ds c h; exact Or.inl h
  | succ f ih =>
    intro n ds c h
    unfold Nat.toDigitsCore at h
    by_cases h0 : n / 10 = 0
    · simp only [h0, if_true, List.mem_cons] at h
      rcases h with h | h
      · exact Or.inr ⟨n % 10, Nat.mod_lt _ (by decide), h⟩
      · exact Or.inl h
    · simp only [h0, if_false] at h
      rcases ih _ _ c h with h | h
      · rcases List.mem_cons.mp h with h | h
        · exact Or.inr ⟨n % 10, Nat.mod_lt _ (by decide), h⟩
        · exact Or.inl h
      · exact Or.inr h

theorem toDigits_chars (n : Nat) (c : Char) (h : c ∈ Nat.toDigits 10 n) :
    ∃ k, k < 10 ∧ c = Nat.digitChar k := by
  rcases toDigitsCore_chars (n + 1) n [] c h with h | h
  · simp at h
  · exact h

theorem fmtDecimal_no_bar (i : Int) : '|' ∉ (fmtDecimal i).data := by
  intro h
  cases i with
  | ofNat n =>
    obtain ⟨k, hk, hc⟩ := toDigits_chars n _ h
    exact digitChar_ne_bar k hk hc.symm
  | negSucc n =>
    simp only [fmtDecimal, List.mem_cons] at h
    rcases h with h | h
    · exact absurd h (by decide)
    · obtain ⟨k, hk, hc⟩ := toDigits_chars _ _ h
      exact digitChar_ne_bar k hk hc.symm

theorem fmtDecimal_injective (i j : Int) (h : fmtDecimal i = fmtDecimal j) : i = j := by
  have hd := congrArg String.data h
  cases i with
  | ofNat n =>
    cases j with
    | ofNat m =>
      simp only [fmtDecimal] at hd
      rw [toDigits_injective n m hd]
    | negSucc m =>
      exfalso
      simp only [fmtDecimal] at hd
      have hmem : '-' ∈ Nat.toDigits 10 n := by rw [hd]; exact List.mem_cons_self _ _
      obtain ⟨k, hk, hc⟩ := toDigits_chars n _ hmem
      exact digitChar_ne_minus k hk hc.symm
  | negSucc n =>
    cases j with
    | ofNat m =>
      exfalso
      simp only [fmtDecimal] at hd
      have hmem : '-' ∈ Nat.toDigits 10 m := by rw [← hd]; exact List.mem_cons_self _ _
      obtain ⟨k, hk, hc⟩ := toDigits_chars m _ hmem
      exact digitChar_ne_minus k hk hc.symm
    | negSucc m =>
      simp only [fmtDecimal, List.cons.injEq, true_and] at hd
      have := toDigits_injective _ _ hd
      have hnm : n = m := by omega
      rw [hnm]

theorem split_at_separator {α : Type} (sep : α) :
    ∀ (l₁ m₁ l₂ m₂ : List α), sep ∉ l₁ → sep ∉ m₁ →
      l₁ ++ sep :: l₂ = m₁ ++ sep :: m₂ → l₁ = m₁ ∧ l₂ = m₂ := by
  intro l₁
  induction l₁ with
  | nil =>
    intro m₁ l₂ m₂ _ hm h
    cases m₁ with
    | nil => simpa using h
    | cons y ys =>
      exfalso
      simp only [List.nil_append, List.cons_append, List.cons.injEq] at h
      exact hm (h.1 ▸ List.mem_cons_self _ _)
  | cons x xs ih =>
    intro m₁ l₂ m₂ hl hm h
    cases m₁ with
    | nil =>
      exfalso
      simp only [List.nil_append, List.cons_append, List.cons.injEq] at h
      exact hl (h.1 ▸ List.mem_cons_self _ _)
    | cons y ys =>
      simp only [List.cons_append, List.cons.injEq] at h
      obtain ⟨h1, h2⟩ := ih ys l₂ m₂ (fun hx => hl (List.mem_cons_of_mem _ hx))
        (fun hx => hm (List.mem_cons_of_mem _ hx)) h.2
      exact ⟨by rw [h.1, h1], h2⟩

/-! ## Properties of `getNotSeenShards` -/

theorem alreadySeen_of_entry (tracker : Tracker) (b : BlockInfo)
    (h : tracker (getShardID b) = some b.SeqNo) : alreadySeen tracker b = true := by
  simp [alreadySeen, h]

theorem alreadySeen_iff (tracker : Tracker) (b : BlockInfo) :
    alreadySeen tracker b = true ↔ tracker (getShardID b) = some b.SeqNo := by
  unfold alreadySeen
  cases h : tracker (getShardID b) <;> simp

/-! ### Fuel -/

theorem parentsLoop_mono (f g : List Call → BlockInfo → Option Returned)
    (hfg : ∀ c p r, f c p = some r → g c p = some r) :
    ∀ (ps acc : List BlockInfo) (calls : List Call) (r : Returned),
      parentsLoop f ps acc calls = some r → parentsLoop g ps acc calls = some r := by
  intro ps
  induction ps with
  | nil => intro acc calls r h; simpa [parentsLoop] using h
  | cons p rest ih =>
    intro acc calls r h
    unfold parentsLoop at h ⊢
    cases hf : f calls p with
    | none => simp [hf] at h
    | some ext =>
      rw [hfg calls p ext hf]
      rw [hf] at h
      dsimp only at h ⊢
      cases he : ext.err with
      | some e => rw [he] at h; simpa using h
      | none =>
        rw [he] at h
        dsimp only at h ⊢
        exact ih _ _ _ h

theorem getNotSeenShards_succ (api : APIClient) (tracker : Tracker) :
    ∀ (fuel : Nat) (calls : List Call) (b : BlockInfo) (r : Returned),
      getNotSeenShards api fuel calls b tracker = some r →
      getNotSeenShards api (fuel + 1) calls b tracker = some r := by
  intro fuel
  induction fuel with
  | zero => intro calls b r h; simp [getNotSeenShards] at h
  | succ n ih =>
    intro calls b r h
    rw [getNotSeenShards] at h ⊢
    by_cases hs : alreadySeen tracker b = true
    · simpa [hs] using h
    · simp only [hs] at h ⊢
      cases hd : api.GetBlockData calls b with
      | error e => rw [hd] at h; simpa using h
      | ok blk =>
        rw [hd] at h
        dsimp only at h ⊢
        cases hp : blk.BlockInfo.GetParentBlocks with
        | error e => rw [hp] at h; simpa using h
        | ok ps =>
          rw [hp] at h
          dsimp only at h ⊢
          cases hl : parentsLoop (fun c parent => getNotSeenShards api n c parent tracker) ps []
              (calls ++ [Call.GetBlockData b]) with
          | none => rw [hl] at h; simp at h
          | some r' =>
            rw [hl] at h
            rw [parentsLoop_mono _ (fun c parent => getNotSeenShards api (n + 1) c parent tracker)
              (fun c p r hr => ih c p r hr) _ _ _ _ hl]
            exact h

theorem getNotSeenShards_mono (api : APIClient) (tracker : Tracker) (fuel fuel' : Nat)
    (hle : fuel ≤ fuel') (calls : List Call) (b : BlockInfo) (r : Returned)
    (h : getNotSeenShards api fuel calls b tracker = some r) :
    getNotSeenShards api fuel' calls b tracker = some r := by
  induction hle with
  | refl => exact h
  | step _ ih => exact getNotSeenShards_succ api tracker _ calls b r ih

/-! ### Error propagation -/

theorem append_split_cases {α : Type} (mid post new1 new2 : List α) (a : α)
    (h : mid ++ a :: post = new1 ++ new2) :
    (∃ post', new1 = mid ++ a :: post' ∧ post = post' ++ new2) ∨
    (∃ mid', mid = new1 ++ mid' ∧ new2 = mid' ++ a :: post) := by
  rcases List.append_eq_append_iff.mp h with ⟨a', h1, h2⟩ | ⟨c', h1, h2⟩
  · -- new1 = mid ++ a', a :: post = a' ++ new2
    cases a' with
    | nil =>
      right
      refine ⟨[], by simpa using h1.symm, by simpa using h2.symm⟩
    | cons y ys =>
      left
      simp at h2
      obtain ⟨rfl, rfl⟩ := h2
      exact ⟨ys, h1, rfl⟩
  · right
    exact ⟨c', h1, h2⟩

theorem parentsLoop_trace (api : APIClient) (f : List Call → BlockInfo → Option Returned)
    (hf : ∀ c p r, f c p = some r → TraceOk api c r) :
    ∀ (ps acc : List BlockInfo) (calls : List Call) (r : Returned),
      parentsLoop f ps acc calls = some r → TraceOk api calls r := by
  intro ps
  induction ps with
  | nil =>
    intro acc calls r h
    simp only [parentsLoop, Option.some.injEq] at h
    subst h
    refine ⟨⟨[], by simp⟩, by simp, ?_⟩
    intro mid post x e hc
    have := congrArg List.length hc
    simp at this
  | cons p rest ih =>
    intro acc calls r h
    unfold parentsLoop at h
    cases hfp : f calls p with
    | none => simp [hfp] at h
    | some ext =>
      rw [hfp] at h
      dsimp only at h
      obtain ⟨⟨new1, hnew1⟩, hnil1, hfail1⟩ := hf calls p ext hfp
      cases he : ext.err with
      | some e =>
        rw [he] at h
        simp only [Option.some.injEq] at h
        subst h
        refine ⟨⟨new1, hnew1⟩, by simp, ?_⟩
        intro mid post x e' hc hfe
        have := hfail1 mid post x e' hc hfe
        rw [this] at he ⊢
        simp at he
        simp [he]
      | none =>
        rw [he] at h
        dsimp only at h
        obtain ⟨⟨new2, hnew2⟩, hnil2, hfail2⟩ := ih _ _ _ h
        refine ⟨⟨new1 ++ new2, by rw [hnew2, hnew1, List.append_assoc]⟩, hnil2, ?_⟩
        intro mid post x e' hc hfe
        rw [hnew2, hnew1, List.append_assoc, List.append_assoc, List.append_cancel_left_eq] at hc
        rcases append_split_cases mid post new1 new2 _ hc.symm with ⟨post', h1, _⟩ | ⟨mid', h1, h2⟩
        · have := hfail1 mid post' x e' (by rw [hnew1, h1, List.append_assoc]) hfe
          rw [this] at he
          simp at he
        · have := hfail2 mid' post x e' (by rw [hnew2, h2, List.append_assoc])
            (by rw [hnew1, List.append_assoc, ← h1]; exact hfe)
          rw [this, hnew1, h1]
          simp

theorem getNotSeenShards_trace (api : APIClient) (tracker : Tracker) :
    ∀ (fuel : Nat) (calls : List Call) (b : BlockInfo) (r : Returned),
      getNotSeenShards api fuel calls b tracker = some r → TraceOk api calls r := by
  intro fuel
  induction fuel with
  | zero => intro calls b r h; simp [getNotSeenShards] at h
  | succ n ih =>
    intro calls b r h
    rw [getNotSeenShards] at h
    have hnone : ∀ (l : List BlockInfo), TraceOk api calls ⟨l, none, calls⟩ := by
      intro l
      refine ⟨⟨[], by simp⟩, by simp, ?_⟩
      intro mid post x e hc
      have := congrArg List.length hc
      simp at this
    have hone : ∀ (e : Error), frameError api calls b = some e →
        TraceOk api calls ⟨[], some e, calls ++ [Call.GetBlockData b]⟩ := by
      intro e hfe
      refine ⟨⟨_, rfl⟩, by simp, ?_⟩
      intro mid post x e' hc hfe'
      dsimp only at hc
      rw [List.append_assoc, List.append_cancel_left_eq] at hc
      cases mid with
      | nil =>
        simp at hc
        obtain ⟨rfl, rfl⟩ := hc
        simp at hfe'
        rw [hfe] at hfe'
        simp at hfe'
        subst hfe'
        simp
      | cons y ys =>
        have := congrArg List.length hc
        simp at this
    by_cases hs : alreadySeen tracker b = true
    · simp only [hs, if_true, Option.some.injEq] at h
      subst h
      exact hnone []
    · simp only [hs] at h
      cases hd : api.GetBlockData calls b with
      | error e =>
        rw [hd] at h
        simp only [Bool.false_eq_true, if_false, Option.some.injEq] at h
        subst h
        exact hone _ (by simp [frameError, hd])
      | ok blk =>
        rw [hd] at h
        dsimp only at h
        cases hp : blk.BlockInfo.GetParentBlocks with
        | error e =>
          rw [hp] at h
          simp only [Bool.false_eq_true, if_false, Option.some.injEq] at h
          subst h
          exact hone _ (by simp [frameError, hd, hp])
        | ok ps =>
          rw [hp] at h
          simp only [Bool.false_eq_true, if_false] at h
          have hfe0 : frameError api calls b = none := by simp [frameError, hd, hp]
          cases hl : parentsLoop (fun c parent => getNotSeenShards api n c parent tracker) ps []
              (calls ++ [Call.GetBlockData b]) with
          | none => rw [hl] at h; simp at h
          | some r' =>
            rw [hl] at h
            dsimp only at h
            obtain ⟨⟨new, hnew⟩, hnil, hfail⟩ :=
              parentsLoop_trace api _ (fun c p r hr => ih c p r hr) _ _ _ _ hl
            have key : ∀ mid post x e, r'.calls = calls ++ mid ++ Call.GetBlockData x :: post →
                frameError api (calls ++ mid) x = some e →
                r' = ⟨[], some e, calls ++ mid ++ [Call.GetBlockData x]⟩ := by
              intro mid post x e hc hfe
              rw [hnew, List.append_assoc, List.append_assoc, List.append_cancel_left_eq] at hc
              cases mid with
              | nil =>
                simp at hc
                simp at hfe
                rw [hc.1] at hfe0
                rw [hfe0] at hfe
                simp at hfe
              | cons y ys =>
                simp at hc
                obtain ⟨rfl, hc⟩ := hc
                have := hfail ys post x e (by rw [hnew, hc]; simp) (by simpa using hfe)
                rw [this]
                simp
            cases he : r'.err with
            | some e =>
              rw [he] at h
              simp only [Option.some.injEq] at h
              subst h
              refine ⟨⟨[Call.GetBlockData b] ++ new, by rw [hnew]; simp⟩, by simp, ?_⟩
              intro mid post x e' hc hfe
              have := key mid post x e' hc hfe
              rw [this] at he ⊢
              simp at he
              simp [he]
            | none =>
              rw [he] at h
              simp only [Option.some.injEq] at h
              subst h
              refine ⟨⟨[Call.GetBlockData b] ++ new, by rw [hnew]; simp⟩, by simp, ?_⟩
              intro mid post x e' hc hfe
              have := key mid post x e' hc hfe
              rw [this] at he
              simp at he

theorem parentsLoop_fail (f : List Call → BlockInfo → Option Returned) (p : BlockInfo)
    (post : List BlockInfo) (q : Returned) (e : Error) (he : q.err = some e) :
    ∀ (pre : List BlockInfo) (rs : List Returned) (acc : List BlockInfo) (calls : List Call),
      rs.length = pre.length →
      (∀ (i : Nat) (p' : BlockInfo) (q' : Returned), pre[i]? = some p' → rs[i]? = some q' →
        q'.err = none ∧ f (callsBefore calls rs i) p' = some q') →
      f (callsBefore calls rs rs.length) p = some q →
      parentsLoop f (pre ++ p :: post) acc calls = some ⟨[], some e, q.calls⟩ := by
  intro pre
  induction pre with
  | nil =>
    intro rs acc calls hlen _ hq
    cases rs with
    | nil =>
      simp only [List.length_nil, callsBefore] at hq
      simp [parentsLoop, hq, he]
    | cons r rs => simp at hlen
  | cons p0 pre ih =>
    intro rs acc calls hlen hsib hq
    cases rs with
    | nil => simp at hlen
    | cons r rs =>
      obtain ⟨h0e, h0⟩ := hsib 0 p0 r (by simp) (by simp)
      simp only [callsBefore] at h0
      simp only [List.cons_append, parentsLoop, h0, h0e]
      apply ih rs (acc ++ r.ret) r.calls (by simpa using hlen)
      · intro i p' q' hp hq'
        exact hsib (i + 1) p' q' (by simpa using hp) (by simpa using hq')
      · simpa [callsBefore] using hq

theorem getNotSeenShards_fail_below (api : APIClient) (tracker : Tracker) (fuel : Nat)
    (calls : List Call) (b : BlockInfo) (blk : Block) (pre : List BlockInfo) (p : BlockInfo)
    (post : List BlockInfo) (rs : List Returned) (q : Returned) (e : Error)
    (hb : alreadySeen tracker b = false) (hblk : api.GetBlockData calls b = Except.ok blk)
    (hps : blk.BlockInfo.GetParentBlocks = Except.ok (pre ++ p :: post))
    (hlen : rs.length = pre.length)
    (hsib : ∀ (i : Nat) (p' : BlockInfo) (q' : Returned), pre[i]? = some p' → rs[i]? = some q' →
      q'.err = none ∧
      getNotSeenShards api fuel (callsBefore (calls ++ [Call.GetBlockData b]) rs i) p' tracker
        = some q')
    (hq : getNotSeenShards api fuel (callsBefore (calls ++ [Call.GetBlockData b]) rs rs.length) p
      tracker = some q)
    (he : q.err = some e) :
    getNotSeenShards api (fuel + 1) calls b tracker = some ⟨[], some e, q.calls⟩ := by
  have h := parentsLoop_fail (fun c parent => getNotSeenShards api fuel c parent tracker) p post q
    e he pre rs [] (calls ++ [Call.GetBlockData b]) hlen hsib hq
  rw [getNotSeenShards]
  simp only [hb, hblk, hps, Bool.false_eq_true, if_false, h]

theorem getNotSeenShards_raises (api : APIClient) (tracker : Tracker) :
    ∀ (fuel : Nat) (calls : List Call) (b : BlockInfo) (e : Error) (after : List Call),
      Raises api tracker fuel calls b e after →
      getNotSeenShards api fuel calls b tracker = some ⟨[], some e, after⟩ := by
  intro fuel calls b e after h
  induction h with
  | frame fuel calls b e hb hf =>
    rw [getNotSeenShards]
    simp only [hb, Bool.false_eq_true, if_false]
    unfold frameError at hf
    cases hg : api.GetBlockData calls b with
    | error pe =>
      rw [hg] at hf
      simp only [Option.some.injEq] at hf
      simp [hf]
    | ok blk =>
      rw [hg] at hf
      dsimp only at hf ⊢
      cases hp : blk.BlockInfo.GetParentBlocks with
      | error pe =>
        rw [hp] at hf
        simp only [Option.some.injEq] at hf
        simp [hf]
      | ok ps =>
        rw [hp] at hf
        simp at hf
  | parent fuel calls b blk pre p post rs e after hb hblk hps hlen hsib _ ih =>
    exact getNotSeenShards_fail_below api tracker fuel calls b blk pre p post rs _ e hb hblk hps
      hlen hsib ih rfl

/-! ### Order of the returned list -/

theorem ParentsFirst.nil (api : APIClient) (tracker : Tracker) : ParentsFirst api tracker [] := by
  intro i x h
  simp at h

theorem ParentsFirst.append {api : APIClient} {tracker : Tracker} {l₁ l₂ : List BlockInfo}
    (h₁ : ParentsFirst api tracker l₁) (h₂ : ParentsFirst api tracker l₂) :
    ParentsFirst api tracker (l₁ ++ l₂) := by
  intro i x hx
  by_cases hi : i < l₁.length
  · rw [List.getElem?_append_left hi] at hx
    obtain ⟨hu, hp⟩ := h₁ i x hx
    refine ⟨hu, ?_⟩
    intro blk ps p hb hps hmem hup
    obtain ⟨j, hj, hjp⟩ := hp blk ps p hb hps hmem hup
    exact ⟨j, hj, by rw [List.getElem?_append_left (by omega)]; exact hjp⟩
  · rw [List.getElem?_append_right (by omega)] at hx
    obtain ⟨hu, hp⟩ := h₂ _ x hx
    refine ⟨hu, ?_⟩
    intro blk ps p hb hps hmem hup
    obtain ⟨j, hj, hjp⟩ := hp blk ps p hb hps hmem hup
    refine ⟨l₁.length + j, by omega, ?_⟩
    rw [List.getElem?_append_right (by omega)]
    simpa using hjp

theorem ParentsFirst.snoc {api : APIClient} {tracker : Tracker} {l : List BlockInfo}
    {b : BlockInfo} (h : ParentsFirst api tracker l) (hb : alreadySeen tracker b = false)
    (hpar : ∀ blk ps p, api.GetBlockData [] b = Except.ok blk →
      blk.BlockInfo.GetParentBlocks = Except.ok ps → p ∈ ps → alreadySeen tracker p = false →
      p ∈ l) :
    ParentsFirst api tracker (l ++ [b]) := by
  intro i x hx
  by_cases hi : i < l.length
  · rw [List.getElem?_append_left hi] at hx
    obtain ⟨hu, hp⟩ := h i x hx
    refine ⟨hu, ?_⟩
    intro blk ps p hb hps hmem hup
    obtain ⟨j, hj, hjp⟩ := hp blk ps p hb hps hmem hup
    exact ⟨j, hj, by rw [List.getElem?_append_left (by omega)]; exact hjp⟩
  · rw [List.getElem?_append_right (by omega)] at hx
    have hi0 : i - l.length = 0 := by
      by_contra hne
      have : ([b] : List BlockInfo)[i - l.length]? = none := by
        apply List.getElem?_eq_none
        simp
        omega
      rw [this] at hx
      simp at hx
    rw [hi0] at hx
    simp at hx
    subst hx
    refine ⟨hb, ?_⟩
    intro blk ps p hblk hps hmem hup
    have hin := hpar blk ps p hblk hps hmem hup
    obtain ⟨j, hj, hjp⟩ := List.getElem_of_mem hin
    refine ⟨j, by omega, ?_⟩
    rw [List.getElem?_append_left hj, List.getElem?_eq_getElem hj, hjp]

theorem parentsLoop_parentsFirst (api : APIClient) (tracker : Tracker)
    (f : List Call → BlockInfo → Option Returned)
    (hf : ∀ c p r, f c p = some r → r.err = none →
      ParentsFirst api tracker r.ret ∧ (alreadySeen tracker p = false → p ∈ r.ret)) :
    ∀ (ps acc : List BlockInfo) (calls : List Call) (r : Returned),
      parentsLoop f ps acc calls = some r → r.err = none → ParentsFirst api tracker acc →
      ParentsFirst api tracker r.ret ∧ (∀ p ∈ acc, p ∈ r.ret) ∧
        (∀ p ∈ ps, alreadySeen tracker p = false → p ∈ r.ret) := by
  intro ps
  induction ps with
  | nil =>
    intro acc calls r h herr hacc
    simp only [parentsLoop, Option.some.injEq] at h
    subst h
    exact ⟨hacc, fun p hp => hp, by simp⟩
  | cons p rest ih =>
    intro acc calls r h herr hacc
    unfold parentsLoop at h
    cases hfp : f calls p with
    | none => simp [hfp] at h
    | some ext =>
      rw [hfp] at h
      dsimp only at h
      cases he : ext.err with
      | some e =>
        rw [he] at h
        simp only [Option.some.injEq] at h
        subst h
        simp at herr
      | none =>
        rw [he] at h
        dsimp only at h
        obtain ⟨hg, hmem⟩ := hf calls p ext hfp he
        obtain ⟨h1, h2, h3⟩ := ih _ _ _ h herr (hacc.append hg)
        refine ⟨h1, fun q hq => h2 q (List.mem_append_left _ hq), ?_⟩
        intro q hq hu
        rcases List.mem_cons.mp hq with rfl | hq
        · exact h2 q (List.mem_append_right _ (hmem hu))
        · exact h3 q hq hu

theorem getNotSeenShards_parentsFirst (api : APIClient)
    (hdet : ∀ h x, api.GetBlockData h x = api.GetBlockData [] x) (tracker : Tracker) :
    ∀ (fuel : Nat) (calls : List Call) (b : BlockInfo) (r : Returned),
      getNotSeenShards api fuel calls b tracker = some r → r.err = none →
      ParentsFirst api tracker r.ret ∧ (alreadySeen tracker b = false → b ∈ r.ret) := by
  intro fuel
  induction fuel with
  | zero => intro calls b r h; simp [getNotSeenShards] at h
  | succ n ih =>
    intro calls b r h herr
    rw [getNotSeenShards] at h
    by_cases hs : alreadySeen tracker b = true
    · simp only [hs, if_true, Option.some.injEq] at h
      subst h
      exact ⟨ParentsFirst.nil api tracker, by simp [hs]⟩
    · simp only [hs] at h
      cases hd : api.GetBlockData calls b with
      | error e =>
        rw [hd] at h
        simp only [Bool.false_eq_true, if_false, Option.some.injEq] at h
        subst h
        simp at herr
      | ok blk =>
        rw [hd] at h
        dsimp only at h
        cases hp : blk.BlockInfo.GetParentBlocks with
        | error e =>
          rw [hp] at h
          simp only [Bool.false_eq_true, if_false, Option.some.injEq] at h
          subst h
          simp at herr
        | ok ps =>
          rw [hp] at h
          simp only [Bool.false_eq_true, if_false] at h
          cases hl : parentsLoop (fun c parent => getNotSeenShards api n c parent tracker) ps []
              (calls ++ [Call.GetBlockData b]) with
          | none => rw [hl] at h; simp at h
          | some r' =>
            rw [hl] at h
            dsimp only at h
            cases he : r'.err with
            | some e =>
              rw [he] at h
              simp only [Option.some.injEq] at h
              subst h
              simp at herr
            | none =>
              rw [he] at h
              simp only [Option.some.injEq] at h
              subst h
              obtain ⟨h1, _, h3⟩ := parentsLoop_parentsFirst api tracker _
                (fun c p r hr herr' => ih c p r hr herr') _ _ _ _ hl he
                (ParentsFirst.nil api tracker)
              refine ⟨?_, fun _ => by simp⟩
              apply h1.snoc (by simpa using hs)
              intro blk' ps' p hblk' hps' hmem hup
              rw [← hdet calls b, hd] at hblk'
              cases hblk'
              rw [hp] at hps'
              cases hps'
              exact h3 p hmem hup

/-! ### Single-parent descents -/

theorem parentsLoop_all_seen (api : APIClient) (tracker : Tracker) (fuel : Nat) :
    ∀ (ps acc : List BlockInfo) (calls : List Call),
      (∀ p ∈ ps, alreadySeen tracker p = true) →
      parentsLoop (fun c parent => getNotSeenShards api (fuel + 1) c parent tracker) ps acc calls
        = some ⟨acc, none, calls⟩ := by
  intro ps
  induction ps with
  | nil => intro acc calls _; simp [parentsLoop]
  | cons p rest ih =>
    intro acc calls h
    have hp : alreadySeen tracker p = true := h p (List.mem_cons_self _ _)
    unfold parentsLoop
    simp only [getNotSeenShards, hp, if_true]
    have := ih acc calls (fun q hq => h q (List.mem_cons_of_mem _ hq))
    simpa using this

theorem getNotSeenShards_descent (api : APIClient) (tracker : Tracker) :
    ∀ (d : List BlockInfo), Descent api tracker d →
      ∀ (x : BlockInfo), d.head? = some x →
      ∀ (fuel : Nat), d.length + 1 ≤ fuel → ∀ (calls : List Call),
        getNotSeenShards api fuel calls x tracker
          = some ⟨d.reverse, none, calls ++ d.map Call.GetBlockData⟩ := by
  intro d hd
  induction hd with
  | base x ps hx hfetch hseen =>
    intro x' hx' fuel hfuel calls
    simp at hx'
    subst hx'
    obtain ⟨m, rfl⟩ : ∃ m, fuel = m + 2 := ⟨fuel - 2, by simp at hfuel; omega⟩
    obtain ⟨blk, hblk, hps⟩ := hfetch calls
    rw [getNotSeenShards]
    simp only [hx, hblk, hps, Bool.false_eq_true, if_false]
    rw [parentsLoop_all_seen api tracker m ps [] _ hseen]
    simp
  | step x y rest hx hfetch _ ih =>
    intro x' hx' fuel hfuel calls
    simp at hx'
    subst hx'
    obtain ⟨m, rfl⟩ : ∃ m, fuel = m + 1 := ⟨fuel - 1, by simp at hfuel; omega⟩
    obtain ⟨blk, hblk, hps⟩ := hfetch calls
    rw [getNotSeenShards]
    simp only [hx, hblk, hps, Bool.false_eq_true, if_false]
    have hrec := ih y rfl m (by simp at hfuel ⊢; omega) (calls ++ [Call.GetBlockData x])
    simp only [parentsLoop, hrec]
    simp

/-- The blocks `lane (s + k), ..., lane (s + 1)` of a single-parent lane form a descent. -/
theorem descent_of_lane (api : APIClient) (tracker : Tracker) (K : String)
    (lane : Nat → BlockInfo) (s : Nat)
    (hkey : ∀ i, getShardID (lane i) = K) (hseq : ∀ i, (lane i).SeqNo = i)
    (htr : tracker K = some s) :
    ∀ (k : Nat),
      (∀ h i, s < i → i ≤ s + (k + 1) → ∃ blk, api.GetBlockData h (lane i) = Except.ok blk ∧
        blk.BlockInfo.GetParentBlocks = Except.ok [lane (i - 1)]) →
      Descent api tracker ((List.range' (s + 1) (k + 1)).reverse.map lane) := by
  have hunseen : ∀ i, s < i → alreadySeen tracker (lane i) = false := by
    intro i hi
    simp only [alreadySeen, hkey, htr, hseq]
    simp
    omega
  intro k
  induction k with
  | zero =>
    intro hpar
    simp
    refine Descent.base _ [lane s] (hunseen _ (by omega)) ?_ ?_
    · intro h
      have := hpar h (s + 1) (by omega) (by omega)
      simpa using this
    · intro p hp
      simp at hp
      subst hp
      exact alreadySeen_of_entry _ _ (by rw [hkey, hseq, htr])
  | succ k ih =>
    intro hpar
    have hd := ih (fun h i h1 h2 => hpar h i h1 (by omega))
    rw [List.range'_concat, List.reverse_append, List.map_append]
    cases hrev : (List.range' (s + 1) (k + 1)).reverse with
    | nil => simp at hrev
    | cons a rest =>
      rw [hrev] at hd
      have ha : a = s + (k + 1) := by
        have h1 : (List.range' (s + 1) (k + 1)).reverse.head? = some a := by rw [hrev]; rfl
        rw [List.head?_reverse, List.getLast?_range'] at h1
        simp at h1
        omega
      simp only [List.reverse_cons, List.reverse_nil, List.nil_append, List.map_cons,
        List.map_nil, List.singleton_append]
      simp only [List.map_cons] at hd
      refine Descent.step _ _ _ (hunseen _ (by omega)) ?_ hd
      intro h
      have := hpar h (s + 1 + 1 * (k + 1)) (by omega) (by omega)
      rw [ha]
      simpa [show s + 1 + (k + 1) - 1 = s + (k + 1) by omega] using this

theorem getNotSeenShards_of_seen (api : APIClient) (fuel : Nat) (calls : List Call)
    (b : BlockInfo) (tracker : Tracker) (h : alreadySeen tracker b = true) :
    getNotSeenShards api (fuel + 1) calls b tracker = some ⟨[], none, calls⟩ := by
  simp [getNotSeenShards, h]

theorem getNotSeenShards_lane (api : APIClient) (tracker : Tracker) (K : String)
    (lane : Nat → BlockInfo) (s n : Nat)
    (hkey : ∀ i, getShardID (lane i) = K) (hseq : ∀ i, (lane i).SeqNo = i)
    (hpar : ∀ h i, s < i → i ≤ n → ∃ blk, api.GetBlockData h (lane i) = Except.ok blk ∧
      blk.BlockInfo.GetParentBlocks = Except.ok [lane (i - 1)])
    (htr : tracker K = some s) (hsn : s ≤ n)
    (fuel : Nat) (hfuel : n - s + 1 ≤ fuel) (calls : List Call) :
    getNotSeenShards api fuel calls (lane n) tracker
      = some ⟨(List.range' (s + 1) (n - s)).map lane, none,
          calls ++ (List.range' (s + 1) (n - s)).reverse.map
            (fun i => Call.GetBlockData (lane i))⟩ := by
  rcases Nat.eq_or_lt_of_le hsn with rfl | hlt
  · obtain ⟨m, rfl⟩ : ∃ m, fuel = m + 1 := ⟨fuel - 1, by omega⟩
    rw [getNotSeenShards_of_seen api m calls (lane s) tracker
      (alreadySeen_of_entry _ _ (by rw [hkey, hseq, htr]))]
    simp
  · obtain ⟨k, rfl⟩ : ∃ k, n = s + (k + 1) := ⟨n - s - 1, by omega⟩
    have hd := descent_of_lane api tracker K lane s hkey hseq htr k hpar
    have hrun := getNotSeenShards_descent api tracker _ hd (lane (s + (k + 1)))
      (by
        rw [List.map_reverse, List.head?_reverse, List.getLast?_map, List.getLast?_range']
        simp
        congr 1
        omega)
      fuel (by simp; omega) calls
    rw [hrun]
    have e : s + (k + 1) - s = k + 1 := by omega
    simp [e, List.map_reverse, Function.comp_def]

theorem getNotSeenShards_first_call (api : APIClient) (tracker : Tracker) (fuel : Nat)
    (calls : List Call) (b : BlockInfo) (r : Returned)
    (hrun : getNotSeenShards api fuel calls b tracker = some r)
    (hb : alreadySeen tracker b = false) :
    ∃ post, r.calls = calls ++ Call.GetBlockData b :: post := by
  cases fuel with
  | zero => simp [getNotSeenShards] at hrun
  | succ n =>
    rw [getNotSeenShards] at hrun
    simp only [hb, Bool.false_eq_true, if_false] at hrun
    cases hd : api.GetBlockData calls b with
    | error e =>
      rw [hd] at hrun
      simp only [Option.some.injEq] at hrun
      subst hrun
      exact ⟨[], rfl⟩
    | ok blk =>
      rw [hd] at hrun
      dsimp only at hrun
      cases hp : blk.BlockInfo.GetParentBlocks with
      | error e =>
        rw [hp] at hrun
        simp only [Option.some.injEq] at hrun
        subst hrun
        exact ⟨[], rfl⟩
      | ok ps =>
        rw [hp] at hrun
        dsimp only at hrun
        cases hl : parentsLoop (fun c parent => getNotSeenShards api n c parent tracker) ps []
            (calls ++ [Call.GetBlockData b]) with
        | none => rw [hl] at hrun; simp at hrun
        | some r' =>
          rw [hl] at hrun
          dsimp only at hrun
          obtain ⟨⟨new, hnew⟩, _, _⟩ := parentsLoop_trace api _
            (fun c p r hr => getNotSeenShards_trace api tracker n c p r hr) _ _ _ _ hl
          have hcalls : r.calls = r'.calls := by
            cases he : r'.err with
            | some e => rw [he] at hrun; simp only [Option.some.injEq] at hrun; subst hrun; rfl
            | none => rw [he] at hrun; simp only [Option.some.injEq] at hrun; subst hrun; rfl
          exact ⟨new, by rw [hcalls, hnew]; simp⟩

theorem parentsLoop_results (f : List Call → BlockInfo → Option Returned) :
    ∀ (ps acc : List BlockInfo) (calls : List Call) (r : Returned),
      parentsLoop f ps acc calls = some r → r.err = none →
      ∃ rs : List Returned, rs.length = ps.length ∧
        r.ret = acc ++ (rs.map Returned.ret).flatten ∧
        r.calls = callsBefore calls rs rs.length ∧
        ∀ (i : Nat) (p : BlockInfo) (q : Returned), ps[i]? = some p → rs[i]? = some q →
          q.err = none ∧ f (callsBefore calls rs i) p = some q := by
  intro ps
  induction ps with
  | nil =>
    intro acc calls r h _
    simp only [parentsLoop, Option.some.injEq] at h
    subst h
    exact ⟨[], rfl, by simp, rfl, by simp⟩
  | cons p rest ih =>
    intro acc calls r h herr
    unfold parentsLoop at h
    cases hf : f calls p with
    | none => simp [hf] at h
    | some ext =>
      rw [hf] at h
      dsimp only at h
      cases he : ext.err with
      | some e =>
        rw [he] at h
        simp only [Option.some.injEq] at h
        subst h
        simp at herr
      | none =>
        rw [he] at h
        dsimp only at h
        obtain ⟨rs, hlen, hret, hcalls, hall⟩ := ih _ _ _ h herr
        refine ⟨ext :: rs, by simp [hlen], by simp [hret], by simpa [callsBefore] using hcalls,
          ?_⟩
        intro i p' q hp hq
        cases i with
        | zero =>
          simp only [List.getElem?_cons_zero, Option.some.injEq] at hp hq
          subst hp
          subst hq
          exact ⟨he, hf⟩
        | succ j =>
          simp only [List.getElem?_cons_succ] at hp hq
          exact hall j p' q hp hq

theorem getNotSeenShards_unfold_aux (api : APIClient) (tracker : Tracker) (fuel : Nat)
    (calls : List Call) (b : BlockInfo) (r : Returned)
    (hb : alreadySeen tracker b = false)
    (hrun : getNotSeenShards api (fuel + 1) calls b tracker = some r) (hok : r.err = none) :
    ∃ (blk : Block) (ps : List BlockInfo) (rs : List Returned),
      api.GetBlockData calls b = Except.ok blk ∧
      blk.BlockInfo.GetParentBlocks = Except.ok ps ∧
      rs.length = ps.length ∧
      (∀ (i : Nat) (p : BlockInfo) (q : Returned), ps[i]? = some p → rs[i]? = some q →
        q.err = none ∧
          getNotSeenShards api fuel (callsBefore (calls ++ [Call.GetBlockData b]) rs i) p tracker
            = some q) ∧
      r.ret = (rs.map Returned.ret).flatten ++ [b] ∧
      r.calls = callsBefore (calls ++ [Call.GetBlockData b]) rs rs.length := by
  rw [getNotSeenShards] at hrun
  simp only [hb, Bool.false_eq_true, if_false] at hrun
  cases hd : api.GetBlockData calls b with
  | error e =>
    rw [hd] at hrun
    simp only [Option.some.injEq] at hrun
    subst hrun
    simp at hok
  | ok blk =>
    rw [hd] at hrun
    dsimp only at hrun
    cases hp : blk.BlockInfo.GetParentBlocks with
    | error e =>
      rw [hp] at hrun
      simp only [Option.some.injEq] at hrun
      subst hrun
      simp at hok
    | ok ps =>
      rw [hp] at hrun
      dsimp only at hrun
      cases hl : parentsLoop (fun c parent => getNotSeenShards api fuel c parent tracker) ps []
          (calls ++ [Call.GetBlockData b]) with
      | none => rw [hl] at hrun; simp at hrun
      | some r' =>
        rw [hl] at hrun
        dsimp only at hrun
        cases he : r'.err with
        | some e =>
          rw [he] at hrun
          simp only [Option.some.injEq] at hrun
          subst hrun
          simp at hok
        | none =>
          rw [he] at hrun
          simp only [Option.some.injEq] at hrun
          subst hrun
          obtain ⟨rs, hlen, hret, hcalls, hall⟩ := parentsLoop_results _ ps [] _ r' hl he
          simp only [List.nil_append] at hret
          exact ⟨blk, ps, rs, rfl, hp, hlen, hall, by rw [hret], hcalls⟩

theorem parentsLoop_returns (f : List Call → BlockInfo → Option Returned) :
    ∀ (ps : List BlockInfo), (∀ p ∈ ps, ∀ c, ∃ r, f c p = some r) →
      ∀ (acc : List BlockInfo) (calls : List Call), ∃ r, parentsLoop f ps acc calls = some r := by
  intro ps
  induction ps with
  | nil => intro _ acc calls; exact ⟨_, rfl⟩
  | cons p rest ih =>
    intro h acc calls
    obtain ⟨ext, hext⟩ := h p (List.mem_cons_self _ _) calls
    unfold parentsLoop
    rw [hext]
    dsimp only
    cases he : ext.err with
    | some e => exact ⟨_, rfl⟩
    | none => exact ih (fun q hq => h q (List.mem_cons_of_mem _ hq)) _ _

theorem getNotSeenShards_returns (api : APIClient) (tracker : Tracker)
    (hdec : ∀ h x blk ps p, api.GetBlockData h x = Except.ok blk →
      blk.BlockInfo.GetParentBlocks = Except.ok ps → p ∈ ps → p.SeqNo < x.SeqNo) :
    ∀ (fuel : Nat) (calls : List Call) (b : BlockInfo), b.SeqNo < fuel →
      ∃ r, getNotSeenShards api fuel calls b tracker = some r := by
  intro fuel
  induction fuel with
  | zero => intro calls b h; omega
  | succ n ih =>
    intro calls b hlt
    rw [getNotSeenShards]
    by_cases hs : alreadySeen tracker b = true
    · exact ⟨⟨[], none, calls⟩, by simp [hs]⟩
    · simp only [hs, Bool.false_eq_true, if_false]
      cases hd : api.GetBlockData calls b with
      | error e => exact ⟨_, rfl⟩
      | ok blk =>
        dsimp only
        cases hp : blk.BlockInfo.GetParentBlocks with
        | error e => exact ⟨_, rfl⟩
        | ok ps =>
          dsimp only
          obtain ⟨r', hr'⟩ := parentsLoop_returns
            (fun c parent => getNotSeenShards api n c parent tracker) ps
            (fun p hp' c => ih c p (by have := hdec calls b blk ps p hd hp hp'; omega))
            [] (calls ++ [Call.GetBlockData b])
          rw [hr']
          dsimp only
          cases he : r'.err with
          | some e => exact ⟨_, rfl⟩
          | none => exact ⟨_, rfl⟩

theorem getNotSeenShards_ends (api : APIClient) (tracker : Tracker) :
    ∀ (fuel : Nat) (calls : List Call) (b : BlockInfo) (r : Returned),
      getNotSeenShards api fuel calls b tracker = some r → r.err = none →
      Ends api tracker b := by
  intro fuel
  induction fuel with
  | zero => intro calls b r h; simp [getNotSeenShards] at h
  | succ n ih =>
    intro calls b r hrun hok
    by_cases hs : alreadySeen tracker b = true
    · exact Ends.seen b hs
    · have hb : alreadySeen tracker b = false := by simpa using hs
      obtain ⟨blk, ps, rs, hblk, hps, hlen, hall, _⟩ :=
        getNotSeenShards_unfold_aux api tracker n calls b r hb hrun hok
      refine Ends.inner b calls blk ps hb hblk hps ?_
      intro p hp
      obtain ⟨i, hi, hip⟩ := List.getElem_of_mem hp
      have hi' : i < rs.length := by omega
      obtain ⟨_, hq⟩ := hall i p rs[i] (by rw [List.getElem?_eq_getElem hi, hip])
        (List.getElem?_eq_getElem hi')
      exact ih _ p _ hq (hall i p rs[i] (by rw [List.getElem?_eq_getElem hi, hip])
        (List.getElem?_eq_getElem hi')).1

theorem lanes_parents_decrease (h : List Call) (x : BlockInfo) (blk : Block)
    (ps : List BlockInfo) (p : BlockInfo)
    (hblk : Fixture.lanes.GetBlockData h x = Except.ok blk)
    (hps : blk.BlockInfo.GetParentBlocks = Except.ok ps) (hp : p ∈ ps) : p.SeqNo < x.SeqNo := by
  simp only [Fixture.lanes, Fixture.tableClient, Except.ok.injEq] at hblk
  subst hblk
  simp only [Fixture.laneParents] at hps
  by_cases h0 : x.SeqNo = 0
  · simp only [h0, if_true, Except.ok.injEq] at hps
    subst hps
    simp at hp
  · simp only [h0, if_false, Except.ok.injEq] at hps
    subst hps
    simp only [List.mem_singleton] at hp
    subst hp
    show x.SeqNo - 1 < x.SeqNo
    omega

theorem parentsLoopSt_eq (f : List Call → BlockInfo → Option Returned)
    (g : List Call → BlockInfo → Tracker → Option (Returned × Tracker)) (tracker : Tracker)
    (hfg : ∀ c p, g c p tracker = (f c p).map (fun r => (r, tracker))) :
    ∀ (ps acc : List BlockInfo) (calls : List Call),
      parentsLoopSt g ps acc calls tracker
        = (parentsLoop f ps acc calls).map (fun r => (r, tracker)) := by
  intro ps
  induction ps with
  | nil => intro acc calls; rfl
  | cons p rest ih =>
    intro acc calls
    unfold parentsLoopSt parentsLoop
    rw [hfg calls p]
    cases hf : f calls p with
    | none => rfl
    | some ext =>
      simp only [Option.map_some']
      cases he : ext.err with
      | some e => rfl
      | none => exact ih _ _

theorem getNotSeenShardsSt_eq (api : APIClient) (tracker : Tracker) :
    ∀ (fuel : Nat) (calls : List Call) (b : BlockInfo),
      getNotSeenShardsSt api fuel calls b tracker
        = (getNotSeenShards api fuel calls b tracker).map (fun r => (r, tracker)) := by
  intro fuel
  induction fuel with
  | zero => intro calls b; rfl
  | succ n ih =>
    intro calls b
    rw [getNotSeenShardsSt, getNotSeenShards]
    by_cases hs : alreadySeen tracker b = true
    · simp [hs]
    · simp only [hs, Bool.false_eq_true, if_false]
      cases hd : api.GetBlockData calls b with
      | error e => rfl
      | ok blk =>
        dsimp only
        cases hp : blk.BlockInfo.GetParentBlocks with
        | error e => rfl
        | ok ps =>
          dsimp only
          rw [parentsLoopSt_eq (fun c parent => getNotSeenShards api n c parent tracker)
            (fun c parent m => getNotSeenShardsSt api n c parent m) tracker
            (fun c p => ih c p)]
          cases hl : parentsLoop (fun c parent => getNotSeenShards api n c parent tracker) ps []
              (calls ++ [Call.GetBlockData b]) with
          | none => rfl
          | some r' =>
            simp only [Option.map_some']
            cases he : r'.err with
            | some e => rfl
            | none => rfl

/-! ### Blocks reached by a descent -/

theorem reach_unseen {api : APIClient} {tracker : Tracker} {x y : BlockInfo}
    (h : Reach api tracker x y) : alreadySeen tracker x = false := by
  cases h with
  | self _ hx => exact hx
  | up _ _ _ _ _ hx _ _ _ _ => exact hx

theorem reach_unseen_target {api : APIClient} {tracker : Tracker} {x y : BlockInfo}
    (h : Reach api tracker x y) : alreadySeen tracker y = false := by
  induction h with
  | self _ hx => exact hx
  | up _ _ _ _ _ _ _ _ _ _ ih => exact ih

theorem reach_trans {api : APIClient} {tracker : Tracker} {x y z : BlockInfo}
    (h : Reach api tracker x y) (h' : Reach api tracker y z) : Reach api tracker x z := by
  induction h with
  | self _ _ => exact h'
  | up x blk ps p y hx hblk hps hp _ ih => exact Reach.up x blk ps p z hx hblk hps hp (ih h')

/-- Parent list of a served block, read off any fetch. -/
theorem served_parents {api : APIClient} {x : BlockInfo} (hs : Served api x) (c : List Call)
    (blk : Block) (ps : List BlockInfo) (hblk : api.GetBlockData c x = Except.ok blk)
    (hps : blk.BlockInfo.GetParentBlocks = Except.ok ps) :
    (∀ c', ∃ blk', api.GetBlockData c' x = Except.ok blk' ∧
      blk'.BlockInfo.GetParentBlocks = Except.ok ps) ∧ ∀ p ∈ ps, p.SeqNo < x.SeqNo := by
  obtain ⟨ps', hall, hdec⟩ := hs
  obtain ⟨blk', hb', hp'⟩ := hall c
  rw [hblk] at hb'
  cases hb'
  rw [hps] at hp'
  cases hp'
  exact ⟨hall, hdec⟩

theorem reach_iff_of_served {api : APIClient} {tracker : Tracker} {x : BlockInfo}
    (hx : alreadySeen tracker x = false) (blk : Block) (ps : List BlockInfo)
    (hblk : api.GetBlockData [] x = Except.ok blk)
    (hps : blk.BlockInfo.GetParentBlocks = Except.ok ps) (y : BlockInfo) :
    Reach api tracker x y ↔ (y = x ∨ ∃ p ∈ ps, Reach api tracker p y) := by
  constructor
  · intro h
    cases h with
    | self _ _ => exact Or.inl rfl
    | up _ blk' ps' p _ _ hblk' hps' hp hr =>
      rw [hblk] at hblk'
      cases hblk'
      rw [hps] at hps'
      cases hps'
      exact Or.inr ⟨p, hp, hr⟩
  · rintro (rfl | ⟨p, hp, hr⟩)
    · exact Reach.self _ hx
    · exact Reach.up x blk ps p y hx hblk hps hp hr

theorem reach_seqNo_le {api : APIClient} {tracker : Tracker} {x y : BlockInfo}
    (h : Reach api tracker x y) (hs : ∀ z, Reach api tracker x z → Served api z) :
    y.SeqNo ≤ x.SeqNo := by
  induction h with
  | self _ _ => exact le_refl _
  | up x blk ps p y hx hblk hps hp hr ih =>
    have h1 := (served_parents (hs x (Reach.self x hx)) [] blk ps hblk hps).2 p hp
    have h2 := ih (fun z hz => hs z (Reach.up x blk ps p z hx hblk hps hp hz))
    omega

theorem parentsLoop_reach (f : List Call → BlockInfo → Option Returned)
    (S : BlockInfo → BlockInfo → Prop) (G : BlockInfo → Prop) (Q : List BlockInfo → Prop)
    (hQ : ∀ l₁ l₂, Q l₁ → Q l₂ → Q (l₁ ++ l₂)) :
    ∀ (ps acc : List BlockInfo) (calls : List Call),
      (∀ p ∈ ps, ∀ c, ∃ r, f c p = some r ∧ r.err = none ∧ (∀ y, y ∈ r.ret ↔ S p y) ∧
        (r.ret.Nodup ↔ G p) ∧ Q r.ret) →
      ∃ r, parentsLoop f ps acc calls = some r ∧ r.err = none ∧
        (∀ y, y ∈ r.ret ↔ (y ∈ acc ∨ ∃ p ∈ ps, S p y)) ∧
        (r.ret.Nodup ↔ ((∀ p ∈ ps, G p) ∧ acc.Nodup ∧ (∀ y ∈ acc, ∀ p ∈ ps, ¬ S p y) ∧
          ps.Pairwise (fun p q => ∀ y, S p y → ¬ S q y))) ∧
        (Q acc → Q r.ret) := by
  intro ps
  induction ps with
  | nil =>
    intro acc calls _
    exact ⟨⟨acc, none, calls⟩, rfl, rfl, by simp, by simp, fun h => h⟩
  | cons p rest ih =>
    intro acc calls h
    obtain ⟨ext, hext, herr, hmem, hnd, hQe⟩ := h p (List.mem_cons_self _ _) calls
    obtain ⟨r, hr, hrerr, hrmem, hrnd, hrQ⟩ := ih (acc ++ ext.ret) ext.calls
      (fun q hq => h q (List.mem_cons_of_mem _ hq))
    refine ⟨r, ?_, hrerr, ?_, ?_, fun hacc => hrQ (hQ _ _ hacc hQe)⟩
    · simp only [parentsLoop, hext, herr, hr]
    · intro y
      rw [hrmem y, List.mem_append, hmem y]
      constructor
      · rintro ((h1 | h1) | ⟨q, hq, h1⟩)
        · exact Or.inl h1
        · exact Or.inr ⟨p, List.mem_cons_self _ _, h1⟩
        · exact Or.inr ⟨q, List.mem_cons_of_mem _ hq, h1⟩
      · rintro (h1 | ⟨q, hq, h1⟩)
        · exact Or.inl (Or.inl h1)
        · rcases List.mem_cons.1 hq with rfl | hq'
          · exact Or.inl (Or.inr h1)
          · exact Or.inr ⟨q, hq', h1⟩
    · rw [hrnd, List.pairwise_cons, List.nodup_append, hnd]
      constructor
      · rintro ⟨hG, ⟨hacc, hGp, hdj⟩, hdis, hpw⟩
        refine ⟨?_, hacc, ?_, ?_, hpw⟩
        · intro q hq
          rcases List.mem_cons.1 hq with rfl | hq'
          · exact hGp
          · exact hG q hq'
        · intro y hy q hq
          rcases List.mem_cons.1 hq with rfl | hq'
          · intro hS
            exact hdj hy ((hmem y).2 hS)
          · exact hdis y (List.mem_append_left _ hy) q hq'
        · intro q hq y hS
          exact hdis y (List.mem_append_right _ ((hmem y).2 hS)) q hq
      · rintro ⟨hG, hacc, hdis, hpw1, hpw⟩
        refine ⟨fun q hq => hG q (List.mem_cons_of_mem _ hq),
          ⟨hacc, hG p (List.mem_cons_self _ _), ?_⟩, ?_, hpw⟩
        · intro y hy1 hy2
          exact hdis y hy1 p (List.mem_cons_self _ _) ((hmem y).1 hy2)
        · intro y hy q hq
          rcases List.mem_append.1 hy with h1 | h1
          · exact hdis y h1 q (List.mem_cons_of_mem _ hq)
          · exact hpw1 q hq y ((hmem y).1 h1)

theorem reachedOnce_iff_of_served {api : APIClient} {tracker : Tracker} {x : BlockInfo}
    (hx : alreadySeen tracker x = false) (blk : Block) (ps : List BlockInfo)
    (hblk : api.GetBlockData [] x = Except.ok blk)
    (hps : blk.BlockInfo.GetParentBlocks = Except.ok ps) :
    ReachedOnce api tracker x ↔
      ((∀ p ∈ ps, ReachedOnce api tracker p) ∧
        ps.Pairwise (fun p q => ∀ y, Reach api tracker p y → ¬ Reach api tracker q y)) := by
  constructor
  · intro h
    refine ⟨?_, h x (Reach.self x hx) blk ps hblk hps⟩
    intro p hp z hz
    exact h z (Reach.up x blk ps p z hx hblk hps hp hz)
  · rintro ⟨h1, h2⟩ z hz blk' ps' hblk' hps'
    rcases (reach_iff_of_served hx blk ps hblk hps z).1 hz with rfl | ⟨p, hp, hpz⟩
    · rw [hblk] at hblk'
      cases hblk'
      rw [hps] at hps'
      cases hps'
      exact h2
    · exact h1 p hp z hpz blk' ps' hblk' hps'

theorem getNotSeenShards_reach (api : APIClient) (tracker : Tracker) :
    ∀ (fuel : Nat) (x : BlockInfo) (calls : List Call), x.SeqNo < fuel →
      (∀ y, Reach api tracker x y → Served api y) →
      ∃ r, getNotSeenShards api fuel calls x tracker = some r ∧ r.err = none ∧
        (∀ y, y ∈ r.ret ↔ Reach api tracker x y) ∧
        (r.ret.Nodup ↔ ReachedOnce api tracker x) ∧
        ParentsFirst api tracker r.ret := by
  intro fuel
  induction fuel with
  | zero => intro x calls h; omega
  | succ n ih =>
    intro x calls hlt hs
    by_cases hseen : alreadySeen tracker x = true
    · have hno : ∀ y, ¬ Reach api tracker x y := by
        intro y h
        have := reach_unseen h
        rw [hseen] at this
        cases this
      refine ⟨⟨[], none, calls⟩, by simp [getNotSeenShards, hseen], rfl, ?_, ?_,
        ParentsFirst.nil api tracker⟩
      · intro y
        constructor
        · intro h; simp at h
        · intro h; exact absurd h (hno y)
      · simp only [List.nodup_nil, true_iff]
        intro z hz
        exact absurd hz (hno z)
    · have hx : alreadySeen tracker x = false := by simpa using hseen
      obtain ⟨ps, hall, hdec⟩ := hs x (Reach.self x hx)
      obtain ⟨blk0, hblk0, hps0⟩ := hall []
      obtain ⟨blk, hblk, hps⟩ := hall calls
      have hup : ∀ p ∈ ps, ∀ z, Reach api tracker p z → Reach api tracker x z :=
        fun p hp z hz => Reach.up x blk0 ps p z hx hblk0 hps0 hp hz
      obtain ⟨r, hr, hrerr, hrmem, hrnd, hrQ⟩ := parentsLoop_reach
        (fun c parent => getNotSeenShards api n c parent tracker) (Reach api tracker)
        (ReachedOnce api tracker) (ParentsFirst api tracker) (fun _ _ h₁ h₂ => h₁.append h₂)
        ps [] (calls ++ [Call.GetBlockData x])
        (fun p hp c => ih p c (by have := hdec p hp; omega) (fun z hz => hs z (hup p hp z hz)))
      refine ⟨⟨r.ret ++ [x], none, r.calls⟩, ?_, rfl, ?_, ?_, ?_⟩
      · rw [getNotSeenShards]
        simp only [hx, hblk, hps, hr, hrerr, Bool.false_eq_true, if_false]
      · intro y
        rw [reach_iff_of_served hx blk0 ps hblk0 hps0 y]
        simp only [List.mem_append, List.mem_singleton, hrmem y, List.not_mem_nil, false_or]
        exact or_comm
      · have hnot : x ∉ r.ret := by
          intro hy
          obtain ⟨p, hp, hpy⟩ := ((hrmem x).1 hy).resolve_left (by simp)
          have h1 := reach_seqNo_le hpy (fun z hz => hs z (hup p hp z hz))
          have h2 := hdec p hp
          omega
        rw [reachedOnce_iff_of_served hx blk0 ps hblk0 hps0]
        dsimp only
        rw [List.nodup_append, hrnd]
        constructor
        · rintro ⟨⟨h1, _, _, h4⟩, _, _⟩
          exact ⟨h1, h4⟩
        · rintro ⟨h1, h4⟩
          refine ⟨⟨h1, List.nodup_nil, by simp, h4⟩, List.nodup_singleton x, ?_⟩
          intro y hy hyx
          simp only [List.mem_singleton] at hyx
          subst hyx
          exact hnot hy
      · apply (hrQ (ParentsFirst.nil api tracker)).snoc hx
        intro blk' ps' p hblk' hps' hmem hup'
        rw [hblk0] at hblk'
        cases hblk'
        rw [hps0] at hps'
        cases hps'
        exact (hrmem p).2 (Or.inr ⟨p, hmem, Reach.self p hup'⟩)

theorem reach_of_seen {api : APIClient} {tracker : Tracker} {x : BlockInfo}
    (hx : alreadySeen tracker x = true) (y : BlockInfo) : ¬ Reach api tracker x y := by
  intro h
  have := reach_unseen h
  rw [hx] at this
  cases this

theorem splitMerge_reach (y : BlockInfo) :
    (Reach Fixture.splitMerge Fixture.diamondTracker Fixture.A y ↔ (y = Fixture.A ∨ y = Fixture.C0))
    ∧ (Reach Fixture.splitMerge Fixture.diamondTracker Fixture.B y
        ↔ (y = Fixture.B ∨ y = Fixture.C1))
    ∧ (Reach Fixture.splitMerge Fixture.diamondTracker Fixture.M y
        ↔ (y = Fixture.M ∨ (y = Fixture.A ∨ y = Fixture.C0) ∨ (y = Fixture.B ∨ y = Fixture.C1))) := by
  have hP : ¬ Reach Fixture.splitMerge Fixture.diamondTracker Fixture.P y :=
    reach_of_seen (by decide) y
  have hC0 : Reach Fixture.splitMerge Fixture.diamondTracker Fixture.C0 y ↔ y = Fixture.C0 := by
    rw [reach_iff_of_served (by decide) ⟨⟨Except.ok [Fixture.P]⟩⟩ [Fixture.P] rfl rfl y]
    simp [hP]
  have hC1 : Reach Fixture.splitMerge Fixture.diamondTracker Fixture.C1 y ↔ y = Fixture.C1 := by
    rw [reach_iff_of_served (by decide) ⟨⟨Except.ok [Fixture.P]⟩⟩ [Fixture.P] rfl rfl y]
    simp [hP]
  have hA : Reach Fixture.splitMerge Fixture.diamondTracker Fixture.A y
      ↔ (y = Fixture.A ∨ y = Fixture.C0) := by
    rw [reach_iff_of_served (by decide) ⟨⟨Except.ok [Fixture.C0]⟩⟩ [Fixture.C0] rfl rfl y]
    simp [hC0]
  have hB : Reach Fixture.splitMerge Fixture.diamondTracker Fixture.B y
      ↔ (y = Fixture.B ∨ y = Fixture.C1) := by
    rw [reach_iff_of_served (by decide) ⟨⟨Except.ok [Fixture.C1]⟩⟩ [Fixture.C1] rfl rfl y]
    simp [hC1]
  refine ⟨hA, hB, ?_⟩
  rw [reach_iff_of_served (by decide) ⟨⟨Except.ok [Fixture.A, Fixture.B]⟩⟩
    [Fixture.A, Fixture.B] rfl rfl y]
  simp [hA, hB]

theorem splitMerge_served (y : BlockInfo)
    (h : Reach Fixture.splitMerge Fixture.diamondTracker Fixture.M y) :
    Served Fixture.splitMerge y := by
  rcases (splitMerge_reach y).2.2.1 h with rfl | (rfl | rfl) | (rfl | rfl)
  · exact ⟨[Fixture.A, Fixture.B], fun _ => ⟨_, rfl, rfl⟩, by decide⟩
  · exact ⟨[Fixture.C0], fun _ => ⟨_, rfl, rfl⟩, by decide⟩
  · exact ⟨[Fixture.P], fun _ => ⟨_, rfl, rfl⟩, by decide⟩
  · exact ⟨[Fixture.C1], fun _ => ⟨_, rfl, rfl⟩, by decide⟩
  · exact ⟨[Fixture.P], fun _ => ⟨_, rfl, rfl⟩, by decide⟩

theorem splitMerge_reachedOnce :
    ReachedOnce Fixture.splitMerge Fixture.diamondTracker Fixture.M := by
  intro z hz blk ps hblk hps
  have hps' : Fixture.splitMergeParents z = Except.ok ps := by
    cases hblk
    exact hps
  rcases (splitMerge_reach z).2.2.1 hz with rfl | (rfl | rfl) | (rfl | rfl)
  · cases hps'
    rw [List.pairwise_cons]
    refine ⟨?_, by simp⟩
    intro q hq y hy
    simp only [List.mem_singleton] at hq
    subst hq
    intro hy'
    have h1 := (splitMerge_reach y).1.1 hy
    have h2 := (splitMerge_reach y).2.1.1 hy'
    rcases h1 with rfl | rfl <;> revert h2 <;> decide
  all_goals
    cases hps'
    exact List.pairwise_singleton _ _

/-! ## Claims about `getNotSeenShards` -/

/-- C1: a block whose map entry equals its sequence number yields the empty list and no error,
and the call history is returned untouched: no request is sent, whatever the client would
answer. -/
theorem getNotSeenShards_seen (api : APIClient) (fuel : Nat) (calls : List Call)
    (b : BlockInfo) (tracker : Tracker) (h : tracker (getShardID b) = some b.SeqNo) :
    getNotSeenShards api (fuel + 1) calls b tracker = some ⟨[], none, calls⟩ := by
  simp [getNotSeenShards, alreadySeen_of_entry tracker b h]

theorem getNotSeenShards_seen_witness :
    (Tracker.empty.set "0|5" 7) (getShardID (Fixture.blk 0 5 7 1)) = some (Fixture.blk 0 5 7 1).SeqNo
      ∧ getNotSeenShards Fixture.deadClient (0 + 1) [] (Fixture.blk 0 5 7 1)
          (Tracker.empty.set "0|5" 7) = some ⟨[], none, []⟩ :=
  ⟨by decide, getNotSeenShards_seen Fixture.deadClient 0 [] (Fixture.blk 0 5 7 1)
    (Tracker.empty.set "0|5" 7) (by decide)⟩

/-- C2: with a deterministic provider, a successful call returns its blocks parents first:
whenever a block `x` stands at index `i` of the result and one of the parents the provider
reports for `x` occurs in the result, that parent also occurs at an index below `i`. -/
theorem getNotSeenShards_parents_first (api : APIClient)
    (hdet : ∀ h x, api.GetBlockData h x = api.GetBlockData [] x) (tracker : Tracker)
    (fuel : Nat) (calls : List Call) (b : BlockInfo) (r : Returned)
    (hrun : getNotSeenShards api fuel calls b tracker = some r) (hok : r.err = none)
    (i : Nat) (x p : BlockInfo) (blk : Block) (ps : List BlockInfo)
    (hx : r.ret[i]? = some x)
    (hblk : api.GetBlockData [] x = Except.ok blk)
    (hps : blk.BlockInfo.GetParentBlocks = Except.ok ps) (hp : p ∈ ps) (hmem : p ∈ r.ret) :
    ∃ j, j < i ∧ r.ret[j]? = some p := by
  obtain ⟨hg, _⟩ := getNotSeenShards_parentsFirst api hdet tracker fuel calls b r hrun hok
  obtain ⟨k, hk, hkp⟩ := List.getElem_of_mem hmem
  have hup : alreadySeen tracker p = false :=
    (hg k p (by rw [List.getElem?_eq_getElem hk, hkp])).1
  exact (hg i x hx).2 blk ps p hblk hps hp hup

theorem getNotSeenShards_parents_first_witness :
    getNotSeenShards Fixture.diamond 4 [] Fixture.M Fixture.diamondTracker
        = some ⟨[Fixture.Q, Fixture.A, Fixture.Q, Fixture.B, Fixture.M], none,
            [Call.GetBlockData Fixture.M, Call.GetBlockData Fixture.A,
              Call.GetBlockData Fixture.Q, Call.GetBlockData Fixture.B,
              Call.GetBlockData Fixture.Q]⟩
      ∧ [Fixture.Q, Fixture.A, Fixture.Q, Fixture.B, Fixture.M][3]? = some Fixture.B
      ∧ Fixture.Q ∈ [Fixture.Q, Fixture.A, Fixture.Q, Fixture.B, Fixture.M]
      ∧ ∃ j, j < 3 ∧ [Fixture.Q, Fixture.A, Fixture.Q, Fixture.B, Fixture.M][j]? = some Fixture.Q :=
  ⟨by decide, by decide, by decide,
    getNotSeenShards_parents_first Fixture.diamond (fun _ _ => rfl) Fixture.diamondTracker 4 []
      Fixture.M
      ⟨[Fixture.Q, Fixture.A, Fixture.Q, Fixture.B, Fixture.M], none,
        [Call.GetBlockData Fixture.M, Call.GetBlockData Fixture.A,
          Call.GetBlockData Fixture.Q, Call.GetBlockData Fixture.B,
          Call.GetBlockData Fixture.Q]⟩
      (by decide) rfl 3 Fixture.B Fixture.Q ⟨⟨Except.ok [Fixture.Q]⟩⟩ [Fixture.Q]
      (by decide) rfl rfl (by decide) (by decide)⟩

/-- C3: on a lane whose blocks above the tracked sequence number `s` each have exactly one
parent, the lane block with the sequence number one less, a call on the lane block `n ≥ s`
succeeds with any fuel above `n - s` and returns exactly the lane blocks `s + 1, ..., n` in
ascending order, each once (nothing when `n = s`), fetching them from `n` downwards. -/
theorem getNotSeenShards_linear_chain (api : APIClient) (tracker : Tracker) (K : String)
    (lane : Nat → BlockInfo) (s n : Nat)
    (hkey : ∀ i, getShardID (lane i) = K) (hseq : ∀ i, (lane i).SeqNo = i)
    (hpar : ∀ h i, s < i → i ≤ n → ∃ blk, api.GetBlockData h (lane i) = Except.ok blk ∧
      blk.BlockInfo.GetParentBlocks = Except.ok [lane (i - 1)])
    (htr : tracker K = some s) (hsn : s ≤ n)
    (fuel : Nat) (hfuel : n - s + 1 ≤ fuel) (calls : List Call) :
    getNotSeenShards api fuel calls (lane n) tracker
        = some ⟨(List.range' (s + 1) (n - s)).map lane, none,
            calls ++ (List.range' (s + 1) (n - s)).reverse.map
              (fun i => Call.GetBlockData (lane i))⟩
      ∧ ((List.range' (s + 1) (n - s)).map lane).map BlockInfo.SeqNo
          = List.range' (s + 1) (n - s)
      ∧ ((List.range' (s + 1) (n - s)).map lane).Nodup := by
  have hmap : ((List.range' (s + 1) (n - s)).map lane).map BlockInfo.SeqNo
      = List.range' (s + 1) (n - s) := by
    rw [List.map_map]
    conv_rhs => rw [← List.map_id (List.range' (s + 1) (n - s))]
    apply List.map_congr_left
    intro i _
    simp [hseq]
  refine ⟨getNotSeenShards_lane api tracker K lane s n hkey hseq hpar htr hsn fuel hfuel calls,
    hmap, ?_⟩
  apply List.Nodup.of_map BlockInfo.SeqNo
  rw [hmap]
  exact List.nodup_range' _ _

theorem getNotSeenShards_linear_chain_witness :
    Fixture.diamondTracker "0|1" = some 5 ∧ 5 ≤ 8 ∧ 8 - 5 + 1 ≤ 4
      ∧ getNotSeenShards Fixture.lanes 4 [] (Fixture.blk 0 1 8 0) Fixture.diamondTracker
          = some ⟨[Fixture.blk 0 1 6 0, Fixture.blk 0 1 7 0, Fixture.blk 0 1 8 0], none,
              [Call.GetBlockData (Fixture.blk 0 1 8 0), Call.GetBlockData (Fixture.blk 0 1 7 0),
                Call.GetBlockData (Fixture.blk 0 1 6 0)]⟩ :=
  ⟨by decide, by decide, by decide,
    (getNotSeenShards_linear_chain Fixture.lanes Fixture.diamondTracker "0|1"
      (fun i => Fixture.blk 0 1 i 0) 5 8 (fun _ => rfl) (fun _ => rfl)
      (fun _ i hi _ => ⟨_, rfl, by
        have h0 : i ≠ 0 := by omega
        simp [Fixture.laneParents, Fixture.blk, h0]⟩)
      (by decide) (by decide) 4 (by decide) []).1⟩

/-- C6 (amended): merge.  `M` is a not-yet-seen block with the two parents `A` and `B`; every
block reached by the descent from `M` is served by the provider, the same way at every time,
with parents of smaller sequence number (as when every parent has the sequence number one
less).  Then with a fuel above the sequence number of `M` the call on `M` returns, without
error: first the result of the call on `A`, which holds exactly the not-yet-seen blocks reached
from `A`, then the result of the call on `B`, which holds exactly those reached from `B`, then
`M`.  No block occurs twice in that list if and only if no block is reached from `M` along two
different parent paths. -/
theorem getNotSeenShards_merge (api : APIClient) (tracker : Tracker) (M A B : BlockInfo)
    (hMu : alreadySeen tracker M = false)
    (hserved : ∀ y, Reach api tracker M y → Served api y)
    (hM : ∃ blk, api.GetBlockData [] M = Except.ok blk ∧
      blk.BlockInfo.GetParentBlocks = Except.ok [A, B])
    (fuel : Nat) (hfuel : M.SeqNo ≤ fuel) (calls : List Call) :
    ∃ rA rB : Returned,
      getNotSeenShards api fuel (calls ++ [Call.GetBlockData M]) A tracker = some rA ∧
      rA.err = none ∧
      getNotSeenShards api fuel rA.calls B tracker = some rB ∧ rB.err = none ∧
      getNotSeenShards api (fuel + 1) calls M tracker
        = some ⟨rA.ret ++ rB.ret ++ [M], none, rB.calls⟩ ∧
      (∀ y, y ∈ rA.ret ↔ Reach api tracker A y) ∧
      (∀ y, y ∈ rB.ret ↔ Reach api tracker B y) ∧
      ((rA.ret ++ rB.ret ++ [M]).Nodup ↔ ReachedOnce api tracker M) := by
  obtain ⟨blk0, hblk0, hps0⟩ := hM
  obtain ⟨hall, hdec⟩ := served_parents (hserved M (Reach.self M hMu)) [] blk0 [A, B] hblk0 hps0
  obtain ⟨blk, hblk, hps⟩ := hall calls
  have hupA : ∀ z, Reach api tracker A z → Reach api tracker M z :=
    fun z hz => Reach.up M blk0 [A, B] A z hMu hblk0 hps0 (by simp) hz
  have hupB : ∀ z, Reach api tracker B z → Reach api tracker M z :=
    fun z hz => Reach.up M blk0 [A, B] B z hMu hblk0 hps0 (by simp) hz
  have hA := hdec A (by simp)
  have hB := hdec B (by simp)
  obtain ⟨rA, hrA, heA, hmA, _, _⟩ := getNotSeenShards_reach api tracker fuel A
    (calls ++ [Call.GetBlockData M]) (by omega) (fun z hz => hserved z (hupA z hz))
  obtain ⟨rB, hrB, heB, hmB, _, _⟩ := getNotSeenShards_reach api tracker fuel B rA.calls
    (by omega) (fun z hz => hserved z (hupB z hz))
  obtain ⟨r, hr, _, _, hnd, _⟩ := getNotSeenShards_reach api tracker (fuel + 1) M calls
    (by omega) hserved
  have hrun : getNotSeenShards api (fuel + 1) calls M tracker
      = some ⟨rA.ret ++ rB.ret ++ [M], none, rB.calls⟩ := by
    rw [getNotSeenShards]
    simp only [hMu, hblk, hps, Bool.false_eq_true, if_false, parentsLoop, hrA, heA, hrB, heB,
      List.nil_append]
  refine ⟨rA, rB, hrA, heA, hrB, heB, hrun, hmA, hmB, ?_⟩
  rw [hrun] at hr
  cases hr
  exact hnd

theorem getNotSeenShards_merge_witness :
    alreadySeen Fixture.diamondTracker Fixture.M = false
      ∧ ReachedOnce Fixture.splitMerge Fixture.diamondTracker Fixture.M
      ∧ getNotSeenShards Fixture.splitMerge (8 + 1) [] Fixture.M Fixture.diamondTracker
          = some ⟨[Fixture.C0, Fixture.A, Fixture.C1, Fixture.B, Fixture.M], none,
              [Call.GetBlockData Fixture.M, Call.GetBlockData Fixture.A,
                Call.GetBlockData Fixture.C0, Call.GetBlockData Fixture.B,
                Call.GetBlockData Fixture.C1]⟩
      ∧ [Fixture.C0, Fixture.A, Fixture.C1, Fixture.B, Fixture.M].Nodup := by
  obtain ⟨rA, rB, hrA, _, hrB, _, hrun, _, _, hnd⟩ :=
    getNotSeenShards_merge Fixture.splitMerge Fixture.diamondTracker Fixture.M Fixture.A
      Fixture.B (by decide) splitMerge_served ⟨_, rfl, rfl⟩ 8 (by decide) []
  have hA : getNotSeenShards Fixture.splitMerge 8 ([] ++ [Call.GetBlockData Fixture.M]) Fixture.A
      Fixture.diamondTracker = some ⟨[Fixture.C0, Fixture.A], none,
        [Call.GetBlockData Fixture.M, Call.GetBlockData Fixture.A,
          Call.GetBlockData Fixture.C0]⟩ := by decide
  rw [hA] at hrA
  cases hrA
  have hB : getNotSeenShards Fixture.splitMerge 8
      [Call.GetBlockData Fixture.M, Call.GetBlockData Fixture.A, Call.GetBlockData Fixture.C0]
      Fixture.B Fixture.diamondTracker = some ⟨[Fixture.C1, Fixture.B], none,
        [Call.GetBlockData Fixture.M, Call.GetBlockData Fixture.A,
          Call.GetBlockData Fixture.C0, Call.GetBlockData Fixture.B,
          Call.GetBlockData Fixture.C1]⟩ := by decide
  rw [hB] at hrB
  cases hrB
  exact ⟨by decide, splitMerge_reachedOnce, hrun, hnd.2 splitMerge_reachedOnce⟩

/-- C6 (counterexample): in the diamond `P ← Q ← A, B ← M` every parent has the sequence number
one less than its child and `M` has two parents on two different lanes, yet with `P` as the
tracked head the call on `M` returns `Q` twice, once through each parent; the same happens when
the merged block lies on a key the map has never held. -/
theorem getNotSeenShards_merge_duplicates :
    (getNotSeenShards Fixture.diamond 4 [] Fixture.M Fixture.diamondTracker).map
        (fun r => (r.ret, r.err))
        = some ([Fixture.Q, Fixture.A, Fixture.Q, Fixture.B, Fixture.M], none)
      ∧ ¬ [Fixture.Q, Fixture.A, Fixture.Q, Fixture.B, Fixture.M].Nodup
      ∧ Fixture.diamondTracker (getShardID Fixture.M') = none
      ∧ (getNotSeenShards Fixture.diamond 4 [] Fixture.M' Fixture.diamondTracker).map
          (fun r => (r.ret, r.err))
          = some ([Fixture.Q, Fixture.A, Fixture.Q, Fixture.B, Fixture.M'], none)
      ∧ ¬ [Fixture.Q, Fixture.A, Fixture.Q, Fixture.B, Fixture.M'].Nodup := by
  refine ⟨by decide, by decide, by decide, by decide, by decide⟩

/-- C7: a failing block-data fetch or parent lookup makes `getNotSeenShards` return the empty
list with an error.  For the block `b` itself (when it is not already seen) the call returns,
whatever the fuel, the provider's error wrapped once.  For any block fetched during the descent
of a finished call, a failure of its fetch or parent lookup ends the whole call with the empty
list and the error built in the failing frame: enclosing frames hand it on unchanged and send no
further request.  An error never comes with a non-empty list, and the first request of a call on
an unseen block is the fetch of that block.  The enclosing call does return: when the recursive
call on a parent `p` of `b` returns the error `e`, the parents before `p` having been walked
without error, the call on `b` returns the empty list, the error `e` and the call history of
the failed recursive call; and when the descent from `b` meets a failing frame at any depth
(`Raises`), the call on `b` returns the empty list, that frame's error and the call history up
to the failed request. -/
theorem getNotSeenShards_failure (api : APIClient) (tracker : Tracker) (calls : List Call)
    (b : BlockInfo) :
    (alreadySeen tracker b = false →
      (∀ pe fuel, api.GetBlockData calls b = Except.error pe →
        getNotSeenShards api (fuel + 1) calls b tracker
          = some ⟨[], some (Error.wrapped "get block data: " pe),
              calls ++ [Call.GetBlockData b]⟩) ∧
      (∀ blk pe fuel, api.GetBlockData calls b = Except.ok blk →
        blk.BlockInfo.GetParentBlocks = Except.error pe →
        getNotSeenShards api (fuel + 1) calls b tracker
          = some ⟨[], some (Error.wrapped (parentBlocksErrText b) pe),
              calls ++ [Call.GetBlockData b]⟩)) ∧
    (∀ fuel r, getNotSeenShards api fuel calls b tracker = some r →
      (r.err ≠ none → r.ret = []) ∧
      (alreadySeen tracker b = false → ∃ post, r.calls = calls ++ Call.GetBlockData b :: post) ∧
      (∀ mid post x, r.calls = calls ++ mid ++ Call.GetBlockData x :: post →
        (∀ pe, api.GetBlockData (calls ++ mid) x = Except.error pe →
          r = ⟨[], some (Error.wrapped "get block data: " pe),
            calls ++ mid ++ [Call.GetBlockData x]⟩) ∧
        (∀ blk pe, api.GetBlockData (calls ++ mid) x = Except.ok blk →
          blk.BlockInfo.GetParentBlocks = Except.error pe →
          r = ⟨[], some (Error.wrapped (parentBlocksErrText x) pe),
            calls ++ mid ++ [Call.GetBlockData x]⟩))) ∧
    (∀ (fuel : Nat) (blk : Block) (pre : List BlockInfo) (p : BlockInfo) (post : List BlockInfo)
        (rs : List Returned) (q : Returned) (e : Error),
      alreadySeen tracker b = false → api.GetBlockData calls b = Except.ok blk →
      blk.BlockInfo.GetParentBlocks = Except.ok (pre ++ p :: post) →
      rs.length = pre.length →
      (∀ (i : Nat) (p' : BlockInfo) (q' : Returned), pre[i]? = some p' → rs[i]? = some q' →
        q'.err = none ∧
        getNotSeenShards api fuel (callsBefore (calls ++ [Call.GetBlockData b]) rs i) p' tracker
          = some q') →
      getNotSeenShards api fuel (callsBefore (calls ++ [Call.GetBlockData b]) rs rs.length) p
        tracker = some q →
      q.err = some e →
      getNotSeenShards api (fuel + 1) calls b tracker = some ⟨[], some e, q.calls⟩) ∧
    (∀ (fuel : Nat) (e : Error) (after : List Call),
      Raises api tracker fuel calls b e after →
      getNotSeenShards api fuel calls b tracker = some ⟨[], some e, after⟩) := by
  refine ⟨fun hb => ⟨?_, ?_⟩, ?_, ?_, ?_⟩
  · intro pe fuel hpe
    simp [getNotSeenShards, hb, hpe]
  · intro blk pe fuel hblk hpe
    simp [getNotSeenShards, hb, hblk, hpe]
  · intro fuel r hrun
    obtain ⟨_, hnil, hfail⟩ := getNotSeenShards_trace api tracker fuel calls b r hrun
    refine ⟨hnil, getNotSeenShards_first_call api tracker fuel calls b r hrun, ?_⟩
    intro mid post x hc
    constructor
    · intro pe hpe
      exact hfail mid post x _ hc (by simp [frameError, hpe])
    · intro blk pe hblk hpe
      exact hfail mid post x _ hc (by simp [frameError, hblk, hpe])
  · intro fuel blk pre p post rs q e hb hblk hps hlen hsib hq he
    exact getNotSeenShards_fail_below api tracker fuel calls b blk pre p post rs q e hb hblk hps
      hlen hsib hq he
  · intro fuel e after h
    exact getNotSeenShards_raises api tracker fuel calls b e after h

theorem getNotSeenShards_failure_witness :
    getNotSeenShards Fixture.broken 4 [] Fixture.M Tracker.empty = some Fixture.deepFailure
      ∧ Fixture.deepFailure.ret = []
      ∧ Fixture.deepFailure.err
          = some (Error.wrapped (parentBlocksErrText Fixture.P) Fixture.unavailable)
      ∧ getNotSeenShards Fixture.broken 3 [Call.GetBlockData Fixture.M] Fixture.A
          Fixture.trackedA = some ⟨[], none, [Call.GetBlockData Fixture.M]⟩
      ∧ getNotSeenShards Fixture.broken 3 [Call.GetBlockData Fixture.M] Fixture.B
          Fixture.trackedA = some Fixture.deepFailureB
      ∧ getNotSeenShards Fixture.broken (3 + 1) [] Fixture.M Fixture.trackedA
          = some ⟨[], some (Error.wrapped (parentBlocksErrText Fixture.P) Fixture.unavailable),
              Fixture.deepFailureB.calls⟩
      ∧ getNotSeenShards Fixture.broken 4 [] Fixture.M Fixture.trackedA
          = some ⟨[], some (Error.wrapped (parentBlocksErrText Fixture.P) Fixture.unavailable),
              [Call.GetBlockData Fixture.M, Call.GetBlockData Fixture.B,
                Call.GetBlockData Fixture.Q] ++ [Call.GetBlockData Fixture.P]⟩ :=
  ⟨by decide,
    ((getNotSeenShards_failure Fixture.broken Tracker.empty [] Fixture.M).2.1 4
      Fixture.deepFailure (by decide)).1 (by decide),
    congrArg Returned.err
      ((((getNotSeenShards_failure Fixture.broken Tracker.empty [] Fixture.M).2.1 4
        Fixture.deepFailure (by decide)).2.2
          [Call.GetBlockData Fixture.M, Call.GetBlockData Fixture.A, Call.GetBlockData Fixture.Q]
          [] Fixture.P rfl).2 ⟨⟨Except.error Fixture.unavailable⟩⟩ Fixture.unavailable rfl rfl),
    by decide, by decide,
    (getNotSeenShards_failure Fixture.broken Fixture.trackedA [] Fixture.M).2.2.1 3
      ⟨⟨Except.ok [Fixture.A, Fixture.B]⟩⟩ [Fixture.A] Fixture.B []
      [⟨[], none, [Call.GetBlockData Fixture.M]⟩] Fixture.deepFailureB
      (Error.wrapped (parentBlocksErrText Fixture.P) Fixture.unavailable)
      (by decide) rfl rfl rfl
      (fun i p' q' hp hq => by
        match i with
        | 0 =>
          simp only [List.getElem?_cons_zero, Option.some.injEq] at hp hq
          subst hp
          subst hq
          exact ⟨rfl, by decide⟩
        | i + 1 => simp at hp)
      (by decide) rfl,
    (getNotSeenShards_failure Fixture.broken Fixture.trackedA [] Fixture.M).2.2.2 4
      (Error.wrapped (parentBlocksErrText Fixture.P) Fixture.unavailable) _
      (Raises.parent 3 [] Fixture.M ⟨⟨Except.ok [Fixture.A, Fixture.B]⟩⟩ [Fixture.A] Fixture.B []
        [⟨[], none, [Call.GetBlockData Fixture.M]⟩] _ _ (by decide) rfl rfl rfl
        (fun i p' q' hp hq => by
          match i with
          | 0 =>
            simp only [List.getElem?_cons_zero, Option.some.injEq] at hp hq
            subst hp
            subst hq
            exact ⟨rfl, by decide⟩
          | i + 1 => simp at hp)
        (Raises.parent 2 [Call.GetBlockData Fixture.M] Fixture.B ⟨⟨Except.ok [Fixture.Q]⟩⟩ []
          Fixture.Q [] [] _ _ (by decide) rfl rfl rfl (fun i p' q' hp _ => by simp at hp)
          (Raises.parent 1 [Call.GetBlockData Fixture.M, Call.GetBlockData Fixture.B] Fixture.Q
            ⟨⟨Except.ok [Fixture.P]⟩⟩ [] Fixture.P [] [] _ _ (by decide) rfl rfl rfl
            (fun i p' q' hp _ => by simp at hp)
            (Raises.frame 0
              [Call.GetBlockData Fixture.M, Call.GetBlockData Fixture.B,
                Call.GetBlockData Fixture.Q]
              Fixture.P _ (by decide) rfl))))⟩

/-! ## Properties of the master loop -/

theorem seedLoop_append (l₁ l₂ : List BlockInfo) (m : Tracker) :
    seedLoop (l₁ ++ l₂) m = seedLoop l₂ (seedLoop l₁ m) := by
  induction l₁ generalizing m with
  | nil => rfl
  | cons x rest ih => simp [seedLoop, ih]

/-- The map with which the per-shard-head loop is left is the initial map updated with the
heads processed so far: all of them when the loop ends normally, those before the failing head
when a gap-fill fails. -/
theorem shardsLoop_tracker (api : APIClient) (fuel : Nat) :
    ∀ (heads newShards : List BlockInfo) (tracker : Tracker) (calls : List Call) (s : ShardsScan),
      shardsLoop api fuel heads newShards tracker calls = some s →
      ∃ k, k ≤ heads.length ∧ s.shardLastSeqno = seedLoop (heads.take k) tracker ∧
        (s.exit = none → k = heads.length) ∧
        (∀ e, s.exit = some e → k < heads.length ∧
          ∃ err, e = Exit.fatal "get not seen shards err:" err) := by
  intro heads
  induction heads with
  | nil =>
    intro newShards tracker calls s h
    simp only [shardsLoop, Option.some.injEq] at h
    subst h
    exact ⟨0, by simp, rfl, by simp, by simp⟩
  | cons x rest ih =>
    intro newShards tracker calls s h
    unfold shardsLoop at h
    cases hg : getNotSeenShards api fuel calls x tracker with
    | none => simp [hg] at h
    | some r =>
      rw [hg] at h
      dsimp only at h
      cases he : r.err with
      | some err =>
        rw [he] at h
        simp only [Option.some.injEq] at h
        subst h
        exact ⟨0, by simp, rfl, by simp, by simp⟩
      | none =>
        rw [he] at h
        dsimp only at h
        obtain ⟨k, hk, htr, hnone, hsome⟩ := ih _ _ _ _ h
        refine ⟨k + 1, by simp; omega, by simpa [seedLoop] using htr, ?_, ?_⟩
        · intro hx
          simp [hnone hx]
        · intro e hx
          obtain ⟨h1, h2⟩ := hsome e hx
          exact ⟨by simp; omega, h2⟩

theorem shardsLoop_failing_head (api : APIClient) (fuel : Nat) :
    ∀ (heads newShards : List BlockInfo) (tracker : Tracker) (calls : List Call) (s : ShardsScan),
      shardsLoop api fuel heads newShards tracker calls = some s →
      ∃ k, k ≤ heads.length ∧ s.shardLastSeqno = seedLoop (heads.take k) tracker ∧
        (s.exit = none → k = heads.length) ∧
        (∀ e, s.exit = some e → ∃ x c r err, heads[k]? = some x ∧
          getNotSeenShards api fuel c x (seedLoop (heads.take k) tracker) = some r ∧
          r.err = some err ∧ e = Exit.fatal "get not seen shards err:" err) := by
  intro heads
  induction heads with
  | nil =>
    intro newShards tracker calls s h
    simp only [shardsLoop, Option.some.injEq] at h
    subst h
    exact ⟨0, by simp, rfl, by simp, by simp⟩
  | cons x rest ih =>
    intro newShards tracker calls s h
    unfold shardsLoop at h
    cases hg : getNotSeenShards api fuel calls x tracker with
    | none => simp [hg] at h
    | some r =>
      rw [hg] at h
      dsimp only at h
      cases he : r.err with
      | some err =>
        rw [he] at h
        simp only [Option.some.injEq] at h
        subst h
        refine ⟨0, by simp, rfl, by simp, ?_⟩
        intro e hx
        simp only [Option.some.injEq] at hx
        exact ⟨x, calls, r, err, by simp, by simpa [seedLoop] using hg, he, hx.symm⟩
      | none =>
        rw [he] at h
        dsimp only at h
        obtain ⟨k, hk, htr, hnone, hsome⟩ := ih _ _ _ _ h
        refine ⟨k + 1, by simp; omega, by simpa [seedLoop] using htr, ?_, ?_⟩
        · intro hx
          simp [hnone hx]
        · intro e hx
          obtain ⟨y, c, r', err, h1, h2, h3, h4⟩ := hsome e hx
          exact ⟨y, c, r', err, by simpa using h1, by simpa [seedLoop] using h2, h3, h4⟩

theorem resolveLoop_exit (api : APIClient) (shard : BlockInfo) :
    ∀ (ids : List TransactionID) (txList : List Transaction) (calls : List Call) (e : Exit),
      (resolveLoop api shard ids txList calls).exit = some e → TxExit e := by
  intro ids
  induction ids with
  | nil => intro txList calls e h; simp [resolveLoop] at h
  | cons id rest ih =>
    intro txList calls e h
    unfold resolveLoop at h
    cases hg : api.GetTransaction calls shard (Address.mk 0 0 id.AccountID) id.LT with
    | error err =>
      rw [hg] at h
      simp only [Option.some.injEq] at h
      exact Or.inr ⟨err, Or.inr h.symm⟩
    | ok tx =>
      rw [hg] at h
      exact ih _ _ _ h

theorem pageLoop_exit (api : APIClient) (shard : BlockInfo) :
    ∀ (fuel : Nat) (after : Option TransactionID) (txList : List Transaction)
      (calls : List Call) (t : TxScan) (e : Exit),
      pageLoop api shard fuel after txList calls = some t → t.exit = some e → TxExit e := by
  intro fuel
  induction fuel with
  | zero => intro after txList calls t e h; simp [pageLoop] at h
  | succ n ih =>
    intro after txList calls t e h he
    unfold pageLoop at h
    cases hg : api.GetBlockTransactions calls shard 100 after with
    | error err =>
      rw [hg] at h
      simp only [Option.some.injEq] at h
      subst h
      simp only [Option.some.injEq] at he
      exact Or.inr ⟨err, Or.inl he.symm⟩
    | ok page =>
      obtain ⟨fetchedIDs, more⟩ := page
      rw [hg] at h
      dsimp only at h
      cases more with
      | false =>
        simp only [Bool.false_eq_true, if_false, Option.some.injEq] at h
        subst h
        exact resolveLoop_exit api shard _ _ _ e he
      | true =>
        simp only [if_true] at h
        cases hl : fetchedIDs.getLast? with
        | none =>
          rw [hl] at h
          simp only [Option.some.injEq] at h
          subst h
          simp only [Option.some.injEq] at he
          exact Or.inl he.symm
        | some last =>
          rw [hl] at h
          dsimp only at h
          cases hr : (resolveLoop api shard fetchedIDs txList
              (calls ++ [Call.GetBlockTransactions shard 100 after])).exit with
          | some e' =>
            rw [hr] at h
            simp only [Option.some.injEq] at h
            subst h
            exact resolveLoop_exit api shard _ _ _ e he
          | none =>
            rw [hr] at h
            exact ih _ _ _ _ e h he

theorem blocksLoop_exit (api : APIClient) (fuel : Nat) :
    ∀ (blocks : List BlockInfo) (txList : List Transaction) (calls : List Call) (t : TxScan)
      (e : Exit), blocksLoop api fuel blocks txList calls = some t → t.exit = some e →
      TxExit e := by
  intro blocks
  induction blocks with
  | nil =>
    intro txList calls t e h he
    simp only [blocksLoop, Option.some.injEq] at h
    subst h
    simp at he
  | cons x rest ih =>
    intro txList calls t e h he
    unfold blocksLoop at h
    cases hp : pageLoop api x fuel none txList calls with
    | none => simp [hp] at h
    | some r =>
      rw [hp] at h
      dsimp only at h
      cases hr : r.exit with
      | some e' =>
        rw [hr] at h
        simp only [Option.some.injEq] at h
        subst h
        exact pageLoop_exit api x fuel none txList calls _ e hp he
      | none =>
        rw [hr] at h
        exact ih _ _ _ e h he

theorem seedLoop_entry_origin : ∀ (l : List BlockInfo) (m : Tracker) (K : String) (v : Nat),
    seedLoop l m K = some v → m K = some v ∨ ∃ x ∈ l, getShardID x = K ∧ x.SeqNo = v := by
  intro l
  induction l with
  | nil => intro m K v h; exact Or.inl h
  | cons y rest ih =>
    intro m K v h
    rcases ih _ K v h with h1 | ⟨x, hx, hk, hv⟩
    · by_cases hK : K = getShardID y
      · simp only [Tracker.set, hK, if_true, Option.some.injEq] at h1
        exact Or.inr ⟨y, List.mem_cons_self _ _, hK.symm, h1⟩
      · simp only [Tracker.set, hK, if_false] at h1
        exact Or.inl h1
    · exact Or.inr ⟨x, List.mem_cons_of_mem _ hx, hk, hv⟩

theorem seedLoop_entry_grows : ∀ (l : List BlockInfo) (m : Tracker) (K : String) (v : Nat),
    m K = some v → (∀ y ∈ l, getShardID y = K → v ≤ y.SeqNo) → l.Pairwise HeadsAscend →
    ∃ n, seedLoop l m K = some n ∧ v ≤ n := by
  intro l
  induction l with
  | nil => intro m K v h _ _; exact ⟨v, h, le_refl v⟩
  | cons y rest ih =>
    intro m K v h hge hpw
    rw [List.pairwise_cons] at hpw
    by_cases hK : K = getShardID y
    · have hv : v ≤ y.SeqNo := hge y (List.mem_cons_self _ _) hK.symm
      obtain ⟨n, hn, hle⟩ := ih (m.set (getShardID y) y.SeqNo) K y.SeqNo
        (by simp [Tracker.set, hK])
        (fun z hz hzk => hpw.1 z hz (by rw [hzk, hK])) hpw.2
      exact ⟨n, hn, le_trans hv hle⟩
    · exact ih (m.set (getShardID y) y.SeqNo) K v (by simp [Tracker.set, hK, h])
        (fun z hz hzk => hge z (List.mem_cons_of_mem _ hz) hzk) hpw.2

theorem seedLoop_prefix_mono (all : List BlockInfo) (hpw : all.Pairwise HeadsAscend)
    (i j : Nat) (hij : i ≤ j) (K : String) (v : Nat)
    (h : seedLoop (all.take i) Tracker.empty K = some v) :
    ∃ n, seedLoop (all.take j) Tracker.empty K = some n ∧ v ≤ n := by
  have hsplit : all.take j = all.take i ++ (all.take j).drop i := by
    conv_lhs => rw [← List.take_append_drop i (all.take j)]
    rw [List.take_take, Nat.min_eq_left hij]
  have hpw' : (all.take i ++ (all.take j).drop i).Pairwise HeadsAscend := by
    rw [← hsplit]
    exact hpw.sublist (List.take_sublist _ _)
  rw [List.pairwise_append] at hpw'
  rw [hsplit, seedLoop_append]
  rcases seedLoop_entry_origin _ _ K v h with h0 | ⟨x, hx, hk, hv⟩
  · simp [Tracker.empty] at h0
  · apply seedLoop_entry_grows _ _ K v h _ hpw'.2.1
    intro y hy hyk
    rw [← hv]
    exact hpw'.2.2 x hx y hy (by rw [hk, hyk])

theorem masterStep_tracker (api : APIClient) (fuel masterShard : Nat) (st st' : State)
    (seqNo : Nat) (ex : Option Exit) (master : BlockInfo) (heads : List BlockInfo)
    (hlook : ∀ h, api.LookupBlock h (-1) (toInt64 masterShard) seqNo = Except.ok master)
    (hheads : ∀ h, api.GetBlockShardsInfo h master = Except.ok heads)
    (h : masterStep api fuel masterShard st seqNo = some (st', ex)) :
    ∃ k, k ≤ heads.length ∧ (ex = none → k = heads.length) ∧
      st'.shardLastSeqno = seedLoop (heads.take k) st.shardLastSeqno := by
  unfold masterStep at h
  rw [hlook] at h
  dsimp only at h
  rw [hheads] at h
  dsimp only at h
  cases hsl : shardsLoop api fuel heads [] st.shardLastSeqno
      (st.calls ++ [Call.LookupBlock (-1) (toInt64 masterShard) seqNo,
        Call.GetBlockShardsInfo master]) with
  | none => rw [hsl] at h; simp at h
  | some s =>
    rw [hsl] at h
    dsimp only at h
    obtain ⟨k, hk, htr, hnone, hsome⟩ := shardsLoop_tracker api fuel _ _ _ _ _ hsl
    cases hse : s.exit with
    | some e =>
      rw [hse] at h
      simp only [Option.some.injEq, Prod.mk.injEq] at h
      obtain ⟨h1, h2⟩ := h
      subst h1
      subst h2
      exact ⟨k, hk, by simp, htr⟩
    | none =>
      rw [hse] at h
      dsimp only at h
      have hk' := hnone hse
      cases hb : blocksLoop api fuel s.newShards [] s.calls with
      | none => rw [hb] at h; simp at h
      | some t =>
        rw [hb] at h
        dsimp only at h
        cases hte : t.exit with
        | some e =>
          rw [hte] at h
          simp only [Option.some.injEq, Prod.mk.injEq] at h
          obtain ⟨h1, h2⟩ := h
          subst h1
          exact ⟨k, hk, fun _ => hk', htr⟩
        | none =>
          rw [hte] at h
          simp only [Option.some.injEq, Prod.mk.injEq] at h
          obtain ⟨h1, h2⟩ := h
          subst h1
          exact ⟨k, hk, fun _ => hk', htr⟩

theorem masterLoop_tracker (api : APIClient) (fuel masterShard : Nat)
    (master : Nat → BlockInfo) (heads : Nat → List BlockInfo) :
    ∀ (seqs : List Nat) (st st' : State) (ex : Option Exit),
      (∀ h n, n ∈ seqs → api.LookupBlock h (-1) (toInt64 masterShard) n = Except.ok (master n)) →
      (∀ h n, n ∈ seqs → api.GetBlockShardsInfo h (master n) = Except.ok (heads n)) →
      masterLoop api fuel masterShard seqs st = some (st', ex) →
      ∃ k, k ≤ (seqs.map heads).flatten.length ∧ (ex = none → k = (seqs.map heads).flatten.length) ∧
        st'.shardLastSeqno = seedLoop ((seqs.map heads).flatten.take k) st.shardLastSeqno := by
  intro seqs
  induction seqs with
  | nil =>
    intro st st' ex _ _ h
    simp only [masterLoop, Option.some.injEq, Prod.mk.injEq] at h
    obtain ⟨h1, h2⟩ := h
    subst h1
    exact ⟨0, by simp, by simp, rfl⟩
  | cons n rest ih =>
    intro st st' ex hlook hheads h
    unfold masterLoop at h
    cases hstep : masterStep api fuel masterShard st n with
    | none => rw [hstep] at h; simp at h
    | some res =>
      obtain ⟨st1, ex1⟩ := res
      rw [hstep] at h
      obtain ⟨k, hk, hfull, htr⟩ := masterStep_tracker api fuel masterShard st st1 n ex1
        (master n) (heads n) (fun h' => hlook h' n (List.mem_cons_self _ _))
        (fun h' => hheads h' n (List.mem_cons_self _ _)) hstep
      cases ex1 with
      | some e =>
        simp only [Option.some.injEq, Prod.mk.injEq] at h
        obtain ⟨h1, h2⟩ := h
        subst h1
        subst h2
        rw [List.map_cons, List.flatten_cons]
        refine ⟨k, by rw [List.length_append]; omega, by simp, ?_⟩
        rw [htr, List.take_append_of_le_length hk]
      | none =>
        dsimp only at h
        have hk' := hfull rfl
        subst hk'
        obtain ⟨k2, hk2, hfull2, htr2⟩ := ih st1 st' ex
          (fun h' m hm => hlook h' m (List.mem_cons_of_mem _ hm))
          (fun h' m hm => hheads h' m (List.mem_cons_of_mem _ hm)) h
        rw [List.map_cons, List.flatten_cons]
        refine ⟨(heads n).length + k2, by rw [List.length_append]; omega, ?_, ?_⟩
        · intro hex
          rw [List.length_append, hfull2 hex]
        · rw [htr2, htr, List.take_length, List.take_append, seedLoop_append]

theorem steady_heads_ascend :
    (Fixture.steadyHeads 9 ++ ([10, 11].map Fixture.steadyHeads).flatten).Pairwise HeadsAscend := by
  decide

theorem Tracker.set_same (m : Tracker) (key : String) (v : Nat) (h : m key = some v) :
    m.set key v = m := by
  funext k
  by_cases hk : k = key
  · simp [Tracker.set, hk, h]
  · simp [Tracker.set, hk]

theorem seedLoop_keeps : ∀ (l : List BlockInfo) (m : Tracker) (K : String) (v : Nat),
    m K = some v → (∀ y ∈ l, getShardID y = K → y.SeqNo = v) → seedLoop l m K = some v := by
  intro l
  induction l with
  | nil => intro m K v h _; exact h
  | cons x rest ih =>
    intro m K v h hall
    apply ih
    · by_cases hk : K = getShardID x
      · have := hall x (List.mem_cons_self _ _) hk.symm
        simp [Tracker.set, hk, this]
      · simp [Tracker.set, hk, h]
    · exact fun y hy => hall y (List.mem_cons_of_mem _ hy)

theorem seedLoop_untouched : ∀ (l : List BlockInfo) (m : Tracker) (K : String),
    (∀ y ∈ l, getShardID y ≠ K) → seedLoop l m K = m K := by
  intro l
  induction l with
  | nil => intro m K _; rfl
  | cons x rest ih =>
    intro m K hall
    rw [seedLoop, ih _ K (fun y hy => hall y (List.mem_cons_of_mem _ hy))]
    have := hall x (List.mem_cons_self _ _)
    simp [Tracker.set, Ne.symm this]

theorem seedLoop_last (pre post : List BlockInfo) (x : BlockInfo) (m : Tracker)
    (hpost : ∀ y ∈ post, getShardID y ≠ getShardID x) :
    seedLoop (pre ++ x :: post) m (getShardID x) = some x.SeqNo := by
  rw [seedLoop_append, seedLoop, seedLoop_untouched post _ _ hpost]
  simp [Tracker.set]

theorem seedLoop_agree (l : List BlockInfo) (hl : l.Pairwise HeadsAgree) (m : Tracker)
    (x : BlockInfo) (hx : x ∈ l) : seedLoop l m (getShardID x) = some x.SeqNo := by
  obtain ⟨pre, post, rfl⟩ := List.append_of_mem hx
  rw [seedLoop_append, seedLoop]
  apply seedLoop_keeps
  · simp [Tracker.set]
  · intro y hy hk
    have hpw := (List.pairwise_append.mp hl).2.1
    rw [List.pairwise_cons] at hpw
    exact (hpw.1 y hy hk.symm).symm

theorem shardsLoop_all_seen (api : APIClient) (fuel : Nat) :
    ∀ (heads newShards : List BlockInfo) (m : Tracker) (calls : List Call),
      (∀ x ∈ heads, m (getShardID x) = some x.SeqNo) →
      shardsLoop api (fuel + 1) heads newShards m calls = some ⟨newShards, m, calls, none⟩ := by
  intro heads
  induction heads with
  | nil => intro newShards m calls _; rfl
  | cons x rest ih =>
    intro newShards m calls h
    have hx := h x (List.mem_cons_self _ _)
    unfold shardsLoop
    rw [getNotSeenShards_of_seen api fuel calls x m (alreadySeen_of_entry m x hx)]
    dsimp only
    rw [Tracker.set_same m _ _ hx, List.append_nil]
    exact ih newShards m calls (fun y hy => h y (List.mem_cons_of_mem _ hy))

theorem seedLoop_snoc (l : List BlockInfo) (x : BlockInfo) (m : Tracker) :
    seedLoop (l ++ [x]) m = (seedLoop l m).set (getShardID x) x.SeqNo := by
  rw [seedLoop_append]
  rfl

theorem shardsLoop_results (api : APIClient) (fuel : Nat) :
    ∀ (heads newShards : List BlockInfo) (m : Tracker) (calls : List Call) (s : ShardsScan),
      shardsLoop api fuel heads newShards m calls = some s → s.exit = none →
      ∃ rs : List Returned, rs.length = heads.length ∧
        s.newShards = newShards ++ (rs.map Returned.ret).flatten ∧
        s.shardLastSeqno = seedLoop heads m ∧
        ∀ (i : Nat) (r : Returned) (h : BlockInfo), rs[i]? = some r → heads[i]? = some h →
          r.err = none ∧
            ∃ c, getNotSeenShards api fuel c h (seedLoop (heads.take i) m) = some r := by
  intro heads
  induction heads with
  | nil =>
    intro newShards m calls s h _
    simp only [shardsLoop, Option.some.injEq] at h
    subst h
    exact ⟨[], rfl, by simp, rfl, by simp⟩
  | cons x rest ih =>
    intro newShards m calls s h hexit
    unfold shardsLoop at h
    cases hg : getNotSeenShards api fuel calls x m with
    | none => rw [hg] at h; simp at h
    | some r0 =>
      rw [hg] at h
      dsimp only at h
      cases he : r0.err with
      | some err =>
        rw [he] at h
        simp only [Option.some.injEq] at h
        subst h
        simp at hexit
      | none =>
        rw [he] at h
        dsimp only at h
        obtain ⟨rs, hlen, hnew, htr, hall⟩ := ih _ _ _ s h hexit
        refine ⟨r0 :: rs, by simp [hlen], by simp [hnew], htr, ?_⟩
        intro i r hd hr hh
        cases i with
        | zero =>
          simp only [List.getElem?_cons_zero, Option.some.injEq] at hr hh
          subst hr
          subst hh
          exact ⟨he, calls, hg⟩
        | succ j =>
          simp only [List.getElem?_cons_succ] at hr hh
          exact hall j r hd hr hh

/-! ### Blocks emitted by a scan -/

theorem masterStep_results (api : APIClient) (fuel masterShard : Nat) (st st' : State)
    (seqNo : Nat) (master : BlockInfo) (heads : List BlockInfo)
    (hlook : ∀ h, api.LookupBlock h (-1) (toInt64 masterShard) seqNo = Except.ok master)
    (hheads : ∀ h, api.GetBlockShardsInfo h master = Except.ok heads)
    (h : masterStep api fuel masterShard st seqNo = some (st', none)) :
    ∃ rs : List Returned, rs.length = heads.length ∧
      (st'.passes.map Iteration.newShards).flatten
        = (st.passes.map Iteration.newShards).flatten ++ (rs.map Returned.ret).flatten ∧
      st'.shardLastSeqno = seedLoop heads st.shardLastSeqno ∧
      ∀ (i : Nat) (r : Returned) (x : BlockInfo), rs[i]? = some r → heads[i]? = some x →
        r.err = none ∧
          ∃ c, getNotSeenShards api fuel c x (seedLoop (heads.take i) st.shardLastSeqno)
            = some r := by
  unfold masterStep at h
  rw [hlook] at h
  dsimp only at h
  rw [hheads] at h
  dsimp only at h
  cases hsl : shardsLoop api fuel heads [] st.shardLastSeqno
      (st.calls ++ [Call.LookupBlock (-1) (toInt64 masterShard) seqNo,
        Call.GetBlockShardsInfo master]) with
  | none => rw [hsl] at h; simp at h
  | some s =>
    rw [hsl] at h
    dsimp only at h
    cases hse : s.exit with
    | some e =>
      rw [hse] at h
      simp at h
    | none =>
      rw [hse] at h
      dsimp only at h
      obtain ⟨rs, hlen, hnew, htr, hall⟩ := shardsLoop_results api fuel _ _ _ _ _ hsl hse
      cases hb : blocksLoop api fuel s.newShards [] s.calls with
      | none => rw [hb] at h; simp at h
      | some t =>
        rw [hb] at h
        dsimp only at h
        cases hte : t.exit with
        | some e =>
          rw [hte] at h
          simp at h
        | none =>
          rw [hte] at h
          simp only [Option.some.injEq, Prod.mk.injEq, and_true] at h
          subst h
          refine ⟨rs, hlen, ?_, htr, hall⟩
          simp only [List.map_append, List.flatten_append, List.map_cons, List.map_nil,
            List.flatten_cons, List.flatten_nil, List.append_nil, hnew, List.nil_append]

theorem masterLoop_results (api : APIClient) (fuel masterShard : Nat)
    (master : Nat → BlockInfo) (heads : Nat → List BlockInfo) :
    ∀ (seqs : List Nat) (st st' : State),
      (∀ h n, n ∈ seqs → api.LookupBlock h (-1) (toInt64 masterShard) n = Except.ok (master n)) →
      (∀ h n, n ∈ seqs → api.GetBlockShardsInfo h (master n) = Except.ok (heads n)) →
      masterLoop api fuel masterShard seqs st = some (st', none) →
      ∃ rs : List Returned, rs.length = (seqs.map heads).flatten.length ∧
        (st'.passes.map Iteration.newShards).flatten
          = (st.passes.map Iteration.newShards).flatten ++ (rs.map Returned.ret).flatten ∧
        st'.shardLastSeqno = seedLoop (seqs.map heads).flatten st.shardLastSeqno ∧
        ∀ (k : Nat) (r : Returned) (x : BlockInfo), rs[k]? = some r →
          (seqs.map heads).flatten[k]? = some x →
          r.err = none ∧
            ∃ c, getNotSeenShards api fuel c x
              (seedLoop ((seqs.map heads).flatten.take k) st.shardLastSeqno) = some r := by
  intro seqs
  induction seqs with
  | nil =>
    intro st st' _ _ h
    simp only [masterLoop, Option.some.injEq, Prod.mk.injEq, and_true] at h
    subst h
    exact ⟨[], by simp, by simp, rfl, by simp⟩
  | cons n rest ih =>
    intro st st' hlook hheads h
    unfold masterLoop at h
    cases hstep : masterStep api fuel masterShard st n with
    | none => rw [hstep] at h; simp at h
    | some res =>
      obtain ⟨st1, ex1⟩ := res
      rw [hstep] at h
      cases ex1 with
      | some e => simp at h
      | none =>
        dsimp only at h
        obtain ⟨rs1, hlen1, hnew1, htr1, hall1⟩ := masterStep_results api fuel masterShard st st1
          n (master n) (heads n) (fun h' => hlook h' n (List.mem_cons_self _ _))
          (fun h' => hheads h' n (List.mem_cons_self _ _)) hstep
        obtain ⟨rs2, hlen2, hnew2, htr2, hall2⟩ := ih st1 st'
          (fun h' m hm => hlook h' m (List.mem_cons_of_mem _ hm))
          (fun h' m hm => hheads h' m (List.mem_cons_of_mem _ hm)) h
        rw [List.map_cons, List.flatten_cons]
        refine ⟨rs1 ++ rs2, by simp [hlen1, hlen2], ?_, ?_, ?_⟩
        · rw [hnew2, hnew1, List.map_append, List.flatten_append, List.append_assoc]
        · rw [htr2, htr1, seedLoop_append]
        · intro k r x hr hx
          by_cases hk : k < (heads n).length
          · rw [List.getElem?_append_left (by omega)] at hr
            rw [List.getElem?_append_left hk] at hx
            obtain ⟨he, c, hc⟩ := hall1 k r x hr hx
            refine ⟨he, c, ?_⟩
            rw [List.take_append_of_le_length (by omega)]
            exact hc
          · rw [List.getElem?_append_right (by omega)] at hr
            rw [List.getElem?_append_right (by omega)] at hx
            rw [hlen1] at hr
            obtain ⟨he, c, hc⟩ := hall2 _ r x hr hx
            refine ⟨he, c, ?_⟩
            rw [List.take_append_eq_append_take, List.take_of_length_le (by omega),
              seedLoop_append, ← htr1]
            exact hc

theorem shardsLoop_returns (api : APIClient) (fuel : Nat) (R : BlockInfo → Prop) :
    ∀ (heads newShards : List BlockInfo) (m : Tracker) (calls : List Call),
      (∀ (k : Nat) (x : BlockInfo) (c : List Call), heads[k]? = some x →
        ∃ r, getNotSeenShards api fuel c x (seedLoop (heads.take k) m) = some r ∧
          r.err = none ∧ ∀ y ∈ r.ret, R y) →
      ∃ s, shardsLoop api fuel heads newShards m calls = some s ∧ s.exit = none ∧
        s.shardLastSeqno = seedLoop heads m ∧
        ∀ y ∈ s.newShards, y ∈ newShards ∨ R y := by
  intro heads
  induction heads with
  | nil =>
    intro newShards m calls _
    exact ⟨_, rfl, rfl, rfl, fun y hy => Or.inl hy⟩
  | cons x rest ih =>
    intro newShards m calls hw
    obtain ⟨r, hr, he, hR⟩ := hw 0 x calls (by simp)
    simp only [List.take_zero, seedLoop] at hr
    obtain ⟨s, hs, hex, htr, hmem⟩ := ih (newShards ++ r.ret)
      (m.set (getShardID x) x.SeqNo) r.calls
      (fun k y c hy => by
        have := hw (k + 1) y c (by simpa using hy)
        simpa [seedLoop] using this)
    refine ⟨s, ?_, hex, by rw [htr]; rfl, ?_⟩
    · simp only [shardsLoop, hr, he, hs]
    · intro y hy
      rcases hmem y hy with h1 | h1
      · rcases List.mem_append.1 h1 with h2 | h2
        · exact Or.inl h2
        · exact Or.inr (hR y h2)
      · exact Or.inr h1

theorem masterLoop_returns (api : APIClient) (fuel masterShard : Nat)
    (master : Nat → BlockInfo) (heads : Nat → List BlockInfo) (R : BlockInfo → Prop)
    (htx : ∀ (l : List BlockInfo) (c : List Call), (∀ y ∈ l, R y) →
      ∃ t, blocksLoop api fuel l [] c = some t ∧ t.exit = none) :
    ∀ (seqs : List Nat) (st : State),
      (∀ h n, n ∈ seqs → api.LookupBlock h (-1) (toInt64 masterShard) n = Except.ok (master n)) →
      (∀ h n, n ∈ seqs → api.GetBlockShardsInfo h (master n) = Except.ok (heads n)) →
      (∀ (k : Nat) (x : BlockInfo) (c : List Call), (seqs.map heads).flatten[k]? = some x →
        ∃ r, getNotSeenShards api fuel c x
            (seedLoop ((seqs.map heads).flatten.take k) st.shardLastSeqno) = some r ∧
          r.err = none ∧ ∀ y ∈ r.ret, R y) →
      ∃ st', masterLoop api fuel masterShard seqs st = some (st', none) := by
  intro seqs
  induction seqs with
  | nil => intro st _ _ _; exact ⟨st, rfl⟩
  | cons n rest ih =>
    intro st hlook hheads hw
    rw [List.map_cons, List.flatten_cons] at hw
    obtain ⟨s, hs, hex, htr, hmem⟩ := shardsLoop_returns api fuel R (heads n) []
      st.shardLastSeqno (st.calls ++ [Call.LookupBlock (-1) (toInt64 masterShard) n,
        Call.GetBlockShardsInfo (master n)])
      (fun k x c hx => by
        have hk : k < (heads n).length := by
          by_contra hk
          rw [List.getElem?_eq_none (by omega)] at hx
          cases hx
        have := hw k x c (by rw [List.getElem?_append_left hk]; exact hx)
        rw [List.take_append_of_le_length (by omega)] at this
        exact this)
    obtain ⟨t, ht, hte⟩ := htx s.newShards s.calls
      (fun y hy => (hmem y hy).resolve_left (by simp))
    have hstep : masterStep api fuel masterShard st n
        = some (⟨s.shardLastSeqno, t.calls, st.passes ++ [⟨master n, s.newShards, t.txList⟩]⟩,
            none) := by
      simp only [masterStep, hlook _ n (List.mem_cons_self _ _),
        hheads _ n (List.mem_cons_self _ _), hs, hex, ht, hte]
    obtain ⟨st', hst'⟩ := ih
      ⟨s.shardLastSeqno, t.calls, st.passes ++ [⟨master n, s.newShards, t.txList⟩]⟩
      (fun h' m hm => hlook h' m (List.mem_cons_of_mem _ hm))
      (fun h' m hm => hheads h' m (List.mem_cons_of_mem _ hm))
      (fun k x c hx => by
        have := hw ((heads n).length + k) x c
          (by rw [List.getElem?_append_right (by omega)]; simpa using hx)
        rw [List.take_append_eq_append_take, List.take_of_length_le (by omega),
          seedLoop_append, ← htr] at this
        simpa using this)
    exact ⟨st', by simp only [masterLoop, hstep, hst']⟩


theorem mem_flatten_indexed {α : Type} (L : List (List α)) (y : α) :
    y ∈ L.flatten ↔ ∃ (k : Nat) (w : List α), L[k]? = some w ∧ y ∈ w := by
  rw [List.mem_flatten]
  constructor
  · rintro ⟨w, hw, hy⟩
    obtain ⟨k, hk⟩ := List.mem_iff_getElem?.1 hw
    exact ⟨k, w, hk, hy⟩
  · rintro ⟨k, w, hk, hy⟩
    exact ⟨w, List.mem_iff_getElem?.2 ⟨k, hk⟩, hy⟩

theorem nodup_flatten_indexed {α : Type} (L : List (List α)) :
    L.flatten.Nodup ↔ (∀ (k : Nat) (w : List α), L[k]? = some w → w.Nodup) ∧
      (∀ (j k : Nat) (wj wk : List α) (y : α), j < k → L[j]? = some wj → L[k]? = some wk →
        y ∈ wj → y ∉ wk) := by
  rw [List.nodup_flatten, List.pairwise_iff_getElem]
  constructor
  · rintro ⟨h1, h2⟩
    refine ⟨fun k w hk => h1 w (List.mem_iff_getElem?.2 ⟨k, hk⟩), ?_⟩
    intro j k wj wk y hjk hj hk hyj hyk
    obtain ⟨hj', rfl⟩ := List.getElem?_eq_some_iff.1 hj
    obtain ⟨hk', rfl⟩ := List.getElem?_eq_some_iff.1 hk
    exact h2 j k hj' hk' hjk hyj hyk
  · rintro ⟨h1, h2⟩
    refine ⟨fun w hw => ?_, ?_⟩
    · obtain ⟨k, hk⟩ := List.mem_iff_getElem?.1 hw
      exact h1 k w hk
    · intro j k hj hk hjk y hyj hyk
      exact h2 j k _ _ y hjk (List.getElem?_eq_getElem hj) (List.getElem?_eq_getElem hk) hyj hyk

theorem masterLoop_walks (api : APIClient) (fuel masterShard : Nat)
    (master : Nat → BlockInfo) (heads : Nat → List BlockInfo) (seqs : List Nat)
    (T0 : Tracker) (calls : List Call) (st' : State)
    (hlook : ∀ h n, n ∈ seqs →
      api.LookupBlock h (-1) (toInt64 masterShard) n = Except.ok (master n))
    (hheads : ∀ h n, n ∈ seqs → api.GetBlockShardsInfo h (master n) = Except.ok (heads n))
    (hserved : ∀ (k : Nat) (x y : BlockInfo), (seqs.map heads).flatten[k]? = some x →
      Reach api (seedLoop ((seqs.map heads).flatten.take k) T0) x y → Served api y)
    (hrun : masterLoop api fuel masterShard seqs ⟨T0, calls, []⟩ = some (st', none)) :
    ∃ walks : List (List BlockInfo), walks.length = (seqs.map heads).flatten.length ∧
      (st'.passes.map Iteration.newShards).flatten = walks.flatten ∧
      st'.shardLastSeqno = seedLoop (seqs.map heads).flatten T0 ∧
      ∀ (k : Nat) (w : List BlockInfo) (x : BlockInfo), walks[k]? = some w →
        (seqs.map heads).flatten[k]? = some x →
        (∀ y, y ∈ w ↔ Reach api (seedLoop ((seqs.map heads).flatten.take k) T0) x y) ∧
        (w.Nodup ↔ ReachedOnce api (seedLoop ((seqs.map heads).flatten.take k) T0) x) ∧
        ParentsFirst api (seedLoop ((seqs.map heads).flatten.take k) T0) w := by
  obtain ⟨rs, hlen, hnew, htr, hall⟩ := masterLoop_results api fuel masterShard master heads
    seqs ⟨T0, calls, []⟩ st' hlook hheads hrun
  refine ⟨rs.map Returned.ret, by simpa using hlen, by simpa using hnew, htr, ?_⟩
  intro k w x hw hx
  rw [List.getElem?_map] at hw
  cases hr : rs[k]? with
  | none => rw [hr] at hw; cases hw
  | some r =>
    rw [hr] at hw
    simp only [Option.map_some', Option.some.injEq] at hw
    subst hw
    obtain ⟨_, c, hc⟩ := hall k r x hr hx
    obtain ⟨r', hr', _, hmem, hnd, hpf⟩ := getNotSeenShards_reach api
      (seedLoop ((seqs.map heads).flatten.take k) T0) (max fuel (x.SeqNo + 1)) x c
      (by omega) (hserved k x · hx)
    have := getNotSeenShards_mono api _ fuel (max fuel (x.SeqNo + 1)) (by omega) c x r hc
    rw [this] at hr'
    cases hr'
    exact ⟨hmem, hnd, hpf⟩

theorem ascending_run : ∀ (S : List Nat) (t : Nat), S.Pairwise (fun a b => a < b) →
    (∀ i ∈ S, t < i) → (∀ i ∈ S, t + 1 < i → i - 1 ∈ S) → S = List.range' (t + 1) S.length := by
  intro S
  induction S with
  | nil => intro t _ _ _; rfl
  | cons a S ih =>
    intro t hpw hgt hdown
    rw [List.pairwise_cons] at hpw
    have ha : a = t + 1 := by
      by_contra hne
      have h1 := hgt a (List.mem_cons_self _ _)
      have h2 := hdown a (List.mem_cons_self _ _) (by omega)
      rcases List.mem_cons.1 h2 with h3 | h3
      · omega
      · have := hpw.1 _ h3
        omega
    subst ha
    rw [List.length_cons, List.range'_succ]
    congr 1
    apply ih (t + 1) hpw.2
    · intro i hi
      exact hpw.1 i hi
    · intro i hi hlt
      rcases List.mem_cons.1 (hdown i (List.mem_cons_of_mem _ hi) (by omega)) with h3 | h3
      · omega
      · exact h3

theorem walk_lane_filter (api : APIClient) (T : Tracker) (x : BlockInfo) (w : List BlockInfo)
    (K : String) (lane : Nat → BlockInfo)
    (hkey : ∀ i, getShardID (lane i) = K) (hseq : ∀ i, (lane i).SeqNo = i)
    (hmem : ∀ y, y ∈ w ↔ Reach api T x y) (hnd : w.Nodup) (hpf : ParentsFirst api T w)
    (hserved : ∀ y, Reach api T x y → Served api y)
    (hlane : ∀ z, Reach api T x z → getShardID z = K → OnLane api lane z) :
    (w.filter (fun z => getShardID z = K) = [] ∨
      ∃ t m, T K = some t ∧ 0 < m ∧
        w.filter (fun z => getShardID z = K) = (List.range' (t + 1) m).map lane) ∧
    (alreadySeen T x = false → getShardID x = K →
      ∃ t, T K = some t ∧ t < x.SeqNo ∧
        w.filter (fun z => getShardID z = K)
          = (List.range' (t + 1) (x.SeqNo - t)).map lane) := by
  -- the parent of a reached lane block
  have hparent : ∀ i, lane i ∈ w → 0 < i ∧ ∃ blk, api.GetBlockData [] (lane i) = Except.ok blk ∧
      blk.BlockInfo.GetParentBlocks = Except.ok [lane (i - 1)] := by
    intro i hi
    have hr := (hmem _).1 hi
    obtain ⟨_, blk, hblk, hps⟩ := hlane _ hr (hkey i)
    rw [hseq] at hps
    have := (served_parents (hserved _ hr) [] blk _ hblk hps).2 (lane (i - 1)) (by simp)
    rw [hseq, hseq] at this
    exact ⟨by omega, blk, hblk, hps⟩
  have hseen : ∀ i, alreadySeen T (lane i) = true ↔ T K = some i := by
    intro i
    rw [alreadySeen_iff, hkey, hseq]
  have hpos : ∀ i, lane i ∈ w → ∃ t, T K = some t ∧ t < i := by
    intro i
    induction i using Nat.strong_induction_on with
    | _ i ih =>
      intro hi
      obtain ⟨h0, blk, hblk, hps⟩ := hparent i hi
      by_cases hs : alreadySeen T (lane (i - 1)) = true
      · exact ⟨i - 1, (hseen _).1 hs, by omega⟩
      · have hu : alreadySeen T (lane (i - 1)) = false := by simpa using hs
        have hr := (hmem _).1 hi
        have hr' : Reach api T x (lane (i - 1)) :=
          reach_trans hr (Reach.up _ blk _ _ _ (reach_unseen_target hr) hblk hps (by simp)
            (Reach.self _ hu))
        obtain ⟨t, ht, hlt⟩ := ih (i - 1) (by omega) ((hmem _).2 hr')
        exact ⟨t, ht, by omega⟩
  have hchain : ∀ (t : Nat), T K = some t → ∀ (i i' a : Nat), t < i' → i' ≤ i →
      w[a]? = some (lane i) → ∃ a', a' ≤ a ∧ w[a']? = some (lane i') ∧ (i' < i → a' < a) := by
    intro t ht i
    induction i with
    | zero =>
      intro i' a h1 h2 _
      omega
    | succ n ih =>
      intro i' a h1 h2 ha
      by_cases heq : i' = n + 1
      · subst heq
        exact ⟨a, le_refl _, ha, fun h => absurd h (lt_irrefl _)⟩
      · have hin : lane (n + 1) ∈ w := List.mem_iff_getElem?.2 ⟨a, ha⟩
        obtain ⟨_, blk, hblk, hps⟩ := hparent _ hin
        simp only [Nat.add_sub_cancel] at hps
        have hu : alreadySeen T (lane n) = false := by
          cases hs : alreadySeen T (lane n) with
          | false => rfl
          | true =>
            have := (hseen n).1 hs
            rw [ht] at this
            cases this
            omega
        obtain ⟨j, hj, hjw⟩ := (hpf a _ ha).2 blk _ (lane n) hblk hps (by simp) hu
        obtain ⟨a', ha', hw', _⟩ := ih i' j h1 (by omega) hjw
        exact ⟨a', by omega, hw', fun _ => by omega⟩
  have hpw : w.Pairwise (fun a b => getShardID a = K → getShardID b = K → a.SeqNo < b.SeqNo) := by
    rw [List.pairwise_iff_getElem]
    intro a b ha hb hab hka hkb
    have hra := (hmem _).1 (List.getElem_mem ha)
    have hrb := (hmem _).1 (List.getElem_mem hb)
    obtain ⟨hla, _⟩ := hlane _ hra hka
    obtain ⟨hlb, _⟩ := hlane _ hrb hkb
    by_contra hnot
    have hwa : w[a]? = some (lane w[a].SeqNo) := by
      rw [List.getElem?_eq_getElem ha, ← hla]
    have hwb : w[b]? = some (lane w[b].SeqNo) := by
      rw [List.getElem?_eq_getElem hb, ← hlb]
    obtain ⟨t, ht, hlt⟩ := hpos w[b].SeqNo (by rw [← hlb]; exact List.getElem_mem hb)
    obtain ⟨a', ha', hw', _⟩ := hchain t ht w[a].SeqNo w[b].SeqNo a hlt (by omega) hwa
    have ha'' : a' < w.length := by omega
    rw [List.getElem?_eq_getElem ha'', ← hlb] at hw'
    simp only [Option.some.injEq] at hw'
    have := (List.Nodup.getElem_inj_iff hnd).1 hw'
    omega
  have hF : ∀ z, z ∈ w.filter (fun z => getShardID z = K) ↔ (z ∈ w ∧ getShardID z = K) := by
    intro z
    simp [List.mem_filter]
  have hFlane : ∀ z ∈ w.filter (fun z => getShardID z = K), z = lane z.SeqNo := by
    intro z hz
    obtain ⟨h1, h2⟩ := (hF z).1 hz
    exact (hlane z ((hmem z).1 h1) h2).1
  have hFpw : (w.filter (fun z => getShardID z = K)).Pairwise (fun a b => a.SeqNo < b.SeqNo) := by
    have := List.Pairwise.filter (fun z => decide (getShardID z = K)) hpw
    refine List.Pairwise.imp_of_mem ?_ this
    intro a b ha hb h
    exact h ((hF a).1 ha).2 ((hF b).1 hb).2
  have hrun : ∀ t, T K = some t →
      w.filter (fun z => getShardID z = K)
        = (List.range' (t + 1) (w.filter (fun z => getShardID z = K)).length).map lane := by
    intro t ht
    have hS := ascending_run ((w.filter (fun z => getShardID z = K)).map BlockInfo.SeqNo) t
      (by rw [List.pairwise_map]; exact hFpw)
      (by
        intro i hi
        obtain ⟨z, hz, rfl⟩ := List.mem_map.1 hi
        have hzl := hFlane z hz
        obtain ⟨t', ht', hlt⟩ := hpos z.SeqNo (by rw [← hzl]; exact ((hF z).1 hz).1)
        rw [ht] at ht'
        cases ht'
        exact hlt)
      (by
        intro i hi hlt
        obtain ⟨z, hz, rfl⟩ := List.mem_map.1 hi
        have hzl := hFlane z hz
        obtain ⟨a, ha⟩ := List.mem_iff_getElem?.1 ((hF z).1 hz).1
        rw [hzl] at ha
        obtain ⟨a', _, hw', _⟩ := hchain t ht z.SeqNo (z.SeqNo - 1) a (by omega) (by omega) ha
        apply List.mem_map.2
        refine ⟨lane (z.SeqNo - 1), (hF _).2 ⟨List.mem_iff_getElem?.2 ⟨a', hw'⟩, hkey _⟩, hseq _⟩)
    rw [List.length_map] at hS
    rw [← hS, List.map_map]
    conv_lhs => rw [← List.map_id (w.filter (fun z => getShardID z = K))]
    apply List.map_congr_left
    intro z hz
    exact hFlane z hz
  constructor
  · cases hl : w.filter (fun z => getShardID z = K) with
    | nil => exact Or.inl rfl
    | cons z rest =>
      right
      have hz : z ∈ w.filter (fun z => getShardID z = K) := by rw [hl]; exact List.mem_cons_self _ _
      have hzl := hFlane z hz
      obtain ⟨t, ht, _⟩ := hpos z.SeqNo (by rw [← hzl]; exact ((hF z).1 hz).1)
      refine ⟨t, (z :: rest).length, ht, by simp, ?_⟩
      rw [← hl]
      exact hrun t ht
  · intro hu hk
    have hxw : x ∈ w := (hmem x).2 (Reach.self x hu)
    have hxF : x ∈ w.filter (fun z => getShardID z = K) := (hF x).2 ⟨hxw, hk⟩
    have hxl := hFlane x hxF
    obtain ⟨t, ht, hlt⟩ := hpos x.SeqNo (by rw [← hxl]; exact hxw)
    refine ⟨t, ht, hlt, ?_⟩
    have h := hrun t ht
    have hlen : (w.filter (fun z => getShardID z = K)).length = x.SeqNo - t := by
      have h1 : x.SeqNo ∈ List.range' (t + 1) (w.filter (fun z => getShardID z = K)).length := by
        have := hxF
        rw [h] at this
        obtain ⟨i, hi, hix⟩ := List.mem_map.1 this
        have : i = x.SeqNo := by rw [← hix, hseq]
        rw [← this]
        exact hi
      rw [List.mem_range'_1] at h1
      by_contra hne
      have h2 : x.SeqNo + 1 ∈ List.range' (t + 1) (w.filter (fun z => getShardID z = K)).length := by
        rw [List.mem_range'_1]
        omega
      have h3 : lane (x.SeqNo + 1) ∈ w.filter (fun z => getShardID z = K) := by
        rw [h]
        exact List.mem_map.2 ⟨_, h2, rfl⟩
      have h4 := reach_seqNo_le ((hmem _).1 ((hF _).1 h3).1) hserved
      rw [hseq] at h4
      omega
    rw [hlen] at h
    exact h


theorem lane_assembly (api : APIClient) (K : String) (lane : Nat → BlockInfo)
    (hkey : ∀ i, getShardID (lane i) = K) (hseq : ∀ i, (lane i).SeqNo = i) (s : Nat) :
    ∀ (H : List BlockInfo) (walks : List (List BlockInfo)) (T : Tracker)
      (prev : List BlockInfo) (len t : Nat),
      walks.length = H.length →
      (∀ (k : Nat) (w : List BlockInfo) (x : BlockInfo), walks[k]? = some w → H[k]? = some x →
        (∀ y, y ∈ w ↔ Reach api (seedLoop (H.take k) T) x y) ∧ w.Nodup ∧
          ParentsFirst api (seedLoop (H.take k) T) w) →
      (∀ (k : Nat) (x y : BlockInfo), H[k]? = some x →
        Reach api (seedLoop (H.take k) T) x y → Served api y) →
      (∀ (k : Nat) (x z : BlockInfo), H[k]? = some x →
        Reach api (seedLoop (H.take k) T) x z → getShardID z = K → OnLane api lane z) →
      (∀ (k : Nat) (x y : BlockInfo), H[k]? = some x →
        Reach api (seedLoop (H.take k) T) x y → y ∉ prev) →
      (∀ (j k : Nat) (xj xk y : BlockInfo), j < k → H[j]? = some xj → H[k]? = some xk →
        Reach api (seedLoop (H.take j) T) xj y → ¬ Reach api (seedLoop (H.take k) T) xk y) →
      prev.filter (fun z => getShardID z = K) = (List.range' (s + 1) len).map lane →
      T K = some t → s ≤ t → t ≤ s + len →
      ∃ len' f, (prev ++ walks.flatten).filter (fun z => getShardID z = K)
            = (List.range' (s + 1) len').map lane ∧
          seedLoop H T K = some f ∧ s ≤ f ∧ f ≤ s + len' := by
  intro H
  induction H with
  | nil =>
    intro walks T prev len t hlen _ _ _ _ _ hprevK hT hst htl
    have : walks = [] := List.eq_nil_of_length_eq_zero (by simpa using hlen)
    subst this
    exact ⟨len, t, by simpa using hprevK, hT, hst, htl⟩
  | cons x H' ih =>
    intro walks T prev len t hlen hw hserved hlane hprev hcross hprevK hT hst htl
    cases walks with
    | nil => simp at hlen
    | cons w ws =>
      obtain ⟨hmem, hnd, hpf⟩ := hw 0 w x (by simp) (by simp)
      simp only [List.take_zero, seedLoop] at hmem hpf
      have hs0 : ∀ y, Reach api T x y → Served api y := fun y hy =>
        hserved 0 x y (by simp) (by simpa [seedLoop] using hy)
      have hl0 : ∀ z, Reach api T x z → getShardID z = K → OnLane api lane z := fun z hz hk =>
        hlane 0 x z (by simp) (by simpa [seedLoop] using hz) hk
      have hp0 : ∀ y, Reach api T x y → y ∉ prev := fun y hy =>
        hprev 0 x y (by simp) (by simpa [seedLoop] using hy)
      obtain ⟨hfil, htop⟩ := walk_lane_filter api T x w K lane hkey hseq hmem hnd hpf hs0 hl0
      -- the facts about the remaining heads, against the updated map
      have hw' : ∀ (k : Nat) (w' : List BlockInfo) (x' : BlockInfo), ws[k]? = some w' →
          H'[k]? = some x' →
          (∀ y, y ∈ w' ↔ Reach api (seedLoop (H'.take k) (T.set (getShardID x) x.SeqNo)) x' y) ∧
            w'.Nodup ∧ ParentsFirst api (seedLoop (H'.take k) (T.set (getShardID x) x.SeqNo)) w' :=
        fun k w' x' h1 h2 => by
          have := hw (k + 1) w' x' (by simpa using h1) (by simpa using h2)
          simpa [seedLoop] using this
      have hserved' : ∀ (k : Nat) (x' y : BlockInfo), H'[k]? = some x' →
          Reach api (seedLoop (H'.take k) (T.set (getShardID x) x.SeqNo)) x' y → Served api y :=
        fun k x' y h1 h2 => hserved (k + 1) x' y (by simpa using h1) (by simpa [seedLoop] using h2)
      have hlane' : ∀ (k : Nat) (x' z : BlockInfo), H'[k]? = some x' →
          Reach api (seedLoop (H'.take k) (T.set (getShardID x) x.SeqNo)) x' z →
          getShardID z = K → OnLane api lane z :=
        fun k x' z h1 h2 => hlane (k + 1) x' z (by simpa using h1) (by simpa [seedLoop] using h2)
      have hprev' : ∀ (k : Nat) (x' y : BlockInfo), H'[k]? = some x' →
          Reach api (seedLoop (H'.take k) (T.set (getShardID x) x.SeqNo)) x' y →
          y ∉ prev ++ w := by
        intro k x' y h1 h2 hin
        rcases List.mem_append.1 hin with h3 | h3
        · exact hprev (k + 1) x' y (by simpa using h1) (by simpa [seedLoop] using h2) h3
        · exact hcross 0 (k + 1) x x' y (by omega) (by simp) (by simpa using h1)
            (by simpa [seedLoop] using (hmem y).1 h3) (by simpa [seedLoop] using h2)
      have hcross' : ∀ (j k : Nat) (xj xk y : BlockInfo), j < k → H'[j]? = some xj →
          H'[k]? = some xk →
          Reach api (seedLoop (H'.take j) (T.set (getShardID x) x.SeqNo)) xj y →
          ¬ Reach api (seedLoop (H'.take k) (T.set (getShardID x) x.SeqNo)) xk y := by
        intro j k xj xk y hjk h1 h2 h3 h4
        exact hcross (j + 1) (k + 1) xj xk y (by omega) (by simpa using h1) (by simpa using h2)
          (by simpa [seedLoop] using h3) (by simpa [seedLoop] using h4)
      have hset : ∀ v, getShardID x ≠ K → T K = some v →
          (T.set (getShardID x) x.SeqNo) K = some v := by
        intro v hne hv
        simp only [Tracker.set]
        rw [if_neg (fun h => hne h.symm)]
        exact hv
      have hsetK : getShardID x = K → (T.set (getShardID x) x.SeqNo) K = some x.SeqNo := by
        intro hk
        simp [Tracker.set, hk]
      have hfin : ∀ (len2 t2 : Nat),
          (prev ++ w).filter (fun z => getShardID z = K) = (List.range' (s + 1) len2).map lane →
          (T.set (getShardID x) x.SeqNo) K = some t2 → s ≤ t2 → t2 ≤ s + len2 →
          ∃ len' f, (prev ++ (w :: ws).flatten).filter (fun z => getShardID z = K)
                = (List.range' (s + 1) len').map lane ∧
              seedLoop (x :: H') T K = some f ∧ s ≤ f ∧ f ≤ s + len' := by
        intro len2 t2 h1 h2 h3 h4
        obtain ⟨len', f, hres, hf, hsf, hfl⟩ := ih ws (T.set (getShardID x) x.SeqNo) (prev ++ w)
          len2 t2 (by simpa using hlen) hw' hserved' hlane' hprev' hcross' h1 h2 h3 h4
        refine ⟨len', f, ?_, hf, hsf, hfl⟩
        rw [List.flatten_cons, ← List.append_assoc]
        exact hres
      rcases hfil with hnil | ⟨t', m, ht', hm, hrun⟩
      · -- the descent from `x` reaches no block of the lane
        apply hfin len t
        · rw [List.filter_append, hnil, List.append_nil]
          exact hprevK
        · by_cases hk : getShardID x = K
          · cases hu : alreadySeen T x with
            | false =>
              obtain ⟨t1, _, hlt, hrun⟩ := htop hu hk
              rw [hnil] at hrun
              have : (List.range' (t1 + 1) (x.SeqNo - t1)).length = 0 := by
                have := congrArg List.length hrun
                simpa using this.symm
              rw [List.length_range'] at this
              omega
            | true =>
              have := (alreadySeen_iff T x).1 hu
              rw [hk, hT] at this
              cases this
              exact hsetK hk
          · exact hset t hk hT
        · exact hst
        · exact htl
      · rw [hT] at ht'
        cases ht'
        have hbot : lane (t + 1) ∈ w := by
          have : lane (t + 1) ∈ w.filter (fun z => getShardID z = K) := by
            rw [hrun]
            exact List.mem_map.2 ⟨t + 1, by rw [List.mem_range'_1]; omega, rfl⟩
          exact (List.mem_filter.1 this).1
        have hteq : t = s + len := by
          by_contra hne
          have : lane (t + 1) ∈ prev.filter (fun z => getShardID z = K) := by
            rw [hprevK]
            exact List.mem_map.2 ⟨t + 1, by rw [List.mem_range'_1]; omega, rfl⟩
          exact hp0 _ ((hmem _).1 hbot) (List.mem_filter.1 this).1
        have hcat : (prev ++ w).filter (fun z => getShardID z = K)
            = (List.range' (s + 1) (len + m)).map lane := by
          have hr : List.range' (s + 1) len ++ List.range' (s + len + 1) m
              = List.range' (s + 1) (len + m) := by
            have := List.range'_append (s + 1) len m 1
            simp only [Nat.one_mul] at this
            rw [show s + len + 1 = s + 1 + len by omega, this, Nat.add_comm m len]
          rw [List.filter_append, hprevK, hrun, ← List.map_append, hteq, hr]
        by_cases hk : getShardID x = K
        · cases hu : alreadySeen T x with
          | false =>
            obtain ⟨t1, ht1, hlt, hrun1⟩ := htop hu hk
            rw [hT] at ht1
            cases ht1
            have hmeq : m = x.SeqNo - t := by
              have := congrArg List.length (hrun.symm.trans hrun1)
              simpa using this
            exact hfin (len + m) x.SeqNo hcat (hsetK hk) (by omega) (by omega)
          | true =>
            exfalso
            exact reach_of_seen hu _ ((hmem _).1 hbot)
        · exact hfin (len + m) t hcat (hset t hk hT) hst (by omega)

theorem reach_of_run (api : APIClient) (T : Tracker) (x : BlockInfo) (fuel : Nat)
    (w : List BlockInfo) (hs : ∀ y, Reach api T x y → Served api y) (hfuel : x.SeqNo < fuel)
    (hrun : (getNotSeenShards api fuel [] x T).map Returned.ret = some w) :
    (∀ y, Reach api T x y ↔ y ∈ w) ∧ (ReachedOnce api T x ↔ w.Nodup) := by
  obtain ⟨r, hr, _, hmem, hnd, _⟩ := getNotSeenShards_reach api T fuel x [] hfuel hs
  rw [hr] at hrun
  simp only [Option.map_some', Option.some.injEq] at hrun
  subst hrun
  exact ⟨fun y => (hmem y).symm, hnd.symm⟩

theorem diamondParents_served (masters : Nat → Except Error BlockInfo)
    (shards : BlockInfo → Except Error (List BlockInfo)) (txs : BlockInfo → List TransactionID)
    (y : BlockInfo) :
    Served (Fixture.tableClient masters shards Fixture.diamondParents txs) y := by
  by_cases hA : y = Fixture.A
  · subst hA
    exact ⟨[Fixture.Q], fun _ => ⟨_, rfl, rfl⟩, by decide⟩
  by_cases hB : y = Fixture.B
  · subst hB
    exact ⟨[Fixture.Q], fun _ => ⟨_, rfl, rfl⟩, by decide⟩
  by_cases hM : y = Fixture.M
  · subst hM
    exact ⟨[Fixture.A, Fixture.B], fun _ => ⟨_, rfl, rfl⟩, by decide⟩
  by_cases hM' : y = Fixture.M'
  · subst hM'
    exact ⟨[Fixture.A, Fixture.B], fun _ => ⟨_, rfl, rfl⟩, by decide⟩
  by_cases h0 : y.SeqNo = 0
  · exact ⟨[], fun _ => ⟨_, rfl, by simp [Fixture.diamondParents, Fixture.laneParents, hA, hB,
      hM, hM', h0]⟩, by simp⟩
  · refine ⟨[⟨y.Workchain, y.Shard, y.SeqNo - 1, y.RootHash, y.FileHash⟩],
      fun _ => ⟨_, rfl, by simp [Fixture.diamondParents, Fixture.laneParents, hA, hB, hM, hM',
        h0]⟩, ?_⟩
    intro p hp
    simp only [List.mem_singleton] at hp
    subst hp
    simp only
    omega

theorem forked_reach (k : Nat) (x : BlockInfo) (hx : Fixture.forkedDeclared[k]? = some x) :
    ∃ w, Fixture.forkedWalks[k]? = some w ∧
      (∀ y, Reach Fixture.forked (seedLoop (Fixture.forkedDeclared.take k) Fixture.forkedSeed) x y
        ↔ y ∈ w) ∧
      (ReachedOnce Fixture.forked (seedLoop (Fixture.forkedDeclared.take k) Fixture.forkedSeed) x
        ↔ w.Nodup) := by
  have hs : ∀ (T : Tracker) (x y : BlockInfo), Reach Fixture.forked T x y →
      Served Fixture.forked y := fun _ _ y _ => diamondParents_served _ _ _ y
  match k, hx with
  | 0, hx =>
    cases hx
    exact ⟨_, rfl, reach_of_run _ _ _ 9 _ (hs _ _) (by decide) (by decide)⟩
  | 1, hx =>
    cases hx
    exact ⟨_, rfl, reach_of_run _ _ _ 9 _ (hs _ _) (by decide) (by decide)⟩
  | 2, hx =>
    cases hx
    exact ⟨_, rfl, reach_of_run _ _ _ 9 _ (hs _ _) (by decide) (by decide)⟩
  | 3, hx =>
    cases hx
    exact ⟨_, rfl, reach_of_run _ _ _ 9 _ (hs _ _) (by decide) (by decide)⟩
  | 4, hx =>
    cases hx
    exact ⟨_, rfl, reach_of_run _ _ _ 9 _ (hs _ _) (by decide) (by decide)⟩
  | 5, hx =>
    cases hx
    exact ⟨_, rfl, reach_of_run _ _ _ 9 _ (hs _ _) (by decide) (by decide)⟩
  | 6, hx =>
    cases hx
    exact ⟨_, rfl, reach_of_run _ _ _ 9 _ (hs _ _) (by decide) (by decide)⟩
  | k + 7, hx => exact absurd hx (by simp [Fixture.forkedDeclared, Fixture.forkedHeads])


theorem forked_walkedOnce :
    WalkedOnce Fixture.forked Fixture.forkedSeed Fixture.forkedDeclared := by
  constructor
  · intro k x hx
    obtain ⟨w, hw, _, hnd⟩ := forked_reach k x hx
    apply hnd.2
    have hall : ∀ w' ∈ Fixture.forkedWalks, w'.Nodup := by decide
    exact hall w (List.mem_iff_getElem?.2 ⟨k, hw⟩)
  · intro j k xj xk y hjk hj hk hyj hyk
    obtain ⟨wj, hwj, hmj, _⟩ := forked_reach j xj hj
    obtain ⟨wk, hwk, hmk, _⟩ := forked_reach k xk hk
    have hnd : Fixture.forkedWalks.flatten.Nodup := by decide
    exact ((nodup_flatten_indexed Fixture.forkedWalks).1 hnd).2 j k wj wk y hjk hwj hwk
      ((hmj y).1 hyj) ((hmk y).1 hyk)

theorem noTxs_blocksLoop (masters : Nat → Except Error BlockInfo)
    (shards : BlockInfo → Except Error (List BlockInfo))
    (parents : BlockInfo → Except Error (List BlockInfo)) (fuel : Nat) :
    ∀ (l : List BlockInfo) (txList : List Transaction) (c : List Call),
      ∃ t, blocksLoop (Fixture.tableClient masters shards parents Fixture.noTxs) (fuel + 1) l
        txList c = some t ∧ t.exit = none := by
  intro l
  induction l with
  | nil => intro txList c; exact ⟨_, rfl, rfl⟩
  | cons b rest ih =>
    intro txList c
    obtain ⟨t, ht, hte⟩ := ih txList (c ++ [Call.GetBlockTransactions b 100 none])
    refine ⟨t, ?_, hte⟩
    have hg : (Fixture.tableClient masters shards parents Fixture.noTxs).GetBlockTransactions c b
        100 none = Except.ok ([], false) := rfl
    simp only [blocksLoop, pageLoop, hg, Bool.false_eq_true, if_false, resolveLoop]
    exact ht

theorem forked_onLane (k : Nat) (x z : BlockInfo) (hx : Fixture.forkedDeclared[k]? = some x)
    (hz : Reach Fixture.forked (seedLoop (Fixture.forkedDeclared.take k) Fixture.forkedSeed) x z)
    (hk : getShardID z = "0|5") : OnLane Fixture.forked Fixture.lane5 z := by
  obtain ⟨w, hw, hm, _⟩ := forked_reach k x hx
  have hin : z ∈ Fixture.forkedWalks.flatten :=
    (mem_flatten_indexed _ z).2 ⟨k, w, hw, (hm z).1 hz⟩
  have hin' : z ∈ [Fixture.Q, Fixture.blk 0 5 6 0, Fixture.blk 0 5 7 0, Fixture.A, Fixture.B,
      Fixture.M, Fixture.blk 0 5 8 0] := hin
  simp only [List.mem_cons, List.mem_singleton, List.not_mem_nil, or_false] at hin'
  rcases hin' with rfl | rfl | rfl | rfl | rfl | rfl | rfl
  · exact absurd hk (by decide)
  · exact ⟨rfl, _, rfl, rfl⟩
  · exact ⟨rfl, _, rfl, rfl⟩
  · exact absurd hk (by decide)
  · exact absurd hk (by decide)
  · exact absurd hk (by decide)
  · exact ⟨rfl, _, rfl, rfl⟩

/-! ## Properties of the pagination loop -/

theorem fetchedPageSizes_append (api : APIClient) :
    ∀ (l₁ l₂ pre : List Call), fetchedPageSizes api pre (l₁ ++ l₂)
      = fetchedPageSizes api pre l₁ ++ fetchedPageSizes api (pre ++ l₁) l₂ := by
  intro l₁
  induction l₁ with
  | nil => intro l₂ pre; simp [fetchedPageSizes]
  | cons c rest ih =>
    intro l₂ pre
    cases c <;> simp [fetchedPageSizes, ih]

theorem fetchedPageSizes_resolves (api : APIClient) (shard : BlockInfo) :
    ∀ (page : List TransactionID) (pre : List Call),
      fetchedPageSizes api pre
        (page.map (fun id => Call.GetTransaction shard (Address.mk 0 0 id.AccountID) id.LT))
        = [] := by
  intro page
  induction page with
  | nil => intro pre; rfl
  | cons id rest ih => intro pre; simp [fetchedPageSizes, ih]

theorem resolveCalls_append : ∀ (l₁ l₂ : List Call),
    resolveCalls (l₁ ++ l₂) = resolveCalls l₁ ++ resolveCalls l₂ := by
  intro l₁
  induction l₁ with
  | nil => intro l₂; simp [resolveCalls]
  | cons c rest ih => intro l₂; cases c <;> simp [resolveCalls, ih]

theorem resolveCalls_resolves (shard : BlockInfo) : ∀ (page : List TransactionID),
    resolveCalls
      (page.map (fun id => Call.GetTransaction shard (Address.mk 0 0 id.AccountID) id.LT))
      = page.map (fun id => (shard, Address.mk 0 0 id.AccountID, id.LT)) := by
  intro page
  induction page with
  | nil => rfl
  | cons id rest ih => simp [resolveCalls, ih]

theorem resolveLoop_ok (api : APIClient) (shard : BlockInfo) (tx : TransactionID → Transaction) :
    ∀ (page : List TransactionID) (txList : List Transaction) (calls : List Call),
      (∀ h id, id ∈ page →
        api.GetTransaction h shard (Address.mk 0 0 id.AccountID) id.LT = Except.ok (tx id)) →
      resolveLoop api shard page txList calls
        = ⟨txList ++ page.map tx,
            calls ++ page.map
              (fun id => Call.GetTransaction shard (Address.mk 0 0 id.AccountID) id.LT), none⟩ := by
  intro page
  induction page with
  | nil => intro txList calls _; simp [resolveLoop]
  | cons id rest ih =>
    intro txList calls h
    unfold resolveLoop
    rw [h calls id (List.mem_cons_self _ _)]
    dsimp only
    rw [ih _ _ (fun h' id' hid => h h' id' (List.mem_cons_of_mem _ hid))]
    simp

theorem pageSizes_small (n : Nat) (h : n ≤ 100) : pageSizes n = [n] := by
  have h1 : (n + 99) / 100 ≤ 1 := by omega
  have h2 : max 1 ((n + 99) / 100) = 1 := by omega
  unfold pageSizes
  rw [h2]
  simp [List.range_succ, h]

theorem pageSizes_large (n : Nat) (h : 100 < n) : pageSizes n = 100 :: pageSizes (n - 100) := by
  have h1 : (n + 99) / 100 = (n - 100 + 99) / 100 + 1 := by omega
  have h2 : max 1 ((n + 99) / 100) = max 1 ((n - 100 + 99) / 100) + 1 := by omega
  unfold pageSizes
  rw [h2, List.range_succ_eq_map, List.map_cons, List.map_map]
  congr 1
  · simp; omega
  · apply List.map_congr_left
    intro k _
    simp only [Function.comp]
    congr 1
    omega

theorem pageLoop_from (api : APIClient) (shard : BlockInfo) (tx : TransactionID → Transaction) :
    ∀ (fuel : Nat) (rem : List TransactionID) (after : Option TransactionID)
      (txList : List Transaction) (calls : List Call),
      (∀ h, api.GetBlockTransactions h shard 100 after
        = Except.ok (rem.take 100, decide (100 < rem.length))) →
      (∀ h i (hi : i < rem.length), api.GetBlockTransactions h shard 100 (some rem[i])
        = Except.ok ((rem.drop (i + 1)).take 100, decide (i + 1 + 100 < rem.length))) →
      (∀ h id, id ∈ rem →
        api.GetTransaction h shard (Address.mk 0 0 id.AccountID) id.LT = Except.ok (tx id)) →
      max 1 ((rem.length + 99) / 100) ≤ fuel →
      ∃ added, pageLoop api shard fuel after txList calls
          = some ⟨txList ++ rem.map tx, calls ++ added, none⟩ ∧
        fetchedPageSizes api calls added = pageSizes rem.length ∧
        resolveCalls added = rem.map (fun id => (shard, Address.mk 0 0 id.AccountID, id.LT)) := by
  intro fuel
  induction fuel with
  | zero => intro rem after txList calls _ _ _ hf; omega
  | succ n ih =>
    intro rem after txList calls hcur hnext hres hfuel
    unfold pageLoop
    rw [hcur calls]
    dsimp only
    by_cases hmore : 100 < rem.length
    · -- a full page, more to come
      have hlast : (rem.take 100).getLast? = some rem[99] := by
        rw [List.getLast?_eq_getElem?]
        simp only [List.length_take]
        rw [show min 100 rem.length - 1 = 99 by omega, List.getElem?_take_of_lt (by omega)]
        exact List.getElem?_eq_getElem (by omega)
      have hresolve := resolveLoop_ok api shard tx (rem.take 100) txList
        (calls ++ [Call.GetBlockTransactions shard 100 after])
        (fun h id hid => hres h id (List.mem_of_mem_take hid))
      simp only [hmore, decide_True, if_true, hlast, hresolve]
      obtain ⟨added, hrun, hsizes, hcalls⟩ := ih (rem.drop 100) (some rem[99])
        (txList ++ (rem.take 100).map tx)
        (calls ++ [Call.GetBlockTransactions shard 100 after]
          ++ (rem.take 100).map
            (fun id => Call.GetTransaction shard (Address.mk 0 0 id.AccountID) id.LT))
        (by
          intro h
          rw [hnext h 99 (by omega)]
          simp
          omega)
        (by
          intro h i hi
          have hlen : (rem.drop 100).length = rem.length - 100 := List.length_drop _ _
          have hi' : 100 + i < rem.length := by rw [hlen] at hi; omega
          have hget : (rem.drop 100)[i] = rem[100 + i] := List.getElem_drop rem
          rw [hget, hnext h (100 + i) hi', List.drop_drop, hlen,
            show 100 + i + 1 = 100 + (i + 1) by omega]
          congr 2
          rw [decide_eq_decide]
          omega)
        (fun h id hid => hres h id (List.mem_of_mem_drop hid))
        (by simp only [List.length_drop]; omega)
      refine ⟨[Call.GetBlockTransactions shard 100 after]
        ++ (rem.take 100).map
          (fun id => Call.GetTransaction shard (Address.mk 0 0 id.AccountID) id.LT)
        ++ added, ?_, ?_, ?_⟩
      · rw [hrun]
        simp only [List.append_assoc, ← List.map_append, List.take_append_drop]
      · rw [fetchedPageSizes_append, fetchedPageSizes_append, fetchedPageSizes_resolves,
          ← List.append_assoc, hsizes, pageSizes_large _ hmore]
        simp only [fetchedPageSizes, hcur calls, List.length_take, List.length_drop]
        simp
        omega
      · rw [resolveCalls_append, resolveCalls_append, resolveCalls_resolves, hcalls]
        simp only [resolveCalls, List.nil_append, ← List.map_append, List.take_append_drop]
    · -- the last page
      have htake : rem.take 100 = rem := List.take_of_length_le (by omega)
      have hresolve := resolveLoop_ok api shard tx rem txList
        (calls ++ [Call.GetBlockTransactions shard 100 after]) hres
      simp only [hmore, decide_False, Bool.false_eq_true, if_false, htake, hresolve]
      refine ⟨[Call.GetBlockTransactions shard 100 after]
        ++ rem.map
          (fun id => Call.GetTransaction shard (Address.mk 0 0 id.AccountID) id.LT), ?_, ?_, ?_⟩
      · simp
      · rw [fetchedPageSizes_append, fetchedPageSizes_resolves, pageSizes_small _ (by omega)]
        simp [fetchedPageSizes, hcur calls, htake]
      · rw [resolveCalls_append, resolveCalls_resolves]
        simp [resolveCalls]


theorem fetchedPageSizes_length (api : APIClient) :
    ∀ (l pre : List Call), (fetchedPageSizes api pre l).length = fetchCount l := by
  intro l
  induction l with
  | nil => intro pre; rfl
  | cons c rest ih => intro pre; cases c <;> simp [fetchedPageSizes, fetchCount, ih]

theorem dropWhile_bne_getElem : ∀ (ids : List TransactionID), ids.Nodup →
    ∀ (i : Nat) (hi : i < ids.length),
      (ids.dropWhile (fun t => t != ids[i])).drop 1 = ids.drop (i + 1) := by
  intro ids
  induction ids with
  | nil => intro _ i hi; simp at hi
  | cons x rest ih =>
    intro hnd i hi
    cases i with
    | zero => simp [List.dropWhile]
    | succ j =>
      have hj : j < rest.length := by simpa using hi
      have hne : (x != rest[j]) = true := by
        rw [bne_iff_ne]
        intro h
        have := (List.nodup_cons.mp hnd).1
        exact this (h ▸ List.getElem_mem _)
      simp only [List.getElem_cons_succ, List.dropWhile, hne, List.drop_succ_cons]
      exact ih (List.nodup_cons.mp hnd).2 j hj

theorem txIds_nodup (n : Nat) : (Fixture.txIds n).Nodup := by
  unfold Fixture.txIds
  apply List.Nodup.map _ (List.nodup_range n)
  intro a b h
  simpa using congrArg TransactionID.LT h

theorem tableClient_next_page (masters : Nat → Except Error BlockInfo)
    (shards parents : BlockInfo → Except Error (List BlockInfo))
    (txs : BlockInfo → List TransactionID) (b : BlockInfo) (ids : List TransactionID)
    (hids : txs b = ids) (hnd : ids.Nodup)
    (h : List Call) (i : Nat) (hi : i < ids.length) :
    (Fixture.tableClient masters shards parents txs).GetBlockTransactions h b 100 (some ids[i])
      = Except.ok ((ids.drop (i + 1)).take 100, decide (i + 1 + 100 < ids.length)) := by
  simp only [Fixture.tableClient, hids]
  rw [dropWhile_bne_getElem ids hnd i hi]
  congr 2
  rw [decide_eq_decide, List.length_drop]
  omega

theorem resolveLoop_exit_fatal (api : APIClient) (shard : BlockInfo) :
    ∀ (ids : List TransactionID) (txList : List Transaction) (calls : List Call) (e : Exit),
      (resolveLoop api shard ids txList calls).exit = some e →
      ∃ err, e = Exit.fatal "get tx data err:" err := by
  intro ids
  induction ids with
  | nil => intro txList calls e h; simp [resolveLoop] at h
  | cons id rest ih =>
    intro txList calls e h
    unfold resolveLoop at h
    cases hg : api.GetTransaction calls shard (Address.mk 0 0 id.AccountID) id.LT with
    | error err =>
      rw [hg] at h
      simp only [Option.some.injEq] at h
      exact ⟨err, h.symm⟩
    | ok tx =>
      rw [hg] at h
      exact ih _ _ _ h

theorem tableClient_full_page (masters : Nat → Except Error BlockInfo)
    (shards parents : BlockInfo → Except Error (List BlockInfo))
    (txs : BlockInfo → List TransactionID) (b : BlockInfo) (h : List Call)
    (after : Option TransactionID) (ids : List TransactionID)
    (hpage : (Fixture.tableClient masters shards parents txs).GetBlockTransactions h b 100 after
      = Except.ok (ids, true)) : ids ≠ [] := by
  intro hnil
  subst hnil
  cases after with
  | none =>
    simp only [Fixture.tableClient, Except.ok.injEq, Prod.mk.injEq, List.take_eq_nil_iff,
      decide_eq_true_eq] at hpage
    obtain ⟨h1, h2⟩ := hpage
    rcases h1 with h1 | h1
    · omega
    · rw [h1] at h2
      simp at h2
  | some c =>
    simp only [Fixture.tableClient, Except.ok.injEq, Prod.mk.injEq, List.take_eq_nil_iff,
      decide_eq_true_eq] at hpage
    obtain ⟨h1, h2⟩ := hpage
    rcases h1 with h1 | h1
    · omega
    · rw [h1] at h2
      simp at h2

theorem fetchedPages_append (api : APIClient) :
    ∀ (l₁ l₂ pre : List Call), fetchedPages api pre (l₁ ++ l₂)
      = fetchedPages api pre l₁ ++ fetchedPages api (pre ++ l₁) l₂ := by
  intro l₁
  induction l₁ with
  | nil => intro l₂ pre; simp [fetchedPages]
  | cons c rest ih =>
    intro l₂ pre
    cases c <;> simp [fetchedPages, ih]

theorem resolvedTxs_append (api : APIClient) :
    ∀ (l₁ l₂ pre : List Call), resolvedTxs api pre (l₁ ++ l₂)
      = resolvedTxs api pre l₁ ++ resolvedTxs api (pre ++ l₁) l₂ := by
  intro l₁
  induction l₁ with
  | nil => intro l₂ pre; simp [resolvedTxs]
  | cons c rest ih =>
    intro l₂ pre
    cases c <;> simp [resolvedTxs, ih]

theorem fetchedPages_resolves (api : APIClient) (shard : BlockInfo) :
    ∀ (page : List TransactionID) (pre : List Call),
      fetchedPages api pre
        (page.map (fun id => Call.GetTransaction shard (Address.mk 0 0 id.AccountID) id.LT))
        = [] := by
  intro page
  induction page with
  | nil => intro pre; rfl
  | cons id rest ih => intro pre; simp [fetchedPages, ih]

/-- A resolve loop that ends normally resolved every identifier of the page, in order. -/
theorem resolveLoop_order (api : APIClient) (shard : BlockInfo) :
    ∀ (page : List TransactionID) (txList : List Transaction) (calls : List Call),
      (resolveLoop api shard page txList calls).exit = none →
      (resolveLoop api shard page txList calls).calls
          = calls ++ page.map
              (fun id => Call.GetTransaction shard (Address.mk 0 0 id.AccountID) id.LT) ∧
        (resolveLoop api shard page txList calls).txList
          = txList ++ resolvedTxs api calls
              (page.map
                (fun id => Call.GetTransaction shard (Address.mk 0 0 id.AccountID) id.LT)) ∧
        (resolvedTxs api calls
          (page.map
            (fun id => Call.GetTransaction shard (Address.mk 0 0 id.AccountID) id.LT))).length
          = page.length := by
  intro page
  induction page with
  | nil => intro txList calls _; simp [resolveLoop, resolvedTxs]
  | cons id rest ih =>
    intro txList calls h
    unfold resolveLoop at h ⊢
    cases hg : api.GetTransaction calls shard (Address.mk 0 0 id.AccountID) id.LT with
    | error err => rw [hg] at h; simp at h
    | ok tx =>
      rw [hg] at h
      dsimp only at h ⊢
      obtain ⟨h1, h2, h3⟩ := ih _ _ h
      refine ⟨?_, ?_, ?_⟩
      · rw [h1]; simp
      · rw [h2]; simp [resolvedTxs, hg]
      · simp only [List.map_cons, resolvedTxs, hg, List.length_append, List.length_cons,
          List.length_nil, h3]
        omega

theorem pageLoop_order (api : APIClient) (shard : BlockInfo) :
    ∀ (fuel : Nat) (after : Option TransactionID) (txList : List Transaction)
      (calls : List Call) (t : TxScan),
      pageLoop api shard fuel after txList calls = some t → t.exit = none →
      ∃ added, t.calls = calls ++ added ∧
        t.txList = txList ++ resolvedTxs api calls added ∧
        resolveCalls added = (fetchedPages api calls added).flatten.map
          (fun id => (shard, Address.mk 0 0 id.AccountID, id.LT)) ∧
        (resolvedTxs api calls added).length = (fetchedPages api calls added).flatten.length := by
  intro fuel
  induction fuel with
  | zero => intro after txList calls t h; simp [pageLoop] at h
  | succ n ih =>
    intro after txList calls t h hexit
    unfold pageLoop at h
    cases hg : api.GetBlockTransactions calls shard 100 after with
    | error err =>
      rw [hg] at h
      simp only [Option.some.injEq] at h
      subst h
      simp at hexit
    | ok page =>
      obtain ⟨fetchedIDs, more⟩ := page
      rw [hg] at h
      dsimp only at h
      have hfetch : fetchedPages api calls [Call.GetBlockTransactions shard 100 after]
          = [fetchedIDs] := by simp [fetchedPages, hg]
      have hstep : ∀ (r : TxScan),
          r = resolveLoop api shard fetchedIDs txList
            (calls ++ [Call.GetBlockTransactions shard 100 after]) → r.exit = none →
          r.calls = calls ++ ([Call.GetBlockTransactions shard 100 after]
              ++ fetchedIDs.map
                (fun id => Call.GetTransaction shard (Address.mk 0 0 id.AccountID) id.LT)) ∧
            r.txList = txList ++ resolvedTxs api calls
              ([Call.GetBlockTransactions shard 100 after]
                ++ fetchedIDs.map
                  (fun id => Call.GetTransaction shard (Address.mk 0 0 id.AccountID) id.LT)) ∧
            resolveCalls ([Call.GetBlockTransactions shard 100 after]
                ++ fetchedIDs.map
                  (fun id => Call.GetTransaction shard (Address.mk 0 0 id.AccountID) id.LT))
              = (fetchedPages api calls ([Call.GetBlockTransactions shard 100 after]
                ++ fetchedIDs.map
                  (fun id => Call.GetTransaction shard (Address.mk 0 0 id.AccountID)
                    id.LT))).flatten.map
                (fun id => (shard, Address.mk 0 0 id.AccountID, id.LT)) ∧
            (resolvedTxs api calls ([Call.GetBlockTransactions shard 100 after]
                ++ fetchedIDs.map
                  (fun id => Call.GetTransaction shard (Address.mk 0 0 id.AccountID)
                    id.LT))).length
              = (fetchedPages api calls ([Call.GetBlockTransactions shard 100 after]
                ++ fetchedIDs.map
                  (fun id => Call.GetTransaction shard (Address.mk 0 0 id.AccountID)
                    id.LT))).flatten.length := by
        intro r hr hre
        subst hr
        obtain ⟨h1, h2, h3⟩ := resolveLoop_order api shard fetchedIDs txList _ hre
        refine ⟨by rw [h1, List.append_assoc], ?_, ?_, ?_⟩
        · rw [h2, resolvedTxs_append]
          simp [resolvedTxs]
        · rw [resolveCalls_append, resolveCalls_resolves, fetchedPages_append, hfetch,
            fetchedPages_resolves]
          simp [resolveCalls]
        · rw [resolvedTxs_append, fetchedPages_append, hfetch, fetchedPages_resolves]
          simp [resolvedTxs, h3]
      cases more with
      | false =>
        simp only [Bool.false_eq_true, if_false, Option.some.injEq] at h
        obtain ⟨h1, h2, h3, h4⟩ := hstep t h.symm hexit
        exact ⟨_, h1, h2, h3, h4⟩
      | true =>
        simp only [if_true] at h
        cases hl : fetchedIDs.getLast? with
        | none =>
          rw [hl] at h
          simp only [Option.some.injEq] at h
          subst h
          simp at hexit
        | some last =>
          rw [hl] at h
          dsimp only at h
          cases hr : (resolveLoop api shard fetchedIDs txList
              (calls ++ [Call.GetBlockTransactions shard 100 after])).exit with
          | some e' =>
            rw [hr] at h
            simp only [Option.some.injEq] at h
            subst h
            rw [hr] at hexit
            simp at hexit
          | none =>
            rw [hr] at h
            dsimp only at h
            obtain ⟨h1, h2, h3, h4⟩ := hstep _ rfl hr
            obtain ⟨added, g1, g2, g3, g4⟩ := ih _ _ _ t h hexit
            rw [h1] at g1 g2 g3 g4
            rw [h2] at g2
            refine ⟨([Call.GetBlockTransactions shard 100 after]
              ++ fetchedIDs.map
                (fun id => Call.GetTransaction shard (Address.mk 0 0 id.AccountID) id.LT))
              ++ added, ?_, ?_, ?_, ?_⟩
            · rw [g1, List.append_assoc]
            · rw [g2, resolvedTxs_append api
                ([Call.GetBlockTransactions shard 100 after]
                  ++ fetchedIDs.map
                    (fun id => Call.GetTransaction shard (Address.mk 0 0 id.AccountID) id.LT))
                added calls, List.append_assoc]
            · rw [resolveCalls_append, fetchedPages_append api
                ([Call.GetBlockTransactions shard 100 after]
                  ++ fetchedIDs.map
                    (fun id => Call.GetTransaction shard (Address.mk 0 0 id.AccountID) id.LT))
                added calls, List.flatten_append, List.map_append, h3, g3]
            · rw [resolvedTxs_append api
                ([Call.GetBlockTransactions shard 100 after]
                  ++ fetchedIDs.map
                    (fun id => Call.GetTransaction shard (Address.mk 0 0 id.AccountID) id.LT))
                added calls, fetchedPages_append api
                ([Call.GetBlockTransactions shard 100 after]
                  ++ fetchedIDs.map
                    (fun id => Call.GetTransaction shard (Address.mk 0 0 id.AccountID) id.LT))
                added calls, List.flatten_append, List.length_append, List.length_append, h4, g4]

theorem blocksLoop_order (api : APIClient) (fuel : Nat) :
    ∀ (blocks : List BlockInfo) (txList : List Transaction) (calls : List Call) (t : TxScan),
      blocksLoop api fuel blocks txList calls = some t → t.exit = none →
      ∃ segs : List (List Call), segs.length = blocks.length ∧
        t.calls = calls ++ segs.flatten ∧
        t.txList = txList ++ resolvedTxs api calls segs.flatten ∧
        ∀ (i : Nat) (seg : List Call) (b : BlockInfo), segs[i]? = some seg →
          blocks[i]? = some b →
          resolveCalls seg
              = (fetchedPages api (calls ++ (segs.take i).flatten) seg).flatten.map
                  (fun id => (b, Address.mk 0 0 id.AccountID, id.LT)) ∧
            (resolvedTxs api (calls ++ (segs.take i).flatten) seg).length
              = (fetchedPages api (calls ++ (segs.take i).flatten) seg).flatten.length := by
  intro blocks
  induction blocks with
  | nil =>
    intro txList calls t h _
    simp only [blocksLoop, Option.some.injEq] at h
    subst h
    exact ⟨[], rfl, by simp, by simp [resolvedTxs], by simp⟩
  | cons x rest ih =>
    intro txList calls t h hexit
    unfold blocksLoop at h
    cases hp : pageLoop api x fuel none txList calls with
    | none => simp [hp] at h
    | some r =>
      rw [hp] at h
      dsimp only at h
      cases hr : r.exit with
      | some e =>
        rw [hr] at h
        simp only [Option.some.injEq] at h
        subst h
        rw [hr] at hexit
        simp at hexit
      | none =>
        rw [hr] at h
        dsimp only at h
        obtain ⟨added, h1, h2, h3, h4⟩ := pageLoop_order api x fuel none txList calls r hp hr
        obtain ⟨segs, hlen, g1, g2, gall⟩ := ih _ _ t h hexit
        rw [h1] at g1 g2 gall
        rw [h2] at g2
        refine ⟨added :: segs, by simp [hlen], ?_, ?_, ?_⟩
        · rw [g1, List.flatten_cons, List.append_assoc]
        · rw [g2, List.flatten_cons, resolvedTxs_append api added segs.flatten calls,
            List.append_assoc]
        · intro i seg b hs hb
          cases i with
          | zero =>
            simp only [List.getElem?_cons_zero, Option.some.injEq] at hs hb
            subst hs
            subst hb
            simp only [List.take_zero, List.flatten_nil, List.append_nil]
            exact ⟨h3, h4⟩
          | succ j =>
            simp only [List.getElem?_cons_succ] at hs hb
            have := gall j seg b hs hb
            simp only [List.take_succ_cons, List.flatten_cons, ← List.append_assoc]
            exact this

/-! ## Claims about the master loop -/

/-- C5: split.  `P` is the tracked head of its lane (entry `N`), and a master block declares
the heads `C0` and `C1`, both at `N + 1`, on two distinct keys the map does not hold, each with
`P` as only parent.  The per-shard-head loop then ends normally with the block list `[C0, C1]`
(the common parent `P` is not in it), both new keys mapped to `N + 1`, the entry of `P` kept,
and exactly two requests sent. -/
theorem shardsLoop_split (api : APIClient) (tracker : Tracker) (P C0 C1 : BlockInfo) (N : Nat)
    (hP : P.SeqNo = N) (htrP : tracker (getShardID P) = some N)
    (hC0 : C0.SeqNo = N + 1) (hC1 : C1.SeqNo = N + 1)
    (hK0 : tracker (getShardID C0) = none) (hK1 : tracker (getShardID C1) = none)
    (hK : getShardID C0 ≠ getShardID C1)
    (hpar0 : ∀ h, ∃ blk, api.GetBlockData h C0 = Except.ok blk ∧
      blk.BlockInfo.GetParentBlocks = Except.ok [P])
    (hpar1 : ∀ h, ∃ blk, api.GetBlockData h C1 = Except.ok blk ∧
      blk.BlockInfo.GetParentBlocks = Except.ok [P])
    (fuel : Nat) (hfuel : 2 ≤ fuel) (calls : List Call) :
    ∃ s, shardsLoop api fuel [C0, C1] [] tracker calls = some s ∧
      s.newShards = [C0, C1] ∧ s.exit = none ∧
      s.shardLastSeqno (getShardID C0) = some (N + 1) ∧
      s.shardLastSeqno (getShardID C1) = some (N + 1) ∧
      s.shardLastSeqno (getShardID P) = some N ∧
      s.calls = calls ++ [Call.GetBlockData C0, Call.GetBlockData C1] := by
  obtain ⟨m, rfl⟩ : ∃ m, fuel = m + 2 := ⟨fuel - 2, by omega⟩
  have hPK0 : getShardID P ≠ getShardID C0 := by
    intro h; rw [h, hK0] at htrP; simp at htrP
  have hPK1 : getShardID P ≠ getShardID C1 := by
    intro h; rw [h, hK1] at htrP; simp at htrP
  have hseenP : alreadySeen tracker P = true := alreadySeen_of_entry _ _ (by rw [htrP, hP])
  have hseenP' : alreadySeen (tracker.set (getShardID C0) C0.SeqNo) P = true :=
    alreadySeen_of_entry _ _ (by simp [Tracker.set, hPK0, htrP, hP])
  have hu0 : alreadySeen tracker C0 = false := by simp [alreadySeen, hK0]
  have hu1 : alreadySeen (tracker.set (getShardID C0) C0.SeqNo) C1 = false := by
    simp [alreadySeen, Tracker.set, hK.symm, hK1]
  have hd0 : Descent api tracker [C0] :=
    Descent.base C0 [P] hu0 hpar0 (by simpa using hseenP)
  have hd1 : Descent api (tracker.set (getShardID C0) C0.SeqNo) [C1] :=
    Descent.base C1 [P] hu1 hpar1 (by simpa using hseenP')
  have h0 := getNotSeenShards_descent api tracker _ hd0 C0 rfl (m + 2) (by simp) calls
  have h1 := getNotSeenShards_descent api _ _ hd1 C1 rfl (m + 2) (by simp)
    (calls ++ [Call.GetBlockData C0])
  simp only [List.reverse_cons, List.reverse_nil, List.nil_append, List.map_cons,
    List.map_nil] at h0 h1
  refine ⟨⟨[C0, C1], (tracker.set (getShardID C0) C0.SeqNo).set (getShardID C1) C1.SeqNo,
    calls ++ [Call.GetBlockData C0] ++ [Call.GetBlockData C1], none⟩,
    by simp only [shardsLoop, h0, h1]; rfl, rfl, rfl, ?_, ?_, ?_, by simp⟩
  · simp [Tracker.set, hK, hC0]
  · simp [Tracker.set, hC1]
  · simp [Tracker.set, hPK0, hPK1, htrP]

theorem shardsLoop_split_witness :
    Fixture.diamondTracker (getShardID Fixture.P) = some 5
      ∧ Fixture.diamondTracker (getShardID Fixture.C0) = none
      ∧ Fixture.diamondTracker (getShardID Fixture.C1) = none
      ∧ getShardID Fixture.C0 ≠ getShardID Fixture.C1
      ∧ ∃ s, shardsLoop Fixture.split 2 [Fixture.C0, Fixture.C1] [] Fixture.diamondTracker []
            = some s ∧
          s.newShards = [Fixture.C0, Fixture.C1] ∧ s.exit = none ∧
          s.shardLastSeqno (getShardID Fixture.C0) = some (5 + 1) ∧
          s.shardLastSeqno (getShardID Fixture.C1) = some (5 + 1) ∧
          s.shardLastSeqno (getShardID Fixture.P) = some 5 ∧
          s.calls = [] ++ [Call.GetBlockData Fixture.C0, Call.GetBlockData Fixture.C1] :=
  ⟨by decide, by decide, by decide, by decide,
    shardsLoop_split Fixture.split Fixture.diamondTracker Fixture.P Fixture.C0 Fixture.C1 5
      (by decide) (by decide) (by decide) (by decide) (by decide) (by decide) (by decide)
      (fun _ => ⟨_, rfl, rfl⟩) (fun _ => ⟨_, rfl, rfl⟩) 2 (by decide) []⟩

/-- C8 (amended): when a pass of the master loop ends the process, the map at that moment is
the map at the start of the pass updated, in declaration order, with the shard heads whose
gap-fill had already succeeded: none of them (the map is unchanged) when the master lookup or the
shard-head request fails or the gap-fill of the first head fails, the heads before the failing
one when a later gap-fill fails, all declared heads when the transaction enumeration fails. -/
theorem masterStep_abort (api : APIClient) (fuel masterShard : Nat) (st st' : State)
    (seqNo : Nat) (e : Exit)
    (h : masterStep api fuel masterShard st seqNo = some (st', some e)) :
    (∃ err, api.LookupBlock st.calls (-1) (toInt64 masterShard) seqNo = Except.error err ∧
      e = Exit.fatal "wait next master err:" err ∧ st'.shardLastSeqno = st.shardLastSeqno) ∨
    (∃ master, api.LookupBlock st.calls (-1) (toInt64 masterShard) seqNo = Except.ok master ∧
      ((∃ err, api.GetBlockShardsInfo
            (st.calls ++ [Call.LookupBlock (-1) (toInt64 masterShard) seqNo]) master
            = Except.error err ∧
          e = Exit.fatal "get shards err:" err ∧ st'.shardLastSeqno = st.shardLastSeqno) ∨
       (∃ heads, api.GetBlockShardsInfo
            (st.calls ++ [Call.LookupBlock (-1) (toInt64 masterShard) seqNo]) master
            = Except.ok heads ∧
          ((∃ k x c r err, heads[k]? = some x ∧
              getNotSeenShards api fuel c x (seedLoop (heads.take k) st.shardLastSeqno) = some r ∧
              r.err = some err ∧ e = Exit.fatal "get not seen shards err:" err ∧
              st'.shardLastSeqno = seedLoop (heads.take k) st.shardLastSeqno) ∨
           (TxExit e ∧ st'.shardLastSeqno = seedLoop heads st.shardLastSeqno))))) := by
  unfold masterStep at h
  cases hl : api.LookupBlock st.calls (-1) (toInt64 masterShard) seqNo with
  | error err =>
    rw [hl] at h
    simp only [Option.some.injEq, Prod.mk.injEq] at h
    obtain ⟨h1, h2⟩ := h
    subst h1
    exact Or.inl ⟨err, rfl, h2.symm, rfl⟩
  | ok master =>
    rw [hl] at h
    dsimp only at h
    right
    refine ⟨master, rfl, ?_⟩
    cases hs : api.GetBlockShardsInfo
        (st.calls ++ [Call.LookupBlock (-1) (toInt64 masterShard) seqNo]) master with
    | error err =>
      rw [hs] at h
      simp only [Option.some.injEq, Prod.mk.injEq] at h
      obtain ⟨h1, h2⟩ := h
      subst h1
      exact Or.inl ⟨err, rfl, h2.symm, rfl⟩
    | ok heads =>
      rw [hs] at h
      dsimp only at h
      right
      refine ⟨heads, rfl, ?_⟩
      cases hsl : shardsLoop api fuel heads [] st.shardLastSeqno
          (st.calls ++ [Call.LookupBlock (-1) (toInt64 masterShard) seqNo,
            Call.GetBlockShardsInfo master]) with
      | none => rw [hsl] at h; simp at h
      | some s =>
        rw [hsl] at h
        dsimp only at h
        obtain ⟨k, hk, htr, hnone, hsome⟩ := shardsLoop_failing_head api fuel _ _ _ _ _ hsl
        cases hse : s.exit with
        | some e' =>
          rw [hse] at h
          simp only [Option.some.injEq, Prod.mk.injEq] at h
          obtain ⟨h1, h2⟩ := h
          subst h1
          obtain ⟨x, c, r, err, hx, hg, hr, he'⟩ := hsome e' hse
          exact Or.inl ⟨k, x, c, r, err, hx, hg, hr, by rw [← h2, he'], htr⟩
        | none =>
          rw [hse] at h
          dsimp only at h
          have hk' := hnone hse
          subst hk'
          simp only [List.take_length] at htr
          cases hb : blocksLoop api fuel s.newShards [] s.calls with
          | none => rw [hb] at h; simp at h
          | some t =>
            rw [hb] at h
            dsimp only at h
            cases hte : t.exit with
            | some e' =>
              rw [hte] at h
              simp only [Option.some.injEq, Prod.mk.injEq] at h
              obtain ⟨h1, h2⟩ := h
              subst h1
              subst h2
              exact Or.inr ⟨blocksLoop_exit api fuel _ _ _ _ _ hb hte, htr⟩
            | none =>
              rw [hte] at h
              simp at h


theorem masterStep_abort_witness :
    masterStep Fixture.aborting 2 0x8000000000000000 Fixture.abortStart 10
        = some (Fixture.abortEnd, some Fixture.abortExit)
      ∧ ((∃ err, Fixture.aborting.LookupBlock Fixture.abortStart.calls (-1)
              (toInt64 0x8000000000000000) 10 = Except.error err ∧
            Fixture.abortExit = Exit.fatal "wait next master err:" err ∧
            Fixture.abortEnd.shardLastSeqno = Fixture.abortStart.shardLastSeqno) ∨
          (∃ master, Fixture.aborting.LookupBlock Fixture.abortStart.calls (-1)
              (toInt64 0x8000000000000000) 10 = Except.ok master ∧
            ((∃ err, Fixture.aborting.GetBlockShardsInfo
                  (Fixture.abortStart.calls
                    ++ [Call.LookupBlock (-1) (toInt64 0x8000000000000000) 10]) master
                  = Except.error err ∧
                Fixture.abortExit = Exit.fatal "get shards err:" err ∧
                Fixture.abortEnd.shardLastSeqno = Fixture.abortStart.shardLastSeqno) ∨
             (∃ heads, Fixture.aborting.GetBlockShardsInfo
                  (Fixture.abortStart.calls
                    ++ [Call.LookupBlock (-1) (toInt64 0x8000000000000000) 10]) master
                  = Except.ok heads ∧
                ((∃ k x c r err, heads[k]? = some x ∧
                    getNotSeenShards Fixture.aborting 2 c x
                      (seedLoop (heads.take k) Fixture.abortStart.shardLastSeqno) = some r ∧
                    r.err = some err ∧
                    Fixture.abortExit = Exit.fatal "get not seen shards err:" err ∧
                    Fixture.abortEnd.shardLastSeqno
                      = seedLoop (heads.take k) Fixture.abortStart.shardLastSeqno) ∨
                 (TxExit Fixture.abortExit ∧
                    Fixture.abortEnd.shardLastSeqno
                      = seedLoop heads Fixture.abortStart.shardLastSeqno)))))) :=
  ⟨rfl, masterStep_abort Fixture.aborting 2 0x8000000000000000 Fixture.abortStart
    Fixture.abortEnd 10 Fixture.abortExit rfl⟩

/-- C8 (counterexample): the master block declares the heads `A` and `B`; the gap-fill of `A`
succeeds, the one of `B` fails and ends the process.  At that moment the entry of `A` is 7,
whereas the map held no entry for `A` when the pass started. -/
theorem masterStep_abort_not_atomic :
    (masterStep Fixture.aborting 2 0x8000000000000000 Fixture.abortStart 10).map
        (fun r => (r.2, r.1.shardLastSeqno (getShardID Fixture.A)))
        = some (some Fixture.abortExit, some 7)
      ∧ Fixture.abortStart.shardLastSeqno (getShardID Fixture.A) = none := by
  exact ⟨rfl, rfl⟩

/-- C9: pagination.  The provider serves the fixed list `ids` for the block: the first request
(no cursor) gets the first 100 identifiers, a request with cursor `ids[i]` gets the next 100
after position `i`, and has-more is set exactly when identifiers remain after the page; every
identifier resolves.  Then the loop ends normally within `max 1 ⌈n / 100⌉` passes, sends exactly
that many page requests, whose pages have the sizes `min 100 (n - 100 k)`, appends the
transactions of all identifiers in list order and resolves each identifier exactly once, in
that order.  For `n = 250` there are 3 page requests, of sizes 100, 100 and 50. -/
theorem pageLoop_paginates (api : APIClient) (shard : BlockInfo) (ids : List TransactionID)
    (tx : TransactionID → Transaction)
    (hfirst : ∀ h, api.GetBlockTransactions h shard 100 none
      = Except.ok (ids.take 100, decide (100 < ids.length)))
    (hnext : ∀ h i (hi : i < ids.length), api.GetBlockTransactions h shard 100 (some ids[i])
      = Except.ok ((ids.drop (i + 1)).take 100, decide (i + 1 + 100 < ids.length)))
    (hres : ∀ h id, id ∈ ids →
      api.GetTransaction h shard (Address.mk 0 0 id.AccountID) id.LT = Except.ok (tx id))
    (fuel : Nat) (hfuel : max 1 ((ids.length + 99) / 100) ≤ fuel)
    (txList : List Transaction) (calls : List Call) :
    ∃ added, pageLoop api shard fuel none txList calls
        = some ⟨txList ++ ids.map tx, calls ++ added, none⟩ ∧
      fetchCount added = max 1 ((ids.length + 99) / 100) ∧
      fetchedPageSizes api calls added
        = (List.range (max 1 ((ids.length + 99) / 100))).map
            (fun k => min 100 (ids.length - 100 * k)) ∧
      resolveCalls added = ids.map (fun id => (shard, Address.mk 0 0 id.AccountID, id.LT)) ∧
      (ids.length = 250 → fetchCount added = 3 ∧
        fetchedPageSizes api calls added = [100, 100, 50]) := by
  obtain ⟨added, hrun, hsizes, hcalls⟩ :=
    pageLoop_from api shard tx fuel ids none txList calls hfirst hnext hres hfuel
  have hcount : fetchCount added = max 1 ((ids.length + 99) / 100) := by
    rw [← fetchedPageSizes_length api added calls, hsizes, pageSizes, List.length_map,
      List.length_range]
  refine ⟨added, hrun, hcount, hsizes, hcalls, ?_⟩
  intro h250
  rw [hcount, hsizes, h250]
  exact ⟨by decide, by decide⟩

theorem pageLoop_paginates_witness :
    max 1 (((Fixture.txIds 250).length + 99) / 100) ≤ 3
      ∧ ∃ added, pageLoop Fixture.paged (Fixture.blk 0 1 6 0) 3 none [] []
          = some ⟨[] ++ (Fixture.txIds 250).map
              (fun id => Transaction.mk id.AccountID id.LT [6]), [] ++ added, none⟩ ∧
        fetchCount added = max 1 (((Fixture.txIds 250).length + 99) / 100) ∧
        fetchedPageSizes Fixture.paged [] added
          = (List.range (max 1 (((Fixture.txIds 250).length + 99) / 100))).map
              (fun k => min 100 ((Fixture.txIds 250).length - 100 * k)) ∧
        resolveCalls added = (Fixture.txIds 250).map
          (fun id => (Fixture.blk 0 1 6 0, Address.mk 0 0 id.AccountID, id.LT)) ∧
        ((Fixture.txIds 250).length = 250 → fetchCount added = 3 ∧
          fetchedPageSizes Fixture.paged [] added = [100, 100, 50]) :=
  ⟨by simp [Fixture.txIds],
    pageLoop_paginates Fixture.paged (Fixture.blk 0 1 6 0) (Fixture.txIds 250)
      (fun id => Transaction.mk id.AccountID id.LT [6])
      (fun _ => rfl)
      (fun h i hi => tableClient_next_page _ _ _ _ _ (Fixture.txIds 250) rfl (txIds_nodup 250)
        h i hi)
      (fun _ _ _ => rfl) 3 (by simp [Fixture.txIds]) [] []⟩

/-- C10 (amended): the walker writes the sequence number of every processed head into the map
without comparing it with the entry it replaces: the map of the scan, at its end or at its
abort, is the empty map updated with a prefix of the declared heads (the seeding heads, then the
heads of each master block, in declaration order).  When in that sequence a later head of a key
never has a smaller sequence number than an earlier head of the same key, an entry present after
`i` updates is still present after `j ≥ i` updates and has not decreased. -/
theorem tracker_never_decreases (api : APIClient) (fuel masterShard : Nat)
    (master : Nat → BlockInfo) (heads : Nat → List BlockInfo) (seeds : List BlockInfo)
    (seqs : List Nat)
    (hlook : ∀ h n, n ∈ seqs →
      api.LookupBlock h (-1) (toInt64 masterShard) n = Except.ok (master n))
    (hheads : ∀ h n, n ∈ seqs → api.GetBlockShardsInfo h (master n) = Except.ok (heads n))
    (hmono : (seeds ++ (seqs.map heads).flatten).Pairwise HeadsAscend)
    (calls : List Call) (st' : State) (ex : Option Exit)
    (hrun : masterLoop api fuel masterShard seqs ⟨seedLoop seeds Tracker.empty, calls, []⟩
      = some (st', ex)) :
    ∃ k, k ≤ (seqs.map heads).flatten.length ∧ (ex = none → k = (seqs.map heads).flatten.length) ∧
      st'.shardLastSeqno
        = seedLoop ((seeds ++ (seqs.map heads).flatten).take (seeds.length + k)) Tracker.empty ∧
      ∀ i j, i ≤ j → ∀ K v,
        seedLoop ((seeds ++ (seqs.map heads).flatten).take i) Tracker.empty K = some v →
        ∃ n, seedLoop ((seeds ++ (seqs.map heads).flatten).take j) Tracker.empty K = some n ∧
          v ≤ n := by
  obtain ⟨k, hk, hfull, htr⟩ :=
    masterLoop_tracker api fuel masterShard master heads seqs _ st' ex hlook hheads hrun
  refine ⟨k, hk, hfull, ?_, ?_⟩
  · rw [htr, List.take_append, seedLoop_append]
  · intro i j hij K v h
    exact seedLoop_prefix_mono _ hmono i j hij K v h

theorem tracker_never_decreases_witness :
    masterLoop Fixture.steady 3 0x8000000000000000 [10, 11] Fixture.steadyStart
        = some (Fixture.steadyEnd, none)
      ∧ ∃ k, k ≤ ([10, 11].map Fixture.steadyHeads).flatten.length ∧
          ((none : Option Exit) = none → k = ([10, 11].map Fixture.steadyHeads).flatten.length) ∧
          Fixture.steadyEnd.shardLastSeqno
            = seedLoop ((Fixture.steadyHeads 9 ++ ([10, 11].map Fixture.steadyHeads).flatten).take
                ((Fixture.steadyHeads 9).length + k)) Tracker.empty ∧
          ∀ i j, i ≤ j → ∀ K v,
            seedLoop ((Fixture.steadyHeads 9 ++ ([10, 11].map Fixture.steadyHeads).flatten).take i)
              Tracker.empty K = some v →
            ∃ n, seedLoop
                ((Fixture.steadyHeads 9 ++ ([10, 11].map Fixture.steadyHeads).flatten).take j)
                Tracker.empty K = some n ∧ v ≤ n :=
  ⟨rfl, tracker_never_decreases Fixture.steady 3 0x8000000000000000 Fixture.masterBlock
    Fixture.steadyHeads (Fixture.steadyHeads 9) [10, 11] (fun _ _ _ => rfl)
    (fun _ n hn => by
      simp only [List.mem_cons, List.mem_singleton, List.not_mem_nil, or_false] at hn
      rcases hn with rfl | rfl <;> rfl)
    steady_heads_ascend [] Fixture.steadyEnd none rfl⟩

/-- C10 (counterexample): the seeding master block declares the head of shard 0|1 with
sequence number 5, the next master block declares a head of the same shard with sequence
number 3.  The scan seeds the entry 5 and the first pass overwrites it with 3. -/
theorem tracker_decreases :
    (scan Fixture.regress 2 0x8000000000000000 10 10).map
        (fun r => (r.2, r.1.shardLastSeqno (getShardID Fixture.P)))
        = some (none, some 5)
      ∧ (scan Fixture.regress 2 0x8000000000000000 10 11).map
          (fun r => (r.2, r.1.shardLastSeqno (getShardID Fixture.P),
            r.1.passes.map Iteration.newShards))
          = some (none, some 3, [[Fixture.blk 0 1 3 0]]) := by
  exact ⟨rfl, rfl⟩

/-- C4 (amended): round trip.  `H` is the list of the shard heads declared by the master blocks
of the scanned range, in order; the descent from the `k`-th head runs against the map `T0`
updated with the heads before it.  Every block reached by one of these descents is served by
the provider, the same way at every time, with parents of smaller sequence number (as when every
parent has the sequence number one less); splits and merges are allowed.

For every scan of the range that runs to its end: the map ends as `T0` updated with all
declared heads; the concatenation of the emitted block lists is the concatenation of one segment
per declared head, in order, the segment of a head holding exactly the blocks reached from it
(the head itself when it is not yet seen, and its not-yet-seen ancestors), each after its
not-yet-seen parents, so that no reached block is missing; no block occurs twice in the
concatenation if and only if no block is reached twice, neither along two parent paths from one
head nor from two heads (`WalkedOnce`); and when no block is reached twice, for every key `K`
seeded with the sequence number `s` whose reached blocks lie on an unbroken lane (each is the
lane block of its sequence number and has the lane block one below as only parent), the emitted
blocks of key `K` are the lane blocks `s + 1, s + 2, ...` in ascending order without a hole, up
to the final entry of the map for `K` at least.

The scan does run to its end when the fuel exceeds the sequence numbers of the declared heads
and the transaction enumeration of the reached blocks completes. -/
theorem masterLoop_round_trip (api : APIClient) (fuel masterShard : Nat)
    (master : Nat → BlockInfo) (heads : Nat → List BlockInfo) (seqs : List Nat)
    (H : List BlockInfo) (T0 : Tracker) (calls : List Call)
    (hH : H = (seqs.map heads).flatten)
    (hlook : ∀ h n, n ∈ seqs →
      api.LookupBlock h (-1) (toInt64 masterShard) n = Except.ok (master n))
    (hheads : ∀ h n, n ∈ seqs → api.GetBlockShardsInfo h (master n) = Except.ok (heads n))
    (hserved : ∀ (k : Nat) (x y : BlockInfo), H[k]? = some x →
      Reach api (seedLoop (H.take k) T0) x y → Served api y) :
    (∀ st', masterLoop api fuel masterShard seqs ⟨T0, calls, []⟩ = some (st', none) →
      st'.shardLastSeqno = seedLoop H T0 ∧
      (∃ walks : List (List BlockInfo), walks.length = H.length ∧
        (st'.passes.map Iteration.newShards).flatten = walks.flatten ∧
        ∀ (k : Nat) (w : List BlockInfo) (x : BlockInfo), walks[k]? = some w →
          H[k]? = some x →
          (∀ y, y ∈ w ↔ Reach api (seedLoop (H.take k) T0) x y) ∧
          ParentsFirst api (seedLoop (H.take k) T0) w) ∧
      (∀ y, y ∈ (st'.passes.map Iteration.newShards).flatten ↔
        ∃ (k : Nat) (x : BlockInfo), H[k]? = some x ∧
          Reach api (seedLoop (H.take k) T0) x y) ∧
      ((st'.passes.map Iteration.newShards).flatten.Nodup ↔ WalkedOnce api T0 H) ∧
      (∀ (K : String) (lane : Nat → BlockInfo) (s : Nat), T0 K = some s →
        (∀ i, getShardID (lane i) = K) → (∀ i, (lane i).SeqNo = i) →
        (∀ (k : Nat) (x z : BlockInfo), H[k]? = some x →
          Reach api (seedLoop (H.take k) T0) x z → getShardID z = K → OnLane api lane z) →
        WalkedOnce api T0 H →
        ∃ len f,
          (st'.passes.map Iteration.newShards).flatten.filter (fun z => getShardID z = K)
            = (List.range' (s + 1) len).map lane ∧
          st'.shardLastSeqno K = some f ∧ s ≤ f ∧ f ≤ s + len)) ∧
    ((∀ x ∈ H, x.SeqNo < fuel) →
      (∀ (l : List BlockInfo) (c : List Call),
        (∀ y ∈ l, ∃ (k : Nat) (x : BlockInfo), H[k]? = some x ∧
          Reach api (seedLoop (H.take k) T0) x y) →
        ∃ t, blocksLoop api fuel l [] c = some t ∧ t.exit = none) →
      ∃ st', masterLoop api fuel masterShard seqs ⟨T0, calls, []⟩ = some (st', none)) := by
  subst hH
  constructor
  · intro st' hrun
    obtain ⟨walks, hlen, hE, htr, hall⟩ := masterLoop_walks api fuel masterShard master heads
      seqs T0 calls st' hlook hheads hserved hrun
    have hidx : ∀ (k : Nat) (x : BlockInfo), (seqs.map heads).flatten[k]? = some x →
        ∃ w, walks[k]? = some w := by
      intro k x hx
      have hk : k < walks.length := by
        rw [hlen]
        exact (List.getElem?_eq_some_iff.1 hx).1
      exact ⟨_, List.getElem?_eq_getElem hk⟩
    have hidx' : ∀ (k : Nat) (w : List BlockInfo), walks[k]? = some w →
        ∃ x, (seqs.map heads).flatten[k]? = some x := by
      intro k w hw
      have hk : k < (seqs.map heads).flatten.length := by
        rw [← hlen]
        exact (List.getElem?_eq_some_iff.1 hw).1
      exact ⟨_, List.getElem?_eq_getElem hk⟩
    have hmemE : ∀ y, y ∈ (st'.passes.map Iteration.newShards).flatten ↔
        ∃ (k : Nat) (x : BlockInfo), (seqs.map heads).flatten[k]? = some x ∧
          Reach api (seedLoop ((seqs.map heads).flatten.take k) T0) x y := by
      intro y
      rw [hE, mem_flatten_indexed]
      constructor
      · rintro ⟨k, w, hw, hy⟩
        obtain ⟨x, hx⟩ := hidx' k w hw
        exact ⟨k, x, hx, ((hall k w x hw hx).1 y).1 hy⟩
      · rintro ⟨k, x, hx, hy⟩
        obtain ⟨w, hw⟩ := hidx k x hx
        exact ⟨k, w, hw, ((hall k w x hw hx).1 y).2 hy⟩
    have hndE : (st'.passes.map Iteration.newShards).flatten.Nodup
        ↔ WalkedOnce api T0 (seqs.map heads).flatten := by
      rw [hE, nodup_flatten_indexed]
      constructor
      · rintro ⟨h1, h2⟩
        refine ⟨?_, ?_⟩
        · intro k x hx
          obtain ⟨w, hw⟩ := hidx k x hx
          exact (hall k w x hw hx).2.1.1 (h1 k w hw)
        · intro j k xj xk y hjk hj hk hyj hyk
          obtain ⟨wj, hwj⟩ := hidx j xj hj
          obtain ⟨wk, hwk⟩ := hidx k xk hk
          exact h2 j k wj wk y hjk hwj hwk (((hall j wj xj hwj hj).1 y).2 hyj)
            (((hall k wk xk hwk hk).1 y).2 hyk)
      · rintro ⟨h1, h2⟩
        refine ⟨?_, ?_⟩
        · intro k w hw
          obtain ⟨x, hx⟩ := hidx' k w hw
          exact (hall k w x hw hx).2.1.2 (h1 k x hx)
        · intro j k wj wk y hjk hwj hwk hyj hyk
          obtain ⟨xj, hj⟩ := hidx' j wj hwj
          obtain ⟨xk, hk⟩ := hidx' k wk hwk
          exact h2 j k xj xk y hjk hj hk (((hall j wj xj hwj hj).1 y).1 hyj)
            (((hall k wk xk hwk hk).1 y).1 hyk)
    refine ⟨htr, ⟨walks, hlen, hE, fun k w x hw hx =>
      ⟨(hall k w x hw hx).1, (hall k w x hw hx).2.2⟩⟩, hmemE, hndE, ?_⟩
    intro K lane s hs hkey hseq hlane honce
    obtain ⟨len, f, hfil, hf, hsf, hfl⟩ := lane_assembly api K lane hkey hseq s
      (seqs.map heads).flatten walks T0 [] 0 s hlen
      (fun k w x hw hx => ⟨(hall k w x hw hx).1, (hall k w x hw hx).2.1.2 (honce.1 k x hx),
        (hall k w x hw hx).2.2⟩)
      hserved hlane (fun _ _ _ _ _ h => by simp at h) honce.2 (by simp) hs (le_refl _)
      (by omega)
    refine ⟨len, f, ?_, by rw [htr]; exact hf, hsf, hfl⟩
    rw [hE]
    simpa using hfil
  · intro hfuel htx
    apply masterLoop_returns api fuel masterShard master heads
      (fun y => ∃ (k : Nat) (x : BlockInfo), (seqs.map heads).flatten[k]? = some x ∧
        Reach api (seedLoop ((seqs.map heads).flatten.take k) T0) x y)
      htx seqs ⟨T0, calls, []⟩ hlook hheads
    intro k x c hx
    obtain ⟨r, hr, he, hmem, _, _⟩ := getNotSeenShards_reach api
      (seedLoop ((seqs.map heads).flatten.take k) T0) fuel x c
      (hfuel x (List.mem_iff_getElem?.2 ⟨k, hx⟩)) (hserved k x · hx)
    exact ⟨r, hr, he, fun y hy => ⟨k, x, hx, (hmem y).1 hy⟩⟩

theorem masterLoop_round_trip_witness :
    WalkedOnce Fixture.forked Fixture.forkedSeed Fixture.forkedDeclared
      ∧ ∃ st', scan Fixture.forked 9 0x8000000000000000 10 13 = some (st', none)
          ∧ masterLoop Fixture.forked 9 0x8000000000000000 [10, 11, 12]
              ⟨Fixture.forkedSeed,
                [Call.LookupBlock (-1) (toInt64 0x8000000000000000) 9,
                  Call.GetBlockShardsInfo (Fixture.masterBlock 9)], []⟩ = some (st', none)
          ∧ st'.passes.map Iteration.newShards
              = [[Fixture.Q, Fixture.blk 0 5 6 0, Fixture.blk 0 5 7 0],
                  [Fixture.A, Fixture.B], [Fixture.M, Fixture.blk 0 5 8 0]]
          ∧ (st'.passes.map Iteration.newShards).flatten.Nodup
          ∧ (∀ y, y ∈ (st'.passes.map Iteration.newShards).flatten ↔
              ∃ (k : Nat) (x : BlockInfo), Fixture.forkedDeclared[k]? = some x ∧
                Reach Fixture.forked
                  (seedLoop (Fixture.forkedDeclared.take k) Fixture.forkedSeed) x y)
          ∧ st'.shardLastSeqno = seedLoop Fixture.forkedDeclared Fixture.forkedSeed
          ∧ ∃ len f,
              (st'.passes.map Iteration.newShards).flatten.filter
                  (fun z => getShardID z = "0|5") = (List.range' (5 + 1) len).map Fixture.lane5
                ∧ st'.shardLastSeqno "0|5" = some f ∧ 5 ≤ f ∧ f ≤ 5 + len := by
  have h := masterLoop_round_trip Fixture.forked 9 0x8000000000000000 Fixture.masterBlock
    Fixture.forkedHeads [10, 11, 12] Fixture.forkedDeclared Fixture.forkedSeed
    [Call.LookupBlock (-1) (toInt64 0x8000000000000000) 9,
      Call.GetBlockShardsInfo (Fixture.masterBlock 9)] rfl
    (fun _ _ _ => rfl) (fun _ _ _ => rfl)
    (fun _ _ y _ _ => diamondParents_served _ _ _ y)
  obtain ⟨st', hrun⟩ := h.2 (by decide) (fun l c _ => noTxs_blocksLoop _ _ _ 8 l [] c)
  obtain ⟨htr, _, hmem, hnd, hlane⟩ := h.1 st' hrun
  refine ⟨forked_walkedOnce, st', hrun, hrun, ?_, hnd.2 forked_walkedOnce, hmem, htr,
    hlane "0|5" Fixture.lane5 5 (by decide) (fun _ => rfl) (fun _ => rfl) forked_onLane
      forked_walkedOnce⟩
  have hval : (masterLoop Fixture.forked 9 0x8000000000000000 [10, 11, 12]
      ⟨Fixture.forkedSeed,
        [Call.LookupBlock (-1) (toInt64 0x8000000000000000) 9,
          Call.GetBlockShardsInfo (Fixture.masterBlock 9)], []⟩).map
        (fun r => r.1.passes.map Iteration.newShards)
      = some [[Fixture.Q, Fixture.blk 0 5 6 0, Fixture.blk 0 5 7 0],
          [Fixture.A, Fixture.B], [Fixture.M, Fixture.blk 0 5 8 0]] := by rfl
  rw [hrun] at hval
  simpa using hval

/-- C4 (counterexample): two chains whose parent links all go to a block with the sequence number
one less.  In `hiddenSplit`, `Q` has the single parent `P`, and `A` and `B` are the two children
of the split of `Q`; after seeding with the head `P`, the pass for the master block that
declares `A` and `B` emits `Q` twice, once for each child: the blocks of key 0|1 in the output
are `Q, Q`.  In `forked` every block of the split and of the merge is declared as a head; no
block is emitted twice and none is missing, but the key 0|1, left by the split and entered again
by the merge, has the sequence numbers 6 and 8 in the output. -/
theorem scan_emits_twice :
    (scan Fixture.hiddenSplit 3 0x8000000000000000 10 11).map
        (fun r => (r.2, r.1.passes.map Iteration.newShards))
        = some (none, [[Fixture.Q, Fixture.A, Fixture.Q, Fixture.B]])
      ∧ ¬ ([[Fixture.Q, Fixture.A, Fixture.Q, Fixture.B]] : List (List BlockInfo)).flatten.Nodup
      ∧ ([[Fixture.Q, Fixture.A, Fixture.Q, Fixture.B]] : List (List BlockInfo)).flatten.filter
          (fun x => getShardID x = "0|1") = [Fixture.Q, Fixture.Q]
      ∧ [Fixture.Q, Fixture.A, Fixture.B, Fixture.M].map Fixture.diamondParents
          = [Except.ok [Fixture.P], Except.ok [Fixture.Q], Except.ok [Fixture.Q],
              Except.ok [Fixture.A, Fixture.B]]
      ∧ [Fixture.P, Fixture.Q, Fixture.A, Fixture.B, Fixture.M].map BlockInfo.SeqNo
          = [5, 6, 7, 7, 8]
      ∧ (scan Fixture.forked 9 0x8000000000000000 10 13).map
          (fun r => (r.2, r.1.passes.map Iteration.newShards))
          = some (none, [[Fixture.Q, Fixture.blk 0 5 6 0, Fixture.blk 0 5 7 0],
              [Fixture.A, Fixture.B], [Fixture.M, Fixture.blk 0 5 8 0]])
      ∧ ([[Fixture.Q, Fixture.blk 0 5 6 0, Fixture.blk 0 5 7 0], [Fixture.A, Fixture.B],
          [Fixture.M, Fixture.blk 0 5 8 0]] : List (List BlockInfo)).flatten.Nodup
      ∧ (([[Fixture.Q, Fixture.blk 0 5 6 0, Fixture.blk 0 5 7 0], [Fixture.A, Fixture.B],
          [Fixture.M, Fixture.blk 0 5 8 0]] : List (List BlockInfo)).flatten.filter
            (fun x => getShardID x = "0|1")).map BlockInfo.SeqNo = [6, 8] := by
  refine ⟨rfl, by decide, by decide, rfl, by decide, rfl, by decide, by decide⟩

/-! ## Claims settled after the first ten -/

/-- C18: the only out-of-range index of the pagination loop is `fetchedIDs[len(fetchedIDs)-1]`
of line 136.  When the provider never answers a page request of the loop with has-more set and
an empty page, the loop never stops with an index out of range, whatever else happens; when the
provider answers the request of a pass with has-more set and an empty page, that pass stops the
process with an index out of range before any transaction of the page is resolved. -/
theorem pageLoop_cursor_index (api : APIClient) (shard : BlockInfo) :
    ((∀ h after ids, api.GetBlockTransactions h shard 100 after = Except.ok (ids, true) →
        ids ≠ []) →
      ∀ fuel after txList calls t, pageLoop api shard fuel after txList calls = some t →
        t.exit ≠ some Exit.indexOutOfRange) ∧
    (∀ fuel after txList calls,
      api.GetBlockTransactions calls shard 100 after = Except.ok ([], true) →
      pageLoop api shard (fuel + 1) after txList calls
        = some ⟨txList, calls ++ [Call.GetBlockTransactions shard 100 after],
            some Exit.indexOutOfRange⟩) := by
  constructor
  · intro hne fuel
    induction fuel with
    | zero => intro after txList calls t h; simp [pageLoop] at h
    | succ n ih =>
      intro after txList calls t h
      unfold pageLoop at h
      cases hg : api.GetBlockTransactions calls shard 100 after with
      | error err =>
        rw [hg] at h
        simp only [Option.some.injEq] at h
        subst h
        simp
      | ok page =>
        obtain ⟨fetchedIDs, more⟩ := page
        rw [hg] at h
        dsimp only at h
        cases more with
        | false =>
          simp only [Bool.false_eq_true, if_false, Option.some.injEq] at h
          subst h
          intro he
          obtain ⟨err, h1⟩ := resolveLoop_exit_fatal api shard _ _ _ _ he
          cases h1
        | true =>
          simp only [if_true] at h
          cases hl : fetchedIDs.getLast? with
          | none =>
            exfalso
            apply hne calls after fetchedIDs hg
            simpa using hl
          | some last =>
            rw [hl] at h
            dsimp only at h
            cases hr : (resolveLoop api shard fetchedIDs txList
                (calls ++ [Call.GetBlockTransactions shard 100 after])).exit with
            | some e' =>
              rw [hr] at h
              simp only [Option.some.injEq] at h
              subst h
              intro he
              obtain ⟨err, h1⟩ := resolveLoop_exit_fatal api shard _ _ _ _ he
              cases h1
            | none =>
              rw [hr] at h
              exact ih _ _ _ _ h
  · intro fuel after txList calls hg
    simp [pageLoop, hg]

theorem pageLoop_cursor_index_witness :
    pageLoop Fixture.emptyMore Fixture.lost (0 + 1) none [] []
        = some ⟨[], [] ++ [Call.GetBlockTransactions Fixture.lost 100 none],
            some Exit.indexOutOfRange⟩
      ∧ ∀ fuel after txList calls t,
          pageLoop Fixture.paged Fixture.lost fuel after txList calls = some t →
          t.exit ≠ some Exit.indexOutOfRange :=
  ⟨(pageLoop_cursor_index Fixture.emptyMore Fixture.lost).2 0 none [] [] rfl,
    (pageLoop_cursor_index Fixture.paged Fixture.lost).1
      (fun h after ids hp => tableClient_full_page _ _ _ _ _ h after ids hp)⟩

/-- C19 (the code at a failing input): the header of the block of workchain 0, shard 9,
sequence number 1 has a failing parent lookup.  The error returned names the block as
`(0:9:9)`: the third field of the triple is the shard again, not the sequence number 1. -/
theorem parentBlocksErrText_third_field :
    getNotSeenShards Fixture.headless 1 [] Fixture.lost Tracker.empty
        = some ⟨[], some (Error.wrapped "get parent blocks (0:9:9): " Fixture.unavailable),
            [Call.GetBlockData Fixture.lost]⟩
      ∧ Fixture.lost.SeqNo = 1
      ∧ (Error.wrapped (parentBlocksErrText Fixture.lost) Fixture.unavailable).message
          = "get parent blocks (0:9:9): unavailable" := by
  exact ⟨rfl, rfl, rfl⟩

/-- C12 (amended): seeding baseline.  When seeded heads that share a key share the sequence
number (in particular when the seeded heads have pairwise different keys), every seeded head
has its own sequence number as entry after the seeding loop; a per-shard-head loop over exactly
the seeded heads ends normally with an empty block list and the same map, without sending a
request, for every client; and a pass of the master loop whose master block is found and
declares exactly the seeded heads ends normally, records an empty block list (and therefore an
empty transaction list) for that master block and leaves the map as seeded, for every client:
its only requests are the lookup of the master block and the request for its shard heads. -/
theorem seed_baseline (firstShards : List BlockInfo) (hl : firstShards.Pairwise HeadsAgree) :
    (∀ h ∈ firstShards,
      seedLoop firstShards Tracker.empty (getShardID h) = some h.SeqNo) ∧
    (∀ (api : APIClient) (fuel : Nat) (calls : List Call),
      shardsLoop api (fuel + 1) firstShards [] (seedLoop firstShards Tracker.empty) calls
        = some ⟨[], seedLoop firstShards Tracker.empty, calls, none⟩) ∧
    (∀ (api : APIClient) (fuel masterShard seqNo : Nat) (calls : List Call)
        (passes : List Iteration) (master : BlockInfo),
      api.LookupBlock calls (-1) (toInt64 masterShard) seqNo = Except.ok master →
      api.GetBlockShardsInfo (calls ++ [Call.LookupBlock (-1) (toInt64 masterShard) seqNo]) master
        = Except.ok firstShards →
      masterStep api (fuel + 1) masterShard ⟨seedLoop firstShards Tracker.empty, calls, passes⟩
          seqNo
        = some (⟨seedLoop firstShards Tracker.empty,
              calls ++ [Call.LookupBlock (-1) (toInt64 masterShard) seqNo,
                Call.GetBlockShardsInfo master],
              passes ++ [⟨master, [], []⟩]⟩, none)) := by
  have h1 : ∀ h ∈ firstShards,
      seedLoop firstShards Tracker.empty (getShardID h) = some h.SeqNo :=
    fun h hh => seedLoop_agree firstShards hl Tracker.empty h hh
  refine ⟨h1, fun api fuel calls => shardsLoop_all_seen api fuel firstShards [] _ calls h1, ?_⟩
  intro api fuel masterShard seqNo calls passes master hlook hheads
  have hs := shardsLoop_all_seen api fuel firstShards [] _
    (calls ++ [Call.LookupBlock (-1) (toInt64 masterShard) seqNo,
      Call.GetBlockShardsInfo master]) h1
  simp only [masterStep, hlook, hheads, hs, blocksLoop]

theorem seed_baseline_witness :
    (Fixture.steadyHeads 9).Pairwise HeadsAgree
      ∧ (∀ h ∈ Fixture.steadyHeads 9,
          seedLoop (Fixture.steadyHeads 9) Tracker.empty (getShardID h) = some h.SeqNo)
      ∧ shardsLoop Fixture.deadClient (0 + 1) (Fixture.steadyHeads 9) []
            (seedLoop (Fixture.steadyHeads 9) Tracker.empty) []
          = some ⟨[], seedLoop (Fixture.steadyHeads 9) Tracker.empty, [], none⟩
      ∧ masterStep Fixture.steady (0 + 1) 0x8000000000000000
            ⟨seedLoop (Fixture.steadyHeads 9) Tracker.empty, [], []⟩ 12
          = some (⟨seedLoop (Fixture.steadyHeads 9) Tracker.empty,
                [] ++ [Call.LookupBlock (-1) (toInt64 0x8000000000000000) 12,
                  Call.GetBlockShardsInfo (Fixture.masterBlock 12)],
                [] ++ [⟨Fixture.masterBlock 12, [], []⟩]⟩, none) :=
  ⟨by decide, (seed_baseline (Fixture.steadyHeads 9) (by decide)).1,
    (seed_baseline (Fixture.steadyHeads 9) (by decide)).2.1 Fixture.deadClient 0 [],
    (seed_baseline (Fixture.steadyHeads 9) (by decide)).2.2 Fixture.steady 0 0x8000000000000000
      12 [] [] (Fixture.masterBlock 12) rfl rfl⟩

/-- C12 (counterexample): the seeding list holds two heads of shard 0|1, with the sequence
numbers 5 and 7.  After seeding the entry is 7, not the 5 of the first head, and the next pass
over the same two heads backfills the lane from sequence number 0: its block list has eight
blocks. -/
theorem seed_baseline_duplicate_key :
    seedLoop [Fixture.blk 0 1 5 0, Fixture.blk 0 1 7 0] Tracker.empty
        (getShardID (Fixture.blk 0 1 5 0)) = some 7
      ∧ (Fixture.blk 0 1 5 0).SeqNo = 5
      ∧ (shardsLoop Fixture.lanes 7 [Fixture.blk 0 1 5 0, Fixture.blk 0 1 7 0] []
            (seedLoop [Fixture.blk 0 1 5 0, Fixture.blk 0 1 7 0] Tracker.empty) []).map
          (fun s => (s.newShards.map BlockInfo.SeqNo, s.exit,
            s.shardLastSeqno (getShardID (Fixture.blk 0 1 5 0))))
          = some ([0, 1, 2, 3, 4, 5, 6, 7], none, some 7) := by
  exact ⟨rfl, rfl, rfl⟩

/-- C13: a per-shard-head loop that ends normally has as block list the concatenation
`r1 ++ ... ++ rm` of one successful gap-fill result per declared head, in declaration order,
the result for the `i`-th head being computed against the map updated with the heads before it.
Afterwards the map is the initial map updated with all heads in order: the key of a head holds
the sequence number of the last declared head with that key, and a key that is no declared
head's key holds what it held before. -/
theorem shardsLoop_frame (api : APIClient) (fuel : Nat) (heads : List BlockInfo)
    (tracker : Tracker) (calls : List Call) (s : ShardsScan)
    (hrun : shardsLoop api fuel heads [] tracker calls = some s) (hok : s.exit = none) :
    (∃ rs : List Returned, rs.length = heads.length ∧
      s.newShards = (rs.map Returned.ret).flatten ∧
      ∀ (i : Nat) (r : Returned) (h : BlockInfo), rs[i]? = some r → heads[i]? = some h →
        r.err = none ∧
          ∃ c, getNotSeenShards api fuel c h (seedLoop (heads.take i) tracker) = some r) ∧
    s.shardLastSeqno = seedLoop heads tracker ∧
    (∀ pre post h, heads = pre ++ h :: post → (∀ y ∈ post, getShardID y ≠ getShardID h) →
      s.shardLastSeqno (getShardID h) = some h.SeqNo) ∧
    (∀ K, (∀ y ∈ heads, getShardID y ≠ K) → s.shardLastSeqno K = tracker K) := by
  obtain ⟨rs, hlen, hnew, htr, hall⟩ :=
    shardsLoop_results api fuel heads [] tracker calls s hrun hok
  refine ⟨⟨rs, hlen, by simpa using hnew, hall⟩, htr, ?_, ?_⟩
  · intro pre post h hh hpost
    rw [htr, hh]
    exact seedLoop_last pre post h tracker hpost
  · intro K hK
    rw [htr]
    exact seedLoop_untouched heads tracker K hK

theorem shardsLoop_frame_witness :
    (shardsLoop Fixture.lanes 3 (Fixture.steadyHeads 10) []
        (seedLoop (Fixture.steadyHeads 9) Tracker.empty) []).map
        (fun s => (s.newShards, s.calls, s.exit))
        = some ([Fixture.blk 0 1 6 0, Fixture.blk 0 1 7 0],
            [Call.GetBlockData (Fixture.blk 0 1 7 0), Call.GetBlockData (Fixture.blk 0 1 6 0)],
            none)
      ∧ seedLoop (Fixture.steadyHeads 10) (seedLoop (Fixture.steadyHeads 9) Tracker.empty)
          (getShardID (Fixture.blk 0 1 7 0)) = some 7 :=
  ⟨rfl,
    ((shardsLoop_frame Fixture.lanes 3 (Fixture.steadyHeads 10)
      (seedLoop (Fixture.steadyHeads 9) Tracker.empty) []
      ⟨[Fixture.blk 0 1 6 0, Fixture.blk 0 1 7 0],
        seedLoop (Fixture.steadyHeads 10) (seedLoop (Fixture.steadyHeads 9) Tracker.empty),
        [Call.GetBlockData (Fixture.blk 0 1 7 0), Call.GetBlockData (Fixture.blk 0 1 6 0)],
        none⟩ rfl rfl).2.2.1 [] [Fixture.blk 0 2 5 0] (Fixture.blk 0 1 7 0) rfl
      (by decide))⟩

/-- C11: a successful call on a block `b` that is not already seen fetched `b`, got its parent
list `ps` and ran one successful call per parent, in the order of `ps`, each entered with the
history left by the one before it; its result is the concatenation of the parents' results
followed by `b`.  Hence the result is not empty, its last element is `b`, and it is `[b]` when
the provider lists no parents. -/
theorem getNotSeenShards_unfold (api : APIClient) (tracker : Tracker) (fuel : Nat)
    (calls : List Call) (b : BlockInfo) (r : Returned)
    (hb : alreadySeen tracker b = false)
    (hrun : getNotSeenShards api (fuel + 1) calls b tracker = some r) (hok : r.err = none) :
    ∃ (blk : Block) (ps : List BlockInfo) (rs : List Returned),
      api.GetBlockData calls b = Except.ok blk ∧
      blk.BlockInfo.GetParentBlocks = Except.ok ps ∧
      rs.length = ps.length ∧
      (∀ (i : Nat) (p : BlockInfo) (q : Returned), ps[i]? = some p → rs[i]? = some q →
        q.err = none ∧
          getNotSeenShards api fuel (callsBefore (calls ++ [Call.GetBlockData b]) rs i) p tracker
            = some q) ∧
      r.ret = (rs.map Returned.ret).flatten ++ [b] ∧
      r.calls = callsBefore (calls ++ [Call.GetBlockData b]) rs rs.length ∧
      r.ret ≠ [] ∧ r.ret.getLast? = some b ∧ (ps = [] → r.ret = [b]) := by
  obtain ⟨blk, ps, rs, hblk, hps, hlen, hall, hret, hcalls⟩ :=
    getNotSeenShards_unfold_aux api tracker fuel calls b r hb hrun hok
  refine ⟨blk, ps, rs, hblk, hps, hlen, hall, hret, hcalls, by simp [hret], by simp [hret], ?_⟩
  intro hnil
  subst hnil
  have : rs = [] := List.length_eq_zero.mp hlen
  subst this
  simp [hret]

theorem getNotSeenShards_unfold_witness :
    alreadySeen Fixture.mergeTracker Fixture.M = false
      ∧ getNotSeenShards Fixture.merge (3 + 1) [] Fixture.M Fixture.mergeTracker
          = some ⟨[Fixture.blk 0 2 6 0, Fixture.blk 0 2 7 0, Fixture.blk 0 3 7 0, Fixture.M], none,
              [Call.GetBlockData Fixture.M, Call.GetBlockData (Fixture.blk 0 2 7 0),
                Call.GetBlockData (Fixture.blk 0 2 6 0),
                Call.GetBlockData (Fixture.blk 0 3 7 0)]⟩
      ∧ ∃ (blk : Block) (ps : List BlockInfo) (rs : List Returned),
          Fixture.merge.GetBlockData [] Fixture.M = Except.ok blk ∧
          blk.BlockInfo.GetParentBlocks = Except.ok ps ∧
          rs.length = ps.length ∧
          (∀ (i : Nat) (p : BlockInfo) (q : Returned), ps[i]? = some p → rs[i]? = some q →
            q.err = none ∧
              getNotSeenShards Fixture.merge 3
                (callsBefore ([] ++ [Call.GetBlockData Fixture.M]) rs i) p Fixture.mergeTracker
                = some q) ∧
          [Fixture.blk 0 2 6 0, Fixture.blk 0 2 7 0, Fixture.blk 0 3 7 0, Fixture.M]
            = (rs.map Returned.ret).flatten ++ [Fixture.M] ∧
          [Call.GetBlockData Fixture.M, Call.GetBlockData (Fixture.blk 0 2 7 0),
              Call.GetBlockData (Fixture.blk 0 2 6 0), Call.GetBlockData (Fixture.blk 0 3 7 0)]
            = callsBefore ([] ++ [Call.GetBlockData Fixture.M]) rs rs.length ∧
          [Fixture.blk 0 2 6 0, Fixture.blk 0 2 7 0, Fixture.blk 0 3 7 0, Fixture.M] ≠ [] ∧
          [Fixture.blk 0 2 6 0, Fixture.blk 0 2 7 0, Fixture.blk 0 3 7 0, Fixture.M].getLast?
            = some Fixture.M ∧
          (ps = [] →
            [Fixture.blk 0 2 6 0, Fixture.blk 0 2 7 0, Fixture.blk 0 3 7 0, Fixture.M]
              = [Fixture.M]) :=
  ⟨by decide, by decide,
    getNotSeenShards_unfold Fixture.merge Fixture.mergeTracker 3 [] Fixture.M
      ⟨[Fixture.blk 0 2 6 0, Fixture.blk 0 2 7 0, Fixture.blk 0 3 7 0, Fixture.M], none,
        [Call.GetBlockData Fixture.M, Call.GetBlockData (Fixture.blk 0 2 7 0),
          Call.GetBlockData (Fixture.blk 0 2 6 0), Call.GetBlockData (Fixture.blk 0 3 7 0)]⟩
      (by decide) (by decide) rfl⟩

/-- C17: when every parent the provider returns for a block has a smaller sequence number
than the block, the call on `b` returns for every map and every fuel above `b.SeqNo` (the
recursion depth is bounded by the sequence number), and a call that returns without error has
walked a parent tree all of whose branches end in an already seen block or in a block without
parents. -/
theorem getNotSeenShards_terminates (api : APIClient) (tracker : Tracker)
    (hdec : ∀ h x blk ps p, api.GetBlockData h x = Except.ok blk →
      blk.BlockInfo.GetParentBlocks = Except.ok ps → p ∈ ps → p.SeqNo < x.SeqNo)
    (calls : List Call) (b : BlockInfo) :
    (∀ fuel, b.SeqNo < fuel → ∃ r, getNotSeenShards api fuel calls b tracker = some r) ∧
    (∀ fuel r, getNotSeenShards api fuel calls b tracker = some r → r.err = none →
      Ends api tracker b) :=
  ⟨fun fuel h => getNotSeenShards_returns api tracker hdec fuel calls b h,
    fun fuel r h hok => getNotSeenShards_ends api tracker fuel calls b r h hok⟩

theorem getNotSeenShards_terminates_witness :
    (∀ fuel, (Fixture.blk 0 1 8 0).SeqNo < fuel →
        ∃ r, getNotSeenShards Fixture.lanes fuel [] (Fixture.blk 0 1 8 0) Tracker.empty
          = some r) ∧
      (∀ fuel r, getNotSeenShards Fixture.lanes fuel [] (Fixture.blk 0 1 8 0) Tracker.empty
          = some r → r.err = none → Ends Fixture.lanes Tracker.empty (Fixture.blk 0 1 8 0)) :=
  getNotSeenShards_terminates Fixture.lanes Tracker.empty lanes_parents_decrease []
    (Fixture.blk 0 1 8 0)

/-- C16: in the state-passing reading of `getNotSeenShards`, where the map goes into every call
and comes out of it, the map handed back equals the map received, whether the call succeeds,
fails or runs out of fuel never handing anything back; the call agrees with `getNotSeenShards`,
in which every recursive call reads the caller's map. -/
theorem getNotSeenShardsSt_tracker (api : APIClient) (tracker : Tracker) (fuel : Nat)
    (calls : List Call) (b : BlockInfo) :
    getNotSeenShardsSt api fuel calls b tracker
        = (getNotSeenShards api fuel calls b tracker).map (fun r => (r, tracker))
      ∧ ∀ r m, getNotSeenShardsSt api fuel calls b tracker = some (r, m) → m = tracker := by
  have h := getNotSeenShardsSt_eq api tracker fuel calls b
  refine ⟨h, ?_⟩
  intro r m hrm
  rw [h] at hrm
  cases hg : getNotSeenShards api fuel calls b tracker with
  | none => rw [hg] at hrm; simp at hrm
  | some r' =>
    rw [hg] at hrm
    simp only [Option.map_some', Option.some.injEq, Prod.mk.injEq] at hrm
    exact hrm.2.symm

/-- C14: a pagination loop that ends normally resolved exactly the identifiers of the pages
the provider served, page after page and in the order inside each page, and appended to
`txList` exactly the transactions the provider returned for these requests, in that order: as
many transactions as identifiers were served.  A transaction enumeration over a block list that
ends normally consists of one such run of requests per block, in the order of the block list,
so the transactions of an earlier block stand before those of a later one. -/
theorem transactions_in_page_order (api : APIClient) :
    (∀ (shard : BlockInfo) (fuel : Nat) (txList : List Transaction) (calls : List Call)
        (t : TxScan),
      pageLoop api shard fuel none txList calls = some t → t.exit = none →
      ∃ added, t.calls = calls ++ added ∧
        t.txList = txList ++ resolvedTxs api calls added ∧
        resolveCalls added = (fetchedPages api calls added).flatten.map
          (fun id => (shard, Address.mk 0 0 id.AccountID, id.LT)) ∧
        (resolvedTxs api calls added).length = (fetchedPages api calls added).flatten.length) ∧
    (∀ (fuel : Nat) (blocks : List BlockInfo) (calls : List Call) (t : TxScan),
      blocksLoop api fuel blocks [] calls = some t → t.exit = none →
      ∃ segs : List (List Call), segs.length = blocks.length ∧
        t.calls = calls ++ segs.flatten ∧
        t.txList = resolvedTxs api calls segs.flatten ∧
        ∀ (i : Nat) (seg : List Call) (b : BlockInfo), segs[i]? = some seg →
          blocks[i]? = some b →
          resolveCalls seg
              = (fetchedPages api (calls ++ (segs.take i).flatten) seg).flatten.map
                  (fun id => (b, Address.mk 0 0 id.AccountID, id.LT)) ∧
            (resolvedTxs api (calls ++ (segs.take i).flatten) seg).length
              = (fetchedPages api (calls ++ (segs.take i).flatten) seg).flatten.length) := by
  constructor
  · intro shard fuel txList calls t h hexit
    exact pageLoop_order api shard fuel none txList calls t h hexit
  · intro fuel blocks calls t h hexit
    obtain ⟨segs, h1, h2, h3, h4⟩ := blocksLoop_order api fuel blocks [] calls t h hexit
    exact ⟨segs, h1, h2, by simpa using h3, h4⟩

theorem transactions_in_page_order_witness :
    blocksLoop Fixture.twoTxs 1 [Fixture.blk 0 1 6 0, Fixture.blk 0 1 7 0] [] []
        = some Fixture.twoTxsEnd
      ∧ ∃ segs : List (List Call),
          segs.length = [Fixture.blk 0 1 6 0, Fixture.blk 0 1 7 0].length ∧
          Fixture.twoTxsEnd.calls = [] ++ segs.flatten ∧
          Fixture.twoTxsEnd.txList = resolvedTxs Fixture.twoTxs [] segs.flatten ∧
          ∀ (i : Nat) (seg : List Call) (b : BlockInfo), segs[i]? = some seg →
            [Fixture.blk 0 1 6 0, Fixture.blk 0 1 7 0][i]? = some b →
            resolveCalls seg
                = (fetchedPages Fixture.twoTxs ([] ++ (segs.take i).flatten) seg).flatten.map
                    (fun id => (b, Address.mk 0 0 id.AccountID, id.LT)) ∧
              (resolvedTxs Fixture.twoTxs ([] ++ (segs.take i).flatten) seg).length
                = (fetchedPages Fixture.twoTxs ([] ++ (segs.take i).flatten)
                    seg).flatten.length :=
  ⟨rfl, (transactions_in_page_order Fixture.twoTxs).2 1
    [Fixture.blk 0 1 6 0, Fixture.blk 0 1 7 0] [] Fixture.twoTxsEnd rfl rfl⟩

/-- C15: two blocks have the same storage key exactly when they have the same workchain and
the same shard: the decimal renderings joined by `|` never collide, and the sequence number and
the hashes do not enter the key. -/
theorem getShardID_injective (x y : BlockInfo) :
    getShardID x = getShardID y ↔ x.Workchain = y.Workchain ∧ x.Shard = y.Shard := by
  constructor
  · intro h
    have hd := congrArg String.data h
    simp only [getShardID, String.data_append] at hd
    rw [List.append_assoc, List.append_assoc, List.singleton_append,
      List.singleton_append] at hd
    obtain ⟨h1, h2⟩ := split_at_separator '|' _ _ _ _ (fmtDecimal_no_bar x.Workchain)
      (fmtDecimal_no_bar y.Workchain) hd
    exact ⟨fmtDecimal_injective _ _ (String.ext h1), fmtDecimal_injective _ _ (String.ext h2)⟩
  · intro h
    simp only [getShardID, h.1, h.2]

end BlockScan
